import Mathlib

/-!
# FastBasic command-line driver

A shallow embedding of `src/compiler/main.cc` (the `fastbasic` driver) and the
properties of its option parser, pipeline builder and pipeline executor.

Conventions of the embedding:

* a `std::string` is the list of its characters (`Str`);
* the locals of `main` that the argument loop reads and writes are the fields
  of `Vars`; one iteration of the loop is `process_arg`, the loop is `scan`;
* a `return` out of `main` is a `Result`: the exit status and everything the
  run did that is visible from outside (text on `std::cerr`, translator calls,
  external programs started, files removed), in order;
* the helpers of `os.h`, the target loader of `target.h` and the translator of
  `compile.h` are not part of `main.cc`; they are the fields of `Env`, and the
  theorems hold for every `Env` unless they say otherwise.
-/

namespace FastBasic

/-- A `std::string`, as the sequence of its characters. -/
abbrev Str := List Char

/-- The test `arg.rfind(p, 0) == 0`: `arg` begins with `p`. -/
def starts_with (arg p : Str) : Bool := p.isPrefixOf arg

/-- The call `str.substr(pos)`, used only with `pos <= str.size()`. -/
def substr (str : Str) (pos : Nat) : Str := str.drop pos

/-- The call `str.substr(pos, n)`. -/
def substr_n (str : Str) (pos n : Nat) : Str := (str.drop pos).take n

/-- The call `std::tolower(c)` in the "C" locale: only `A`..`Z` change. -/
def tolower (c : Char) : Char :=
  if 65 ≤ c.toNat ∧ c.toNat ≤ 90 then Char.ofNat (c.toNat + 32) else c

/-- Function `to_lower` of main.cc (lines 70-76). -/
def to_lower (s : Str) : Str := s.map tolower

/-- The call `str.find(c, pos)`: index of the first `c` at or after `pos`,
`none` for `npos`. -/
def find (str : Str) (c : Char) (pos : Nat) : Option Nat :=
  ((str.drop pos).findIdx? (fun x => x == c)).map (fun i => pos + i)

/-! ## `std::stoi(str, &pos, 0)`

The standard library function, after ISO C `strtol` with base 0: optional
white space, optional sign, then a hexadecimal (`0x`), octal (leading `0`) or
decimal digit sequence; `none` stands for a thrown exception
(`invalid_argument` when no digit is converted, `out_of_range` when the value
does not fit an `int`). -/

/-- The call `isspace(c)` in the "C" locale. -/
def isspace (c : Char) : Bool := c.toNat = 32 || (9 ≤ c.toNat && c.toNat ≤ 13)

/-- Value of `c` as a digit (`0`-`9`, `a`-`z`, `A`-`Z`), if it is one. -/
def digit_value (c : Char) : Option Nat :=
  if 48 ≤ c.toNat ∧ c.toNat ≤ 57 then some (c.toNat - 48)
  else if 97 ≤ c.toNat ∧ c.toNat ≤ 122 then some (c.toNat - 87)
  else if 65 ≤ c.toNat ∧ c.toNat ≤ 90 then some (c.toNat - 55)
  else none

/-- Whether `c` is a digit of the given base. -/
def is_digit (base : Nat) (c : Char) : Bool :=
  match digit_value c with
  | some d => decide (d < base)
  | none => false

/-- Longest run of digits of `base` at the front of the string: accumulated
value and number of characters read, starting from `(acc, n)`. -/
def scan_digits (base : Nat) : Str → Nat → Nat → Nat × Nat
  | [], acc, n => (acc, n)
  | c :: rest, acc, n =>
    match digit_value c with
    | some d => if d < base then scan_digits base rest (acc * base + d) (n + 1) else (acc, n)
    | none => (acc, n)

/-- Digits of a number after white space and sign, base chosen by the prefix:
the magnitude and the number of characters read, `none` when there is no
digit. -/
def strtol_digits (s : Str) : Option (Nat × Nat) :=
  match s with
  | c0 :: x :: h :: rest =>
    if c0 = '0' ∧ (x = 'x' ∨ x = 'X') ∧ is_digit 16 h then
      let r := scan_digits 16 (h :: rest) 0 0
      some (r.1, 2 + r.2)
    else if c0 = '0' then
      let r := scan_digits 8 s 0 0
      some (r.1, r.2)
    else
      let r := scan_digits 10 s 0 0
      if r.2 = 0 then none else some (r.1, r.2)
  | _ =>
    if s.head? = some '0' then
      let r := scan_digits 8 s 0 0
      some (r.1, r.2)
    else
      let r := scan_digits 10 s 0 0
      if r.2 = 0 then none else some (r.1, r.2)

/-- The call `strtol(s, &end, 0)` without the range check: the value and the
number of characters consumed, `none` when no conversion is done. -/
def strtol0 (s : Str) : Option (Int × Nat) :=
  let ws := (s.takeWhile isspace).length
  let s1 := s.drop ws
  let neg := decide (s1.head? = some '-')
  let sg := if s1.head? = some '-' ∨ s1.head? = some '+' then 1 else 0
  match strtol_digits (s1.drop sg) with
  | none => none
  | some (m, k) => some (if neg then - (m : Int) else (m : Int), ws + sg + k)

/-- The call `std::stoi(s, &pos, 0)`: the `int` and the value stored in `pos`,
or `none` when it throws. -/
def stoi (s : Str) : Option (Int × Nat) :=
  match strtol0 s with
  | none => none
  | some (n, pos) => if n < -2147483648 ∨ 2147483647 < n then none else some (n, pos)

/-! ## Data of the driver -/

/-- What a run does that is visible from outside, one event per action. -/
inductive Event where
  | print (text : Str)
  | compile (bas_name asm_name listing_name : Str)
  | exec (prog : Str) (args : List Str)
  | remove (name : Str)
  deriving DecidableEq, Repr

/-- The value `main` returns and the events of the run up to the return. -/
structure Result where
  status : Int
  trace : List Event
  deriving DecidableEq, Repr

/-- Modelled from the spec: class `compiler` of compile.h (not in main.cc),
the fields `main` assigns with the defaults of the spec's BuildConfig
(optimize on, everything else off or unset; width 0 means no width). -/
structure compiler where
  do_debug : Bool := false
  optimize : Bool := true
  show_stats : Bool := false
  show_text : Bool := false
  short_text : Int := 0
  segname : Str := []
  deriving DecidableEq, Repr

/-- Modelled from the spec: class `target` of target.h (not in main.cc), the
values `main` reads from a loaded target (the spec's TargetDef). -/
structure target where
  lib : Str
  cfg : Str
  bin_ext : Str
  ca65_args : List Str
  deriving DecidableEq, Repr

/-- Everything `main` calls that is not defined in main.cc. The translator
and `os::prog_exec` get the events so far, so that their status may depend
on what happened before; `load` returns the text of the exception on
failure; `compile_file` receives the target in place of `tgt.sl()`. -/
structure Env where
  VERSION : Str
  get_search_path : Str → List Str
  get_extension_lower : Str → Str
  add_extension : Str → Str → Str
  compiler_path : Str → Str
  load : List Str → List Str → Str → Except Str target
  compile_file : List Event → compiler → Str → Str → target → Str → Int
  prog_exec : List Event → Str → List Str → Int

/-- The locals of `main` (lines 102-122). -/
structure Vars where
  syntax_folder : List Str
  target_folder : List Str
  out_name : Str
  exe_name : Str
  got_outname : Bool
  one_step : Bool
  next_is_output : Bool
  keep_temps : Bool
  do_listing : Bool
  target_name : Str
  cfg_file_def : Str
  listing_ext : Str
  comp : compiler
  link_opts : List Str
  asm_opts : List Str
  bas_files : List (Str × Str)
  asm_files : List (Str × Str)
  link_files : List Str
  temp_files : List Str
  deriving DecidableEq, Repr

/-- Function `show_version` (lines 28-32). -/
def show_version (env : Env) : Result :=
  ⟨0, [Event.print ("FastBasic ".toList ++ env.VERSION ++ " - (c) 2025 dmsc\n".toList)]⟩

/-- Text that `show_help` writes after the version line (lines 37-60). -/
def help_text : Str :=
  ("Usage: fastbasic [options] <input.bas> [<file.asm>...]\n" ++
   "\n" ++
   "Options:\n" ++
   " -d\t\tenable parser debug options (only useful to debug parser)\n" ++
   " -n\t\tdon't run the optimizer, produces same code as 6502 version\n" ++
   " -prof\t\tshow token usage statistics\n" ++
   " -s:<name>\tplace code into given segment\n" ++
   " -t:<target>\tselect compiler target ('atari-fp', 'atari-int', etc.)\n" ++
   " -l\t\twrite a long BASIC listing of the parsed source\n" ++
   " -l:<extension>\tspecify the extension of the BASIC listing\n" ++
   " -ls:<num>\twrite a shortened/abbreviated BASIC listing with num columns\n" ++
   " -c\t\tonly compile to assembler, don't produce binary\n" ++
   " -keep\t\tkeep intermediate files on compilation\n" ++
   " -g\t\tsave listing and label files after compilation\n" ++
   " -C:<name>\tselect linker config file name\n" ++
   " -S:<addr>\tselect binary starting address\n" ++
   " -X:<opt>\tpass option to the assembler\n" ++
   " -DL:<sym=val>\tdefine linker symbol with given value\n" ++
   " -o <name>\tselect output file name\n" ++
   " -v\t\tshow version and exit\n" ++
   " -h\t\tshow this help\n" ++
   "\n" ++
   "You can pass multiple basic, assembly and object files to be linked " ++
   "together\n").toList

/-- Function `show_help` (lines 34-62). -/
def show_help (env : Env) : Result :=
  ⟨0, (show_version env).trace ++ [Event.print help_text]⟩

/-- Function `show_error` (lines 64-68). -/
def show_error (msg : Str) : Result :=
  ⟨1, [Event.print ("fastbasic: ".toList ++ msg ++ "\n".toList)]⟩

/-- Function `parse_path_list` (lines 78-94), the loop from position `pos`
with `ret` collected so far. Each round moves `pos` past a colon, so the
loop ends. -/
def parse_path_list_from (str : Str) (pos : Nat) (ret : List Str) : List Str :=
  match h : find str ':' pos with
  | none => ret ++ [substr str pos]
  | some nxt =>
    have : str.length - (nxt + 1) < str.length - pos := by
      simp only [find, Option.map_eq_some'] at h
      obtain ⟨i, hi, rfl⟩ := h
      obtain ⟨hlt, -⟩ := List.findIdx?_eq_some_iff_getElem.mp hi
      simp only [List.length_drop] at hlt
      omega
    parse_path_list_from str (nxt + 1) (ret ++ [substr_n str pos (nxt - pos)])
termination_by str.length - pos

/-- Function `parse_path_list` (lines 78-94). -/
def parse_path_list (str : Str) : List Str := parse_path_list_from str 0 []

/-- The locals of `main` before the argument loop (lines 102-122). -/
def init_vars (env : Env) : Vars :=
  { syntax_folder := env.get_search_path "syntax".toList
    target_folder := env.get_search_path []
    out_name := []
    exe_name := []
    got_outname := false
    one_step := false
    next_is_output := false
    keep_temps := false
    do_listing := false
    target_name := "default".toList
    cfg_file_def := []
    listing_ext := ".list".toList
    comp := {}
    link_opts := []
    asm_opts := ["-g".toList]
    bas_files := []
    asm_files := []
    link_files := []
    temp_files := [] }

/-- One round of the argument loop of `main` (lines 125-284): the locals
after the round, or the `Result` returned from inside the loop. -/
def process_arg (env : Env) (v : Vars) (arg : Str) : Except Result Vars :=
  if v.next_is_output then
    .ok { v with
      out_name := arg
      exe_name := if v.exe_name.isEmpty then arg else v.exe_name
      next_is_output := false }
  else
    let lext := env.get_extension_lower arg
    if arg = "-d".toList then
      .ok { v with comp := { v.comp with do_debug := true } }
    else if arg = "-n".toList then
      .ok { v with comp := { v.comp with optimize := false } }
    else if arg = "-prof".toList then
      .ok { v with comp := { v.comp with show_stats := true } }
    else if arg = "-v".toList then
      .error (show_version env)
    else if arg = "-c".toList then
      .ok { v with one_step := true }
    else if arg = "-l".toList then
      .ok { v with comp := { v.comp with show_text := true } }
    else if starts_with arg "-l:".toList || starts_with arg "-l=".toList then
      let ext := substr arg 3
      if ext.length = 0 ∨ to_lower ext = "bas".toList then
        .error (show_error "invalid BASIC listing extension".toList)
      else
        .ok { v with
          comp := { v.comp with show_text := true }
          listing_ext := ".".toList ++ substr arg 3 }
    else if arg = "-ls".toList then
      .ok { v with comp := { v.comp with show_text := true, short_text := 120 } }
    else if starts_with arg "-ls:".toList || starts_with arg "-ls=".toList then
      let r : Int × Nat :=
        match stoi (substr arg 4) with
        | some (n, p) => (n, p)
        | none => (-1, 0)
      let len := r.1
      let pos := r.2
      if pos ≠ arg.length - 4 ∨ len < 1 ∨ len > 256 then
        .error (show_error "'-ls' option needs line length from 1 to 256".toList)
      else
        .ok { v with comp := { v.comp with show_text := true, short_text := len } }
    else if arg = "-h".toList then
      .error (show_help env)
    else if arg = "-keep".toList then
      .ok { v with keep_temps := true, do_listing := true }
    else if arg = "-g".toList then
      .ok { v with do_listing := true }
    else if arg.isEmpty then
      .error (show_error "invalid argument, try -h for help".toList)
    else if starts_with arg "-o".toList then
      if v.got_outname then
        .error (show_error "multiple '-o' option for the same file".toList)
      else if arg.length > 2 then
        .ok { v with
          got_outname := true
          out_name := substr arg 2
          exe_name := if v.exe_name.isEmpty then substr arg 2 else v.exe_name }
      else
        .ok { v with got_outname := true, next_is_output := true }
    else if starts_with arg "-s:".toList || starts_with arg "-s=".toList then
      let seg := substr arg 3
      if seg.length = 0 ∨ (find seg (Char.ofNat 34) 0).isSome then
        .error (show_error "invalid segment name".toList)
      else
        .ok { v with comp := { v.comp with segname := seg } }
    else if starts_with arg "-t:".toList || starts_with arg "-t=".toList then
      let tgt := substr arg 3
      if tgt.length = 0 ∨ (find tgt (Char.ofNat 34) 0).isSome then
        .error (show_error "invalid compiler target name".toList)
      else
        .ok { v with target_name := tgt }
    else if starts_with arg "-C:".toList || starts_with arg "-C=".toList then
      .ok { v with cfg_file_def := substr arg 3 }
    else if starts_with arg "-X:".toList || starts_with arg "-X=".toList then
      .ok { v with asm_opts := v.asm_opts ++ [substr arg 3] }
    else if starts_with arg "-S:".toList || starts_with arg "-S=".toList then
      .ok { v with link_opts := v.link_opts ++ ["--start-addr".toList, substr arg 3] }
    else if starts_with arg "-DL:".toList || starts_with arg "-DL=".toList then
      .ok { v with link_opts := v.link_opts ++ ["--define".toList, substr arg 4] }
    else if starts_with arg "-syntax-path:".toList
        || starts_with arg "-syntax-path=".toList then
      .ok { v with syntax_folder := parse_path_list (substr arg 13) }
    else if starts_with arg "-target-path:".toList
        || starts_with arg "-target-path=".toList then
      .ok { v with target_folder := parse_path_list (substr arg 13) }
    else if arg.head? = some '-' then
      .error (show_error ("invalid option '".toList ++ arg ++ "', try -h for help".toList))
    else if lext = "o".toList ∨ lext = "obj".toList then
      .ok { v with link_files := v.link_files ++ [arg] }
    else if lext = "s".toList ∨ lext = "asm".toList then
      let obj_name :=
        if v.got_outname then env.add_extension v.out_name ".o".toList
        else env.add_extension arg ".o".toList
      .ok { v with
        got_outname := false
        asm_files := v.asm_files ++ [(arg, obj_name)]
        link_files := if ¬ v.one_step then v.link_files ++ [obj_name] else v.link_files }
    else
      let asm_name :=
        if v.got_outname then env.add_extension v.out_name ".asm".toList
        else env.add_extension arg ".asm".toList
      let obj_name :=
        if v.got_outname then env.add_extension v.out_name ".o".toList
        else env.add_extension arg ".o".toList
      .ok { v with
        got_outname := false
        bas_files := v.bas_files ++ [(arg, asm_name)]
        asm_files := if ¬ v.one_step then v.asm_files ++ [(asm_name, obj_name)] else v.asm_files
        link_files := if ¬ v.one_step then v.link_files ++ [obj_name] else v.link_files }

/-- The argument loop of `main` (lines 125-284) over the arguments left. -/
def scan (env : Env) : Vars → List Str → Except Result Vars
  | v, [] => .ok v
  | v, arg :: rest =>
    match process_arg env v arg with
    | .ok v1 => scan env v1 rest
    | .error r => .error r

/-- The locals of `main` once the target is loaded (lines 291-309). -/
structure Plan where
  v : Vars
  tgt : target
  lib_name : Str
  cfg_file : Str
  deriving DecidableEq, Repr

/-- Lines 285-309 of `main`: the checks after the loop, the target, the
library, the linker configuration, the assembler options and the guess of
the executable name. -/
def resolve (env : Env) (v : Vars) : Except Result Plan :=
  if v.bas_files.length = 0 ∧ v.asm_files.length = 0 ∧ v.link_files.length = 0 then
    .error (show_error "missing input file name".toList)
  else if v.next_is_output then
    .error (show_error "option '-o' must supply a file name".toList)
  else
    match env.load v.target_folder v.syntax_folder v.target_name with
    | .error what => .error ⟨1, [Event.print (what ++ "\n".toList)]⟩
    | .ok tgt =>
      let lib_name := env.compiler_path tgt.lib
      let cfg_file :=
        if v.cfg_file_def.length ≠ 0 then v.cfg_file_def else env.compiler_path tgt.cfg
      let asm_opts := v.asm_opts ++ tgt.ca65_args
      let exe_name :=
        if v.link_files.length ≠ 0 ∧ v.exe_name.isEmpty then
          env.add_extension (v.link_files.headD []) tgt.bin_ext
        else v.exe_name
      .ok { v := { v with asm_opts := asm_opts, exe_name := exe_name }
            tgt := tgt
            lib_name := lib_name
            cfg_file := cfg_file }

/-- The events so far and the temporary files registered so far. -/
structure Run where
  trace : List Event
  temp_files : List Str
  deriving DecidableEq, Repr

/-- A `return` from inside one of the loops over the jobs: the status
returned and the run at that moment. -/
structure Halt where
  status : Int
  run : Run
  deriving DecidableEq, Repr

/-- The loop over `bas_files` (lines 311-324) on the jobs left. -/
def translate (env : Env) (p : Plan) : List (Str × Str) → Run → Except Halt Run
  | [], r => .ok r
  | (bas_name, asm_name) :: rest, r =>
    let listing_name := env.add_extension bas_name p.v.listing_ext
    let t1 := r.trace ++
      [Event.print ("BAS compile '".toList ++ bas_name ++ "' to '".toList ++ asm_name
        ++ "'\n".toList)]
    let t2 :=
      if p.v.comp.show_text then
        t1 ++ [Event.print ("    with ".toList
          ++ (if p.v.comp.short_text ≠ 0 then "minimized".toList else "expanded".toList)
          ++ " listing to '".toList ++ listing_name ++ "'\n".toList)]
      else t1
    let e := env.compile_file t2 p.v.comp bas_name asm_name p.tgt listing_name
    let t3 := t2 ++ [Event.compile bas_name asm_name listing_name]
    if e ≠ 0 then .error ⟨e, ⟨t3, r.temp_files⟩⟩
    else
      translate env p rest
        ⟨t3, if ¬ p.v.one_step then r.temp_files ++ [asm_name] else r.temp_files⟩

/-- The argument vector of one `ca65` run (lines 331-337). -/
def ca65_args (env : Env) (p : Plan) (asm_name obj_name : Str) : List Str :=
  let lst_name := env.add_extension obj_name ".lst".toList
  ["ca65".toList, "-I".toList, env.compiler_path "asminc".toList, "-o".toList, obj_name]
    ++ (if p.v.do_listing then ["-l".toList, lst_name] else [])
    ++ p.v.asm_opts
    ++ [asm_name]

/-- The loop over `asm_files` (lines 325-343) on the jobs left. -/
def assemble (env : Env) (p : Plan) : List (Str × Str) → Run → Except Halt Run
  | [], r => .ok r
  | (asm_name, obj_name) :: rest, r =>
    let t1 := r.trace ++
      [Event.print ("ASM assemble '".toList ++ asm_name ++ "' to '".toList ++ obj_name
        ++ "'\n".toList)]
    let args := ca65_args env p asm_name obj_name
    let e := env.prog_exec t1 "ca65".toList args
    let t2 := t1 ++ [Event.exec "ca65".toList args]
    if e ≠ 0 then
      .error ⟨(show_error "can't assemble file\n".toList).status,
        ⟨t2 ++ (show_error "can't assemble file\n".toList).trace, r.temp_files⟩⟩
    else
      assemble env p rest
        ⟨t2, if ¬ p.v.one_step then r.temp_files ++ [obj_name] else r.temp_files⟩

/-- The argument vector of the `ld65` run (lines 348-359). -/
def ld65_args (env : Env) (p : Plan) : List Str :=
  ["ld65".toList, "-C".toList, p.cfg_file, "-o".toList, p.v.exe_name]
    ++ (if p.v.do_listing then
          ["-Ln".toList, env.add_extension p.v.exe_name ".lbl".toList] else [])
    ++ p.v.link_opts
    ++ p.v.link_files
    ++ [p.lib_name]

/-- The link step (lines 344-363). -/
def link (env : Env) (p : Plan) (r : Run) : Except Halt Run :=
  if p.v.link_files.length ≠ 0 then
    let t1 := r.trace ++ [Event.print ("LINK ".toList ++ p.v.exe_name ++ "\n".toList)]
    let args := ld65_args env p
    let e := env.prog_exec t1 "ld65".toList args
    let t2 := t1 ++ [Event.exec "ld65".toList args]
    if e ≠ 0 then
      .error ⟨(show_error "can't assemble file\n".toList).status,
        ⟨t2 ++ (show_error "can't assemble file\n".toList).trace, r.temp_files⟩⟩
    else .ok ⟨t2, r.temp_files⟩
  else .ok r

/-- The end of `main` (lines 364-369): removal of the intermediate files and
the return of 0. -/
def cleanup (p : Plan) (r : Run) : Result :=
  if ¬ p.v.keep_temps then ⟨0, r.trace ++ r.temp_files.map Event.remove⟩
  else ⟨0, r.trace⟩

/-- Lines 311-363 of `main`: translate, assemble, link. -/
def execute_run (env : Env) (p : Plan) : Except Halt Run :=
  match translate env p p.v.bas_files ⟨[], p.v.temp_files⟩ with
  | .error h => .error h
  | .ok r1 =>
    match assemble env p p.v.asm_files r1 with
    | .error h => .error h
    | .ok r2 => link env p r2

/-- Lines 311-369 of `main`. -/
def execute (env : Env) (p : Plan) : Result :=
  match execute_run env p with
  | .error h => ⟨h.status, h.run.trace⟩
  | .ok r => cleanup p r

/-- The run at the moment the pipeline ends, in one of the loops or after the
link step. -/
def final_run : Except Halt Run → Run
  | .ok r => r
  | .error h => h.run

/-- The temporary files registered when the run of the plan ends, whether it
ends in one of the loops or after the link step. -/
def registered (env : Env) (p : Plan) : List Str :=
  (final_run (execute_run env p)).temp_files

/-- Lines 125-309 of `main`: the argument loop, the checks and the target. -/
def build (env : Env) (args : List Str) : Except Result Plan :=
  match scan env (init_vars env) args with
  | .error res => .error res
  | .ok v => resolve env v

/-- Function `main` (lines 96-370) on `argv[1..]`. -/
def main (env : Env) (args : List Str) : Result :=
  match build env args with
  | .error res => res
  | .ok p => execute env p


/-! ## Words of the specification

The notions the specification uses to speak about an argument list. They are
not part of the program; the theorems relate them to `scan`. -/

/-- A file argument has at least one character and does not begin with `-`
(every option begins with `-`, and the empty argument is an error). -/
def is_file_name (arg : Str) : Bool :=
  match arg with
  | [] => false
  | c :: _ => c != '-'

/-- A file name routed to the linker only: extension `o` or `obj`. -/
def is_object (env : Env) (arg : Str) : Bool :=
  env.get_extension_lower arg = "o".toList || env.get_extension_lower arg = "obj".toList

/-- A file name routed to the assembler: extension `s` or `asm`. -/
def is_assembly (env : Env) (arg : Str) : Bool :=
  env.get_extension_lower arg = "s".toList || env.get_extension_lower arg = "asm".toList

/-- A file name taken as a BASIC source: any other extension. -/
def is_basic (env : Env) (arg : Str) : Bool :=
  !(is_object env arg) && !(is_assembly env arg)

/-- Whether the argument after the given ones is the file name of a bare
`-o`; the flag tells whether the first of the given ones is. -/
def pending : Bool → List Str → Bool
  | b, [] => b
  | true, _ :: rest => pending false rest
  | false, arg :: rest => pending (arg = "-o".toList) rest

/-- The file arguments of an argument list, in order: the file names that
are not the file name of a bare `-o`; the flag tells whether the first
argument is one. -/
def file_args : Bool → List Str → List Str
  | _, [] => []
  | true, _ :: rest => file_args false rest
  | false, arg :: rest =>
    if arg = "-o".toList then file_args true rest
    else if is_file_name arg then arg :: file_args false rest
    else file_args false rest

/-- Whether `flag` stands in the list as an argument of its own, not as the
file name of a bare `-o`. -/
def has_flag (flag : Str) : Bool → List Str → Bool
  | _, [] => false
  | true, _ :: rest => has_flag flag false rest
  | false, arg :: rest => arg = flag || has_flag flag (arg = "-o".toList) rest

/-- The BAS jobs of one file argument whose derived names come from `name`
(section 4.2 of the specification). -/
def bas_jobs (env : Env) (name arg : Str) : List (Str × Str) :=
  if is_basic env arg then [(arg, env.add_extension name ".asm".toList)] else []

/-- The ASM jobs of one file argument whose derived names come from `name`
(section 4.2 of the specification). -/
def asm_jobs (env : Env) (one_step : Bool) (name arg : Str) : List (Str × Str) :=
  if is_object env arg then []
  else if is_assembly env arg then [(arg, env.add_extension name ".o".toList)]
  else if one_step then []
  else [(env.add_extension name ".asm".toList, env.add_extension name ".o".toList)]

/-- The link inputs of one file argument whose derived names come from
`name` (section 4.2 of the specification). -/
def link_inputs (env : Env) (one_step : Bool) (name arg : Str) : List Str :=
  if is_object env arg then [arg]
  else if one_step then []
  else [env.add_extension name ".o".toList]

/-- The arguments that go through the option and file tests of the loop, in
order: all but the file names of bare `-o`; the flag tells whether the first
argument is one. -/
def tested : Bool → List Str → List Str
  | _, [] => []
  | true, _ :: rest => tested false rest
  | false, arg :: rest => arg :: tested (arg = "-o".toList) rest

/-- The paths removed in a run, in order. -/
def deleted (trace : List Event) : List Str :=
  trace.filterMap fun e =>
    match e with
    | Event.remove name => some name
    | _ => none

/-- The output names that the `-o` options of an argument list supply, in
command-line order: the argument after a bare `-o` and the text after `-o`
in an inline one; the flag tells whether the first argument is the name of
a bare `-o`. -/
def output_values : Bool → List Str → List Str
  | _, [] => []
  | true, arg :: rest => arg :: output_values false rest
  | false, arg :: rest =>
    if arg = "-o".toList then output_values true rest
    else if starts_with arg "-o".toList then substr arg 2 :: output_values false rest
    else output_values false rest

/-- The status that the environment returned to the tool run that an event
records, `t` being the events before it; `none` for an event that records no
tool run (text, the removal of a file). -/
def call_status (env : Env) (p : Plan) (t : List Event) : Event → Option Int
  | Event.compile b a l => some (env.compile_file t p.v.comp b a p.tgt l)
  | Event.exec prog args => some (env.prog_exec t prog args)
  | _ => none

/-- Whether every tool run recorded in the given events returned 0, `t` being
the events before them. -/
def calls_ok (env : Env) (p : Plan) : List Event → List Event → Bool
  | _, [] => true
  | t, e :: rest =>
    (match call_status env p t e with
      | some s => decide (s = 0)
      | none => true)
    && calls_ok env p (t ++ [e]) rest

/-- The file arguments of an argument list, in command-line order, each with
the name its sibling names derive from (section 4.2 of the specification):
the name that the last `-o` option before it supplied, when no BASIC or
assembly file has used that name yet, else the name of the file itself. The
first flag tells whether the first argument is the name of a bare `-o`, the
second whether an output name is pending, and `out` is that name. -/
def job_names (env : Env) : Bool → Bool → Str → List Str → List (Str × Str)
  | _, _, _, [] => []
  | true, got, _, arg :: rest => job_names env false got arg rest
  | false, got, out, arg :: rest =>
    if arg = "-o".toList then job_names env true true out rest
    else if starts_with arg "-o".toList then job_names env false true (substr arg 2) rest
    else if is_file_name arg then
      (arg, if got then out else arg)
        :: job_names env false (if is_object env arg then got else false) out rest
    else job_names env false got out rest

/-! ## A sample environment -/

/-- Modelled from the spec: the base name that extension substitution
preserves (the helpers of os.h are not in main.cc): the name up to its last
`.`, the whole name when it has none. -/
def base_name (name : Str) : Str :=
  if '.' ∈ name then ((name.reverse.dropWhile (fun c => c != '.')).drop 1).reverse
  else name

/-- Modelled from the spec: `os::get_extension_lower` (os.h, not in
main.cc): the text after the last `.` of the name in lower case, empty when
the name has no `.`. -/
def get_extension_lower (name : Str) : Str :=
  if '.' ∈ name then to_lower (name.reverse.takeWhile (fun c => c != '.')).reverse
  else []

/-- Modelled from the spec: `os::add_extension` (os.h, not in main.cc):
extension substitution, the base name is kept and the extension swapped or
appended. -/
def add_extension (name ext : Str) : Str := base_name name ++ ext

/-- An environment to run the driver on concrete arguments: the helpers
above, a target that always loads and tools that always succeed. -/
def sample_env : Env :=
  { VERSION := "4.7".toList
    get_search_path := fun sub => [sub]
    get_extension_lower := get_extension_lower
    add_extension := add_extension
    compiler_path := fun name => name
    load := fun _ _ name =>
      .ok { lib := name ++ ".lib".toList
            cfg := name ++ ".cfg".toList
            bin_ext := ".xex".toList
            ca65_args := [] }
    compile_file := fun _ _ _ _ _ _ => 0
    prog_exec := fun _ _ _ => 0 }


/-- The sample environment with a translator, an assembler and a linker that
return the given statuses. -/
def tools_env (translate_status ca65_status ld65_status : Int) : Env :=
  { sample_env with
    compile_file := fun _ _ _ _ _ _ => translate_status
    prog_exec := fun _ prog _ =>
      if prog = "ca65".toList then ca65_status else ld65_status }

/-! ## One round of the argument loop -/

/-- The argument after a bare `-o` is the output name, whatever it is. -/
theorem process_arg_value (env : Env) (v : Vars) (arg : Str) (h : v.next_is_output = true) :
    process_arg env v arg = .ok { v with
      out_name := arg
      exe_name := if v.exe_name.isEmpty then arg else v.exe_name
      next_is_output := false } := by
  simp [process_arg, h]

/-- A file argument adds its jobs, derived from the pending output name when
there is one, and a source file consumes that name. -/
theorem process_arg_file (env : Env) (v : Vars) (arg : Str)
    (h : v.next_is_output = false) (hf : is_file_name arg = true) :
    process_arg env v arg =
      .ok { v with
        got_outname := if is_object env arg then v.got_outname else false
        bas_files := v.bas_files ++
          bas_jobs env (if v.got_outname then v.out_name else arg) arg
        asm_files := v.asm_files ++
          asm_jobs env v.one_step (if v.got_outname then v.out_name else arg) arg
        link_files := v.link_files ++
          link_inputs env v.one_step (if v.got_outname then v.out_name else arg) arg } := by
  cases arg with
  | nil => simp [is_file_name] at hf
  | cons c rest =>
    have hc : c ≠ '-' := by simpa [is_file_name] using hf
    have hc2 : ¬ '-' = c := fun e => hc e.symm
    simp only [process_arg, h, is_object, is_assembly, is_basic, bas_jobs, asm_jobs, link_inputs]
    simp [starts_with, List.isPrefixOf, hc, hc2]
    split_ifs <;> simp_all

/-- An equation with a conditional on the left is an equation with one of its
branches. -/
theorem ite_cases {α : Type} {c : Prop} [Decidable c] {a b r : α}
    (h : (if c then a else b) = r) : (c ∧ a = r) ∨ (¬ c ∧ b = r) := by
  by_cases hc : c
  · left; exact ⟨hc, by simpa [hc] using h⟩
  · right; exact ⟨hc, by simpa [hc] using h⟩

/-- The flag `-c` sets `one_step` and nothing else. -/
theorem process_arg_c (env : Env) (v : Vars) (h : v.next_is_output = false) :
    process_arg env v "-c".toList = .ok { v with one_step := true } := by
  simp [process_arg, h]

/-- Every argument that begins with `-o` goes to the `-o` branch. -/
theorem process_arg_o (env : Env) (v : Vars) (arg : Str) (h : v.next_is_output = false)
    (ho : starts_with arg "-o".toList = true) :
    process_arg env v arg =
      if v.got_outname then
        .error (show_error "multiple '-o' option for the same file".toList)
      else if arg.length > 2 then
        .ok { v with
          got_outname := true
          out_name := substr arg 2
          exe_name := if v.exe_name.isEmpty then substr arg 2 else v.exe_name }
      else
        .ok { v with got_outname := true, next_is_output := true } := by
  rcases arg with _ | ⟨c0, _ | ⟨c1, t⟩⟩
  · simp [starts_with, List.isPrefixOf] at ho
  · simp [starts_with, List.isPrefixOf] at ho
  · have h0 : c0 = '-' := by simp [starts_with, List.isPrefixOf] at ho; exact ho.1.symm
    have h1 : c1 = 'o' := by simp [starts_with, List.isPrefixOf] at ho; exact ho.2.symm
    subst h0 h1
    simp [process_arg, h, starts_with, List.isPrefixOf]

/-- An accepted option other than `-c` and `-o` leaves the jobs, the
temporary files, `one_step` and the state of `-o` as they are. -/
theorem process_arg_other (env : Env) (v v2 : Vars) (arg : Str)
    (h : v.next_is_output = false) (hd : arg.head? = some '-')
    (ho : starts_with arg "-o".toList = false) (hcne : arg ≠ "-c".toList)
    (hok : process_arg env v arg = .ok v2) :
    v2.bas_files = v.bas_files ∧ v2.asm_files = v.asm_files ∧ v2.link_files = v.link_files
      ∧ v2.temp_files = v.temp_files ∧ v2.next_is_output = false ∧ v2.one_step = v.one_step
      ∧ v2.got_outname = v.got_outname ∧ v2.out_name = v.out_name
      ∧ v2.exe_name = v.exe_name := by
  unfold process_arg at hok
  rw [if_neg (by simp [h])] at hok
  dsimp only at hok
  replace hok := ite_cases hok; rcases hok with ⟨hc1, hok⟩ | ⟨hc1, hok⟩
  swap
  replace hok := ite_cases hok; rcases hok with ⟨hc2, hok⟩ | ⟨hc2, hok⟩
  swap
  replace hok := ite_cases hok; rcases hok with ⟨hc3, hok⟩ | ⟨hc3, hok⟩
  swap
  replace hok := ite_cases hok; rcases hok with ⟨hc4, hok⟩ | ⟨hc4, hok⟩
  swap
  replace hok := ite_cases hok; rcases hok with ⟨hc5, hok⟩ | ⟨hc5, hok⟩
  swap
  replace hok := ite_cases hok; rcases hok with ⟨hc6, hok⟩ | ⟨hc6, hok⟩
  swap
  replace hok := ite_cases hok; rcases hok with ⟨hc7, hok⟩ | ⟨hc7, hok⟩
  replace hok := ite_cases hok; rcases hok with ⟨hi7, hok⟩ | ⟨hi7, hok⟩
  rotate_left 2
  replace hok := ite_cases hok; rcases hok with ⟨hc8, hok⟩ | ⟨hc8, hok⟩
  swap
  replace hok := ite_cases hok; rcases hok with ⟨hc9, hok⟩ | ⟨hc9, hok⟩
  replace hok := ite_cases hok; rcases hok with ⟨hi9, hok⟩ | ⟨hi9, hok⟩
  rotate_left 2
  replace hok := ite_cases hok; rcases hok with ⟨hc10, hok⟩ | ⟨hc10, hok⟩
  swap
  replace hok := ite_cases hok; rcases hok with ⟨hc11, hok⟩ | ⟨hc11, hok⟩
  swap
  replace hok := ite_cases hok; rcases hok with ⟨hc12, hok⟩ | ⟨hc12, hok⟩
  swap
  replace hok := ite_cases hok; rcases hok with ⟨hc13, hok⟩ | ⟨hc13, hok⟩
  swap
  replace hok := ite_cases hok; rcases hok with ⟨hc14, hok⟩ | ⟨hc14, hok⟩
  replace hok := ite_cases hok; rcases hok with ⟨hi14, hok⟩ | ⟨hi14, hok⟩
  swap
  replace hok := ite_cases hok; rcases hok with ⟨hj14, hok⟩ | ⟨hj14, hok⟩
  rotate_left 3
  replace hok := ite_cases hok; rcases hok with ⟨hc15, hok⟩ | ⟨hc15, hok⟩
  replace hok := ite_cases hok; rcases hok with ⟨hi15, hok⟩ | ⟨hi15, hok⟩
  rotate_left 2
  replace hok := ite_cases hok; rcases hok with ⟨hc16, hok⟩ | ⟨hc16, hok⟩
  replace hok := ite_cases hok; rcases hok with ⟨hi16, hok⟩ | ⟨hi16, hok⟩
  rotate_left 2
  replace hok := ite_cases hok; rcases hok with ⟨hc17, hok⟩ | ⟨hc17, hok⟩
  swap
  replace hok := ite_cases hok; rcases hok with ⟨hc18, hok⟩ | ⟨hc18, hok⟩
  swap
  replace hok := ite_cases hok; rcases hok with ⟨hc19, hok⟩ | ⟨hc19, hok⟩
  swap
  replace hok := ite_cases hok; rcases hok with ⟨hc20, hok⟩ | ⟨hc20, hok⟩
  swap
  replace hok := ite_cases hok; rcases hok with ⟨hc21, hok⟩ | ⟨hc21, hok⟩
  swap
  replace hok := ite_cases hok; rcases hok with ⟨hc22, hok⟩ | ⟨hc22, hok⟩
  swap
  replace hok := ite_cases hok; rcases hok with ⟨hc23, hok⟩ | ⟨hc23, hok⟩
  swap
  replace hok := ite_cases hok; rcases hok with ⟨hc24, hok⟩ | ⟨hc24, hok⟩
  swap
  replace hok := ite_cases hok; rcases hok with ⟨hc25, hok⟩ | ⟨hc25, hok⟩
  swap
  all_goals
    first
    | exact absurd hc5 hcne
    | exact absurd hc14 (by rw [ho]; decide)
    | exact absurd hd hc23
    | (cases hok <;> exact ⟨rfl, rfl, rfl, rfl, h, rfl, rfl, rfl, rfl⟩)

/-- The base name of a base name with `.o` appended is that base name. -/
theorem base_name_add_o (b : Str) : base_name (b ++ ".o".toList) = b := by
  have hmem : '.' ∈ b ++ ".o".toList := by simp
  simp only [base_name, hmem, if_true]
  simp [List.dropWhile]

/-- C1: a single BASIC file argument `f` (no `-o`, no `-c`) gives the BAS job
`(f, f.asm)`, the ASM job `(f.asm, f.o)`, the link input `f.o` and, once the
target is loaded, the executable name made from the first link input with the
target's binary extension, which for extension substitution is the base name
of `f` plus that extension. -/
theorem C1_single_basic_file (env : Env) (f : Str) (tgt : target)
    (hf : is_file_name f = true) (hb : is_basic env f = true)
    (hl : env.load (env.get_search_path []) (env.get_search_path "syntax".toList)
      "default".toList = .ok tgt) :
    ∃ p, build env [f] = .ok p
      ∧ p.tgt = tgt
      ∧ p.v.bas_files = [(f, env.add_extension f ".asm".toList)]
      ∧ p.v.asm_files =
          [(env.add_extension f ".asm".toList, env.add_extension f ".o".toList)]
      ∧ p.v.link_files = [env.add_extension f ".o".toList]
      ∧ p.v.exe_name = env.add_extension (env.add_extension f ".o".toList) tgt.bin_ext
      ∧ (env.add_extension = add_extension → p.v.exe_name = base_name f ++ tgt.bin_ext) := by
  have hobj : is_object env f = false := by
    simp only [is_basic, Bool.and_eq_true, Bool.not_eq_true'] at hb
    exact hb.1
  have hasm : is_assembly env f = false := by
    simp only [is_basic, Bool.and_eq_true, Bool.not_eq_true'] at hb
    exact hb.2
  have hstep := process_arg_file env (init_vars env) f rfl hf
  simp only [build, scan, hstep]
  simp only [resolve, init_vars, bas_jobs, asm_jobs, link_inputs, hb, hobj, hasm, hl]
  simp
  intro hae
  rw [hae]
  simp only [add_extension]
  exact congrArg (fun s => s ++ tgt.bin_ext) (base_name_add_o (base_name f))

/-- Witness of C1: the single argument `foo.bas` in the sample environment. -/
theorem C1_single_basic_file_witness :
    (is_file_name "foo.bas".toList = true ∧ is_basic sample_env "foo.bas".toList = true)
    ∧ ∃ p, build sample_env ["foo.bas".toList] = .ok p
      ∧ p.v.bas_files = [("foo.bas".toList, "foo.asm".toList)]
      ∧ p.v.asm_files = [("foo.asm".toList, "foo.o".toList)]
      ∧ p.v.link_files = ["foo.o".toList]
      ∧ p.v.exe_name = "foo.xex".toList := by
  obtain ⟨p, h1, h2, h3, h4, h5, h6, h7⟩ :=
    C1_single_basic_file sample_env "foo.bas".toList
      { lib := "default.lib".toList, cfg := "default.cfg".toList, bin_ext := ".xex".toList,
        ca65_args := [] }
      (by decide) (by decide) (by rfl)
  exact ⟨by decide, p, h1, h3, h4, h5, h7 rfl⟩
/-- The loop goes on from the locals that an accepted argument leaves. -/
theorem scan_cons_ok (env : Env) (v v1 : Vars) (arg : Str) (rest : List Str)
    (h : process_arg env v arg = .ok v1) : scan env v (arg :: rest) = scan env v1 rest := by
  simp only [scan, h]

/-- A bare `-o` at the start of the argument list, followed by its name. -/
theorem scan_init_output (env : Env) (n : Str) (rest : List Str) :
    scan env (init_vars env) ("-o".toList :: n :: rest) =
      scan env { init_vars env with got_outname := true, out_name := n, exe_name := n } rest := by
  have h1 := process_arg_o env (init_vars env) "-o".toList rfl (by decide)
  rw [scan_cons_ok env _ _ _ _ h1]
  rw [scan_cons_ok env _ _ _ _ (process_arg_value env _ n rfl)]
  rfl

/-- C2: with `-o n` before a BASIC file `f` and `n` not empty, the BAS job is
`(f, n.asm)`, the ASM job `(n.asm, n.o)`, the link input `n.o` (the extension
of `n` is substituted) and the executable name is `n` itself; for
`-o out.bin foo.bas` these are `out.asm`, `out.o` and `out.bin`. -/
theorem C2_output_name (env : Env) (n f : Str) (tgt : target)
    (hn : n ≠ []) (hf : is_file_name f = true) (hb : is_basic env f = true)
    (hl : env.load (env.get_search_path []) (env.get_search_path "syntax".toList)
      "default".toList = .ok tgt) :
    (∃ p, build env ["-o".toList, n, f] = .ok p
      ∧ p.v.bas_files = [(f, env.add_extension n ".asm".toList)]
      ∧ p.v.asm_files =
          [(env.add_extension n ".asm".toList, env.add_extension n ".o".toList)]
      ∧ p.v.link_files = [env.add_extension n ".o".toList]
      ∧ p.v.exe_name = n)
    ∧ (∃ q, build sample_env ["-o".toList, "out.bin".toList, "foo.bas".toList] = .ok q
      ∧ q.v.bas_files = [("foo.bas".toList, "out.asm".toList)]
      ∧ q.v.asm_files = [("out.asm".toList, "out.o".toList)]
      ∧ q.v.link_files = ["out.o".toList]
      ∧ q.v.exe_name = "out.bin".toList) := by
  have hobj : is_object env f = false := by
    simp only [is_basic, Bool.and_eq_true, Bool.not_eq_true'] at hb
    exact hb.1
  have hasm : is_assembly env f = false := by
    simp only [is_basic, Bool.and_eq_true, Bool.not_eq_true'] at hb
    exact hb.2
  refine ⟨?_, ⟨_, rfl, rfl, rfl, rfl, rfl⟩⟩
  unfold build
  rw [scan_init_output, scan_cons_ok env _ _ _ _ (process_arg_file env _ f rfl hf)]
  simp only [scan, resolve, init_vars, bas_jobs, asm_jobs, link_inputs, hb, hobj, hasm, hl]
  cases n with
  | nil => exact absurd rfl hn
  | cons c t => simp

/-- Witness of C2: `-o out prog.bas` in the sample environment. -/
theorem C2_output_name_witness :
    ("out".toList ≠ [] ∧ is_file_name "prog.bas".toList = true
      ∧ is_basic sample_env "prog.bas".toList = true)
    ∧ ∃ p, build sample_env ["-o".toList, "out".toList, "prog.bas".toList] = .ok p
      ∧ p.v.bas_files = [("prog.bas".toList, "out.asm".toList)]
      ∧ p.v.asm_files = [("out.asm".toList, "out.o".toList)]
      ∧ p.v.link_files = ["out.o".toList]
      ∧ p.v.exe_name = "out".toList :=
  ⟨by decide,
    (C2_output_name sample_env "out".toList "prog.bas".toList
      { lib := "default.lib".toList, cfg := "default.cfg".toList, bin_ext := ".xex".toList,
        ca65_args := [] }
      (by decide) (by decide) (by decide) (by rfl)).1⟩

/-- C3: with `-o n` before two BASIC files, only the first takes its derived
names from `n`; the second derives `f2.asm` and `f2.o` from its own name. -/
theorem C3_output_name_first_file_only (env : Env) (n f1 f2 : Str)
    (hf1 : is_file_name f1 = true) (hb1 : is_basic env f1 = true)
    (hf2 : is_file_name f2 = true) (hb2 : is_basic env f2 = true) :
    ∃ v, scan env (init_vars env) ["-o".toList, n, f1, f2] = .ok v
      ∧ v.bas_files =
          [(f1, env.add_extension n ".asm".toList), (f2, env.add_extension f2 ".asm".toList)]
      ∧ v.asm_files =
          [(env.add_extension n ".asm".toList, env.add_extension n ".o".toList),
           (env.add_extension f2 ".asm".toList, env.add_extension f2 ".o".toList)]
      ∧ v.link_files = [env.add_extension n ".o".toList, env.add_extension f2 ".o".toList] := by
  have hobj1 : is_object env f1 = false := by
    simp only [is_basic, Bool.and_eq_true, Bool.not_eq_true'] at hb1
    exact hb1.1
  have hasm1 : is_assembly env f1 = false := by
    simp only [is_basic, Bool.and_eq_true, Bool.not_eq_true'] at hb1
    exact hb1.2
  have hobj2 : is_object env f2 = false := by
    simp only [is_basic, Bool.and_eq_true, Bool.not_eq_true'] at hb2
    exact hb2.1
  have hasm2 : is_assembly env f2 = false := by
    simp only [is_basic, Bool.and_eq_true, Bool.not_eq_true'] at hb2
    exact hb2.2
  rw [scan_init_output]
  rw [scan_cons_ok env _ _ _ _ (process_arg_file env _ f1 rfl hf1)]
  rw [scan_cons_ok env _ _ _ _ (process_arg_file env _ f2 rfl hf2)]
  simp [scan, init_vars, bas_jobs, asm_jobs, link_inputs, hb1, hb2, hobj1, hobj2, hasm1, hasm2]

/-- Witness of C3: `-o out foo.bas bar.bas` in the sample environment. -/
theorem C3_output_name_first_file_only_witness :
    (is_file_name "foo.bas".toList = true ∧ is_basic sample_env "foo.bas".toList = true
      ∧ is_file_name "bar.bas".toList = true ∧ is_basic sample_env "bar.bas".toList = true)
    ∧ ∃ v, scan sample_env (init_vars sample_env)
        ["-o".toList, "out".toList, "foo.bas".toList, "bar.bas".toList] = .ok v
      ∧ v.bas_files =
          [("foo.bas".toList, "out.asm".toList), ("bar.bas".toList, "bar.asm".toList)]
      ∧ v.asm_files =
          [("out.asm".toList, "out.o".toList), ("bar.asm".toList, "bar.o".toList)]
      ∧ v.link_files = ["out.o".toList, "bar.o".toList] :=
  ⟨by decide,
    C3_output_name_first_file_only sample_env "out".toList "foo.bas".toList "bar.bas".toList
      (by decide) (by decide) (by decide) (by decide)⟩

/-- A file name is neither `-o` nor `-c` and does not begin with `-o`. -/
theorem file_name_not_option (arg : Str) (hf : is_file_name arg = true) :
    arg ≠ "-o".toList ∧ arg ≠ "-c".toList ∧ starts_with arg "-o".toList = false := by
  cases arg with
  | nil => simp [is_file_name] at hf
  | cons c t =>
    have hc : c ≠ '-' := by simpa [is_file_name] using hf
    have hc2 : ¬ '-' = c := fun e => hc e.symm
    simp [starts_with, List.isPrefixOf, hc, hc2]

/-- An accepted argument that is not a file name and not the name of a bare
`-o` is an option: it adds no job, and only `-c` and `-o` touch `one_step`
and the state of the output name. -/
theorem process_arg_option (env : Env) (v v2 : Vars) (arg : Str)
    (h : v.next_is_output = false) (hf : is_file_name arg = false)
    (hok : process_arg env v arg = .ok v2) :
    v2.bas_files = v.bas_files ∧ v2.asm_files = v.asm_files ∧ v2.link_files = v.link_files
      ∧ v2.temp_files = v.temp_files
      ∧ v2.next_is_output = decide (arg = "-o".toList)
      ∧ v2.one_step = (v.one_step || decide (arg = "-c".toList))
      ∧ (v.got_outname = true → v2.got_outname = true) := by
  by_cases hc : arg = "-c".toList
  · subst hc
    rw [process_arg_c env v h] at hok
    cases hok
    exact ⟨rfl, rfl, rfl, rfl, by rw [h]; decide, by simp, fun hg => hg⟩
  by_cases ho : starts_with arg "-o".toList = true
  · rw [process_arg_o env v arg h ho] at hok
    by_cases hg : v.got_outname = true
    · simp [hg] at hok
    · simp only [hg, if_false] at hok
      by_cases hlen : arg.length > 2
      · simp only [hlen, if_true] at hok
        cases hok
        have hne : arg ≠ "-o".toList := by
          intro e
          rw [e] at hlen
          simp at hlen
        refine ⟨rfl, rfl, rfl, rfl, ?_, ?_, fun _ => rfl⟩
        · rw [decide_eq_false hne]; exact h
        · rw [decide_eq_false hc]; simp
      · simp only [hlen, if_false] at hok
        cases hok
        have he : arg = "-o".toList := by
          rcases arg with _ | ⟨c0, _ | ⟨c1, _ | ⟨c2, t⟩⟩⟩
          · simp [starts_with, List.isPrefixOf] at ho
          · simp [starts_with, List.isPrefixOf] at ho
          · simp [starts_with, List.isPrefixOf] at ho
            rw [← ho.1, ← ho.2]
            rfl
          · simp at hlen
        refine ⟨rfl, rfl, rfl, rfl, ?_, ?_, fun _ => rfl⟩
        · rw [decide_eq_true he]
        · rw [decide_eq_false hc]; simp
  · have ho2 : starts_with arg "-o".toList = false := by simpa using ho
    have hd : arg.head? = some '-' := by
      cases arg with
      | nil =>
        simp [process_arg, h, starts_with, List.isPrefixOf, show_error] at hok
      | cons c t =>
        have : c = '-' := by simpa [is_file_name] using hf
        simp [this]
    have hne : arg ≠ "-o".toList := by
      intro e
      rw [e] at ho
      exact ho (by decide)
    obtain ⟨h1, h2, h3, h4, h5, h6, h7, -, -⟩ := process_arg_other env v v2 arg h hd ho2 hc hok
    refine ⟨h1, h2, h3, h4, ?_, ?_, ?_⟩
    · rw [h5, decide_eq_false hne]
    · rw [h6, decide_eq_false hc]; simp
    · intro hg; rw [h7]; exact hg

/-- After the loop, `next_is_output` tells whether the last argument was a
bare `-o`. -/
theorem scan_pending (env : Env) (args : List Str) :
    ∀ v v2 : Vars, scan env v args = .ok v2 →
      v2.next_is_output = pending v.next_is_output args := by
  induction args with
  | nil => intro v v2 h; simp only [scan] at h; cases h; simp [pending]
  | cons arg rest ih =>
    intro v v2 h
    simp only [scan] at h
    cases hp : process_arg env v arg with
    | error r => rw [hp] at h; cases h
    | ok v1 =>
      rw [hp] at h
      have hrec := ih v1 v2 h
      cases hn : v.next_is_output with
      | true =>
        rw [process_arg_value env v arg hn] at hp
        cases hp
        simpa [pending] using hrec
      | false =>
        cases hf : is_file_name arg with
        | true =>
          rw [process_arg_file env v arg hn hf] at hp
          cases hp
          have hne := (file_name_not_option arg hf).1
          simp only [pending, decide_eq_false hne]
          simpa [hn] using hrec
        | false =>
          obtain ⟨-, -, -, -, h5, -, -⟩ := process_arg_option env v v1 arg hn hf hp
          rw [h5] at hrec
          simp only [pending]
          exact hrec
/-- A loop that ends normally accepted its first argument. -/
theorem scan_cons_inv (env : Env) (v v2 : Vars) (arg : Str) (rest : List Str)
    (h : scan env v (arg :: rest) = .ok v2) :
    ∃ v1, process_arg env v arg = .ok v1 ∧ scan env v1 rest = .ok v2 := by
  simp only [scan] at h
  cases hp : process_arg env v arg with
  | error r => rw [hp] at h; cases h
  | ok v1 => rw [hp] at h; exact ⟨v1, rfl, h⟩

/-- The loop over two lists in a row. -/
theorem scan_append (env : Env) (a b : List Str) :
    ∀ v : Vars, scan env v (a ++ b) =
      match scan env v a with
      | .ok v1 => scan env v1 b
      | .error r => .error r := by
  induction a with
  | nil => intro v; simp [scan]
  | cons arg rest ih =>
    intro v
    simp only [List.cons_append, scan]
    cases process_arg env v arg with
    | error r => rfl
    | ok v1 => exact ih v1

/-- After the loop, `one_step` is set exactly when it was set before or `-c`
stood among the arguments as a flag. The loop registers no temporary file. -/
theorem scan_one_step (env : Env) (args : List Str) :
    ∀ v v2 : Vars, scan env v args = .ok v2 →
      v2.one_step = (v.one_step || has_flag "-c".toList v.next_is_output args)
        ∧ v2.temp_files = v.temp_files := by
  induction args with
  | nil => intro v v2 h; simp only [scan] at h; cases h; simp [has_flag]
  | cons arg rest ih =>
    intro v v2 h
    obtain ⟨v1, hp, hs⟩ := scan_cons_inv env v v2 arg rest h
    obtain ⟨hrec, htmp⟩ := ih v1 v2 hs
    cases hn : v.next_is_output with
    | true =>
      rw [process_arg_value env v arg hn] at hp
      cases hp
      exact ⟨by simpa [has_flag] using hrec, htmp⟩
    | false =>
      cases hf : is_file_name arg with
      | true =>
        rw [process_arg_file env v arg hn hf] at hp
        cases hp
        obtain ⟨hno, hnc, -⟩ := file_name_not_option arg hf
        simp only [has_flag, decide_eq_false hno, decide_eq_false hnc, Bool.false_or]
        exact ⟨by simpa [hn] using hrec, htmp⟩
      | false =>
        obtain ⟨-, -, -, h4, h5, h6, -⟩ := process_arg_option env v v1 arg hn hf hp
        rw [h5, h6] at hrec
        rw [h4] at htmp
        simp only [has_flag]
        exact ⟨by rw [hrec, Bool.or_assoc], htmp⟩

/-- The file arguments after a file argument. -/
theorem file_args_file (arg : Str) (rest : List Str) (hf : is_file_name arg = true) :
    file_args false (arg :: rest) = arg :: file_args false rest := by
  have hno := (file_name_not_option arg hf).1
  simp only [file_args, if_neg hno, hf, if_true]

/-- The file arguments after an argument that is not a file name. -/
theorem file_args_option (arg : Str) (rest : List Str) (hf : is_file_name arg = false) :
    file_args false (arg :: rest) = file_args (decide (arg = "-o".toList)) rest := by
  by_cases ho : arg = "-o".toList
  · simp only [file_args, if_pos ho, decide_eq_true ho]
  · simp only [file_args, if_neg ho, hf, decide_eq_false ho]
    simp

/-- Arguments without a file argument leave the three job lists as they
are. -/
theorem scan_no_file (env : Env) (args : List Str) :
    ∀ v v2 : Vars, scan env v args = .ok v2 → file_args v.next_is_output args = [] →
      v2.bas_files = v.bas_files ∧ v2.asm_files = v.asm_files
        ∧ v2.link_files = v.link_files := by
  induction args with
  | nil => intro v v2 h _; simp only [scan] at h; cases h; exact ⟨rfl, rfl, rfl⟩
  | cons arg rest ih =>
    intro v v2 h hfa
    obtain ⟨v1, hp, hs⟩ := scan_cons_inv env v v2 arg rest h
    cases hn : v.next_is_output with
    | true =>
      rw [process_arg_value env v arg hn] at hp
      cases hp
      rw [hn] at hfa
      have r := ih _ v2 hs (by simpa only [file_args] using hfa)
      exact r
    | false =>
      rw [hn] at hfa
      cases hf : is_file_name arg with
      | true =>
        rw [file_args_file arg rest hf] at hfa
        cases hfa
      | false =>
        obtain ⟨h1, h2, h3, -, h5, -, -⟩ := process_arg_option env v v1 arg hn hf hp
        have hfa1 : file_args v1.next_is_output rest = [] := by
          rw [h5, ← file_args_option arg rest hf]
          exact hfa
        obtain ⟨r1, r2, r3⟩ := ih v1 v2 hs hfa1
        exact ⟨r1.trans h1, r2.trans h2, r3.trans h3⟩

/-- In single-step mode, arguments whose file arguments are all BASIC
sources add one BAS job per file argument and no ASM job or link input. -/
theorem scan_one_step_basic (env : Env) (args : List Str) :
    ∀ v v2 : Vars, scan env v args = .ok v2 → v.one_step = true →
      (∀ f ∈ file_args v.next_is_output args, is_basic env f = true) →
      v2.bas_files.map Prod.fst = v.bas_files.map Prod.fst ++ file_args v.next_is_output args
        ∧ v2.asm_files = v.asm_files ∧ v2.link_files = v.link_files := by
  induction args with
  | nil => intro v v2 h _ _; simp only [scan] at h; cases h; simp [file_args]
  | cons arg rest ih =>
    intro v v2 h hone hall
    obtain ⟨v1, hp, hs⟩ := scan_cons_inv env v v2 arg rest h
    cases hn : v.next_is_output with
    | true =>
      rw [process_arg_value env v arg hn] at hp
      cases hp
      rw [hn] at hall
      have r := ih _ v2 hs hone (by simpa only [file_args] using hall)
      simpa only [file_args] using r
    | false =>
      rw [hn] at hall
      cases hf : is_file_name arg with
      | true =>
        rw [file_args_file arg rest hf] at hall ⊢
        simp only [List.mem_cons, forall_eq_or_imp] at hall
        rw [process_arg_file env v arg hn hf] at hp
        cases hp
        have hb := hall.1
        have hobj : is_object env arg = false := by
          simp only [is_basic, Bool.and_eq_true, Bool.not_eq_true'] at hb
          exact hb.1
        have hasm : is_assembly env arg = false := by
          simp only [is_basic, Bool.and_eq_true, Bool.not_eq_true'] at hb
          exact hb.2
        have hrec := ih _ v2 hs hone (by simpa [hn] using hall.2)
        simpa [bas_jobs, asm_jobs, link_inputs, hb, hobj, hasm, hone, hn] using hrec
      | false =>
        obtain ⟨h1, h2, h3, -, h5, h6, -⟩ := process_arg_option env v v1 arg hn hf hp
        have hone1 : v1.one_step = true := by rw [h6, hone]; rfl
        have hfa : file_args false (arg :: rest) = file_args v1.next_is_output rest := by
          rw [h5, file_args_option arg rest hf]
        rw [hfa] at hall ⊢
        obtain ⟨r1, r2, r3⟩ := ih v1 v2 hs hone1 hall
        rw [h1] at r1
        exact ⟨r1, r2.trans h2, r3.trans h3⟩

/-- A pending output name stays pending over arguments whose file arguments
are all object files. -/
theorem scan_keeps_output_name (env : Env) (args : List Str) :
    ∀ v v2 : Vars, scan env v args = .ok v2 → v.got_outname = true →
      (∀ f ∈ file_args v.next_is_output args, is_object env f = true) →
      v2.got_outname = true := by
  induction args with
  | nil => intro v v2 h hg _; simp only [scan] at h; cases h; exact hg
  | cons arg rest ih =>
    intro v v2 h hg hall
    obtain ⟨v1, hp, hs⟩ := scan_cons_inv env v v2 arg rest h
    cases hn : v.next_is_output with
    | true =>
      rw [process_arg_value env v arg hn] at hp
      cases hp
      rw [hn] at hall
      exact ih _ v2 hs hg (by simpa only [file_args] using hall)
    | false =>
      rw [hn] at hall
      cases hf : is_file_name arg with
      | true =>
        rw [file_args_file arg rest hf] at hall
        simp only [List.mem_cons, forall_eq_or_imp] at hall
        rw [process_arg_file env v arg hn hf] at hp
        cases hp
        exact ih _ v2 hs (by simp [hall.1, hg]) (by simpa [hn] using hall.2)
      | false =>
        obtain ⟨-, -, -, -, h5, -, h7⟩ := process_arg_option env v v1 arg hn hf hp
        have hfa : file_args false (arg :: rest) = file_args v1.next_is_output rest := by
          rw [h5, file_args_option arg rest hf]
        rw [hfa] at hall
        exact ih v1 v2 hs (h7 hg) hall

/-- C4 (as stated, refuted): two `-o` options with a source file between them
are accepted; `-o a foo.bas -o b bar.bas` runs to the end with status 0 and
the jobs `(foo.bas, a.asm)` and `(bar.bas, b.asm)`. -/
theorem C4_counterexample :
    (∃ p, build sample_env ["-o".toList, "a".toList, "foo.bas".toList, "-o".toList,
        "b".toList, "bar.bas".toList] = .ok p
      ∧ p.v.bas_files =
          [("foo.bas".toList, "a.asm".toList), ("bar.bas".toList, "b.asm".toList)])
    ∧ (main sample_env ["-o".toList, "a".toList, "foo.bas".toList, "-o".toList,
        "b".toList, "bar.bas".toList]).status = 0
    ∧ main sample_env ["-o".toList, "a".toList, "foo.bas".toList, "-o".toList,
        "b".toList, "bar.bas".toList]
        ≠ show_error "multiple '-o' option for the same file".toList := by
  refine ⟨⟨_, rfl, rfl⟩, by decide, by decide⟩

/-- C4 (amended): when two `-o` options are processed as options and every
file argument between them is an object file (no BASIC or assembly source
consumes the first name), a run that reaches the second `-o` fails there with
"multiple '-o' option for the same file" and status 1. -/
theorem C4_second_output_option (env : Env) (pre mid post : List Str) (o1 o2 : Str)
    (v : Vars)
    (hp1 : pending false pre = false) (ho1 : starts_with o1 "-o".toList = true)
    (hmid : ∀ f ∈ file_args (decide (o1 = "-o".toList)) mid, is_object env f = true)
    (hp2 : pending (decide (o1 = "-o".toList)) mid = false)
    (ho2 : starts_with o2 "-o".toList = true)
    (hreach : scan env (init_vars env) (pre ++ o1 :: mid) = .ok v) :
    main env (pre ++ o1 :: mid ++ o2 :: post)
        = show_error "multiple '-o' option for the same file".toList
      ∧ (main env (pre ++ o1 :: mid ++ o2 :: post)).status = 1 := by
  have hmain : main env (pre ++ o1 :: mid ++ o2 :: post)
      = show_error "multiple '-o' option for the same file".toList := by
    rw [scan_append] at hreach
    cases h0 : scan env (init_vars env) pre with
    | error r => rw [h0] at hreach; cases hreach
    | ok v0 =>
      rw [h0] at hreach
      dsimp only at hreach
      have hn0 : v0.next_is_output = false := by
        rw [scan_pending env pre _ v0 h0]
        exact hp1
      obtain ⟨v1, hstep, hs⟩ := scan_cons_inv env v0 v o1 mid hreach
      have hf1 : is_file_name o1 = false := by
        rcases o1 with _ | ⟨c, t⟩
        · rfl
        · have : c = '-' := by
            simp [starts_with, List.isPrefixOf] at ho1
            exact ho1.1.symm
          simp [is_file_name, this]
      have hn1 : v1.next_is_output = decide (o1 = "-o".toList) :=
        (process_arg_option env v0 v1 o1 hn0 hf1 hstep).2.2.2.2.1
      have hg1 : v1.got_outname = true := by
        rw [process_arg_o env v0 o1 hn0 ho1] at hstep
        by_cases hg : v0.got_outname = true
        · simp [hg] at hstep
        · simp only [hg, if_false] at hstep
          by_cases hlen : o1.length > 2
          · simp only [hlen, if_true] at hstep
            cases hstep
            rfl
          · simp only [hlen, if_false] at hstep
            cases hstep
            rfl
      have hg : v.got_outname = true :=
        scan_keeps_output_name env mid v1 v hs hg1 (by rw [hn1]; exact hmid)
      have hn : v.next_is_output = false := by
        rw [scan_pending env mid v1 v hs, hn1]
        exact hp2
      have hlast : process_arg env v o2
          = .error (show_error "multiple '-o' option for the same file".toList) := by
        rw [process_arg_o env v o2 hn ho2, if_pos hg]
      have hall : scan env (init_vars env) (pre ++ o1 :: mid ++ o2 :: post)
          = .error (show_error "multiple '-o' option for the same file".toList) := by
        have e : pre ++ o1 :: mid ++ o2 :: post = pre ++ (o1 :: mid ++ o2 :: post) := by simp
        rw [e, scan_append, h0]
        simp only
        have e2 : o1 :: mid ++ o2 :: post = (o1 :: mid) ++ (o2 :: post) := by simp
        rw [e2, scan_append, hreach]
        simp only [scan, hlast]
      simp only [main, build, hall]
  exact ⟨hmain, by rw [hmain]; rfl⟩

/-- Witness of C4 (amended): `-o a lib.o -ob foo.bas` fails at `-ob`. -/
theorem C4_second_output_option_witness :
    (pending false [] = false ∧ starts_with "-o".toList "-o".toList = true
      ∧ pending true ["a".toList, "lib.o".toList] = false
      ∧ starts_with "-ob".toList "-o".toList = true)
    ∧ main sample_env
        ([] ++ "-o".toList :: ["a".toList, "lib.o".toList] ++ "-ob".toList :: ["foo.bas".toList])
        = show_error "multiple '-o' option for the same file".toList
      ∧ (main sample_env
        ([] ++ "-o".toList :: ["a".toList, "lib.o".toList]
          ++ "-ob".toList :: ["foo.bas".toList])).status = 1 :=
  ⟨by decide,
  C4_second_output_option sample_env [] ["a".toList, "lib.o".toList] ["foo.bas".toList]
    "-o".toList "-ob".toList
    { init_vars sample_env with
      got_outname := true, out_name := "a".toList, exe_name := "a".toList,
      link_files := ["lib.o".toList] }
    (by decide) (by decide) (by decide) (by decide) (by decide) (by rfl)⟩
/-- Object files go to the link inputs and leave the rest as it is. -/
theorem scan_objects (env : Env) (objs : List Str) :
    ∀ v : Vars, v.next_is_output = false →
      (∀ t ∈ objs, is_file_name t = true ∧ is_object env t = true) →
      scan env v objs = .ok { v with link_files := v.link_files ++ objs } := by
  induction objs with
  | nil => intro v _ _; cases v; simp [scan]
  | cons t rest ih =>
    intro v hn hall
    simp only [List.mem_cons, forall_eq_or_imp] at hall
    obtain ⟨⟨hf, ho⟩, hrest⟩ := hall
    have hbas : is_basic env t = false := by simp [is_basic, ho]
    rw [scan_cons_ok env _ _ _ _ (process_arg_file env v t hn hf)]
    rw [ih]
    · simp [bas_jobs, asm_jobs, link_inputs, ho, hbas]
    · exact hn
    · exact hrest

/-- With no output name pending, every file argument of a run of file
arguments derives its names from its own name. -/
theorem scan_files (env : Env) (fs : List Str) :
    ∀ v : Vars, v.next_is_output = false → v.got_outname = false →
      (∀ t ∈ fs, is_file_name t = true) →
      scan env v fs = .ok { v with
        bas_files := v.bas_files ++ fs.flatMap (fun g => bas_jobs env g g)
        asm_files := v.asm_files ++ fs.flatMap (fun g => asm_jobs env v.one_step g g)
        link_files := v.link_files ++ fs.flatMap (fun g => link_inputs env v.one_step g g) } := by
  induction fs with
  | nil => intro v _ _ _; cases v; simp [scan]
  | cons t rest ih =>
    intro v hn hg hall
    simp only [List.mem_cons, forall_eq_or_imp] at hall
    obtain ⟨hf, hrest⟩ := hall
    rw [scan_cons_ok env _ _ _ _ (process_arg_file env v t hn hf)]
    rw [ih]
    · simp [hg, List.append_assoc]
    · exact hn
    · simp [hg]
    · exact hrest

/-- C5 (as stated, refuted): in `-o out foo.o bar.bas` the first file
argument after `-o`, the object file, does not consume the output name, and
the later file `bar.bas` takes `out.asm`, not a name of its own. -/
theorem C5_counterexample :
    ∃ v, scan sample_env (init_vars sample_env)
        ["-o".toList, "out".toList, "foo.o".toList, "bar.bas".toList] = .ok v
      ∧ v.link_files = ["foo.o".toList, "out.o".toList]
      ∧ v.bas_files = [("bar.bas".toList, "out.asm".toList)]
      ∧ v.bas_files
          ≠ [("bar.bas".toList, sample_env.add_extension "bar.bas".toList ".asm".toList)] := by
  refine ⟨_, rfl, rfl, rfl, by decide⟩

/-- A return from inside the argument loop is the version text, the help text
or an error message. -/
theorem process_arg_error (env : Env) (v : Vars) (arg : Str) (r : Result)
    (hok : process_arg env v arg = .error r) :
    r = show_version env ∨ r = show_help env ∨ ∃ msg, r = show_error msg := by
  cases h : v.next_is_output with
  | true => rw [process_arg_value env v arg h] at hok; cases hok
  | false =>
    unfold process_arg at hok
    rw [if_neg (by simp [h])] at hok
    dsimp only at hok
    replace hok := ite_cases hok; rcases hok with ⟨hc1, hok⟩ | ⟨hc1, hok⟩
    swap
    replace hok := ite_cases hok; rcases hok with ⟨hc2, hok⟩ | ⟨hc2, hok⟩
    swap
    replace hok := ite_cases hok; rcases hok with ⟨hc3, hok⟩ | ⟨hc3, hok⟩
    swap
    replace hok := ite_cases hok; rcases hok with ⟨hc4, hok⟩ | ⟨hc4, hok⟩
    swap
    replace hok := ite_cases hok; rcases hok with ⟨hc5, hok⟩ | ⟨hc5, hok⟩
    swap
    replace hok := ite_cases hok; rcases hok with ⟨hc6, hok⟩ | ⟨hc6, hok⟩
    swap
    replace hok := ite_cases hok; rcases hok with ⟨hc7, hok⟩ | ⟨hc7, hok⟩
    replace hok := ite_cases hok; rcases hok with ⟨hi7, hok⟩ | ⟨hi7, hok⟩
    rotate_left 2
    replace hok := ite_cases hok; rcases hok with ⟨hc8, hok⟩ | ⟨hc8, hok⟩
    swap
    replace hok := ite_cases hok; rcases hok with ⟨hc9, hok⟩ | ⟨hc9, hok⟩
    replace hok := ite_cases hok; rcases hok with ⟨hi9, hok⟩ | ⟨hi9, hok⟩
    rotate_left 2
    replace hok := ite_cases hok; rcases hok with ⟨hc10, hok⟩ | ⟨hc10, hok⟩
    swap
    replace hok := ite_cases hok; rcases hok with ⟨hc11, hok⟩ | ⟨hc11, hok⟩
    swap
    replace hok := ite_cases hok; rcases hok with ⟨hc12, hok⟩ | ⟨hc12, hok⟩
    swap
    replace hok := ite_cases hok; rcases hok with ⟨hc13, hok⟩ | ⟨hc13, hok⟩
    swap
    replace hok := ite_cases hok; rcases hok with ⟨hc14, hok⟩ | ⟨hc14, hok⟩
    replace hok := ite_cases hok; rcases hok with ⟨hi14, hok⟩ | ⟨hi14, hok⟩
    swap
    replace hok := ite_cases hok; rcases hok with ⟨hj14, hok⟩ | ⟨hj14, hok⟩
    rotate_left 3
    replace hok := ite_cases hok; rcases hok with ⟨hc15, hok⟩ | ⟨hc15, hok⟩
    replace hok := ite_cases hok; rcases hok with ⟨hi15, hok⟩ | ⟨hi15, hok⟩
    rotate_left 2
    replace hok := ite_cases hok; rcases hok with ⟨hc16, hok⟩ | ⟨hc16, hok⟩
    replace hok := ite_cases hok; rcases hok with ⟨hi16, hok⟩ | ⟨hi16, hok⟩
    rotate_left 2
    replace hok := ite_cases hok; rcases hok with ⟨hc17, hok⟩ | ⟨hc17, hok⟩
    swap
    replace hok := ite_cases hok; rcases hok with ⟨hc18, hok⟩ | ⟨hc18, hok⟩
    swap
    replace hok := ite_cases hok; rcases hok with ⟨hc19, hok⟩ | ⟨hc19, hok⟩
    swap
    replace hok := ite_cases hok; rcases hok with ⟨hc20, hok⟩ | ⟨hc20, hok⟩
    swap
    replace hok := ite_cases hok; rcases hok with ⟨hc21, hok⟩ | ⟨hc21, hok⟩
    swap
    replace hok := ite_cases hok; rcases hok with ⟨hc22, hok⟩ | ⟨hc22, hok⟩
    swap
    replace hok := ite_cases hok; rcases hok with ⟨hc23, hok⟩ | ⟨hc23, hok⟩
    swap
    replace hok := ite_cases hok; rcases hok with ⟨hc24, hok⟩ | ⟨hc24, hok⟩
    swap
    replace hok := ite_cases hok; rcases hok with ⟨hc25, hok⟩ | ⟨hc25, hok⟩
    swap
    all_goals
      first
      | (cases hok; done)
      | (cases hok; exact Or.inl rfl)
      | (cases hok; exact Or.inr (Or.inl rfl))
      | (cases hok; exact Or.inr (Or.inr ⟨_, rfl⟩))

/-- A return from inside the argument loop has status 0 or 1 and only writes
text. -/
theorem scan_error (env : Env) (args : List Str) :
    ∀ (v : Vars) (r : Result), scan env v args = .error r →
      r = show_version env ∨ r = show_help env ∨ ∃ msg, r = show_error msg := by
  induction args with
  | nil => intro v r h; simp only [scan] at h; cases h
  | cons arg rest ih =>
    intro v r h
    simp only [scan] at h
    cases hp : process_arg env v arg with
    | error r1 =>
      rw [hp] at h
      cases h
      exact process_arg_error env v arg r hp
    | ok v1 =>
      rw [hp] at h
      exact ih v1 r h

/-- What the steps after the loop keep of the locals: everything but the
assembler options, which get those of the target, and the executable name,
which is guessed from the first link input when no `-o` gave one. -/
theorem resolve_ok (env : Env) (v : Vars) (p : Plan) (h : resolve env v = .ok p) :
    env.load v.target_folder v.syntax_folder v.target_name = .ok p.tgt
      ∧ p.v = { v with
          asm_opts := v.asm_opts ++ p.tgt.ca65_args
          exe_name :=
            if v.link_files.length ≠ 0 ∧ v.exe_name.isEmpty then
              env.add_extension (v.link_files.headD []) p.tgt.bin_ext
            else v.exe_name }
      ∧ p.lib_name = env.compiler_path p.tgt.lib
      ∧ p.cfg_file =
          (if v.cfg_file_def.length ≠ 0 then v.cfg_file_def else env.compiler_path p.tgt.cfg)
      ∧ ¬ (v.bas_files.length = 0 ∧ v.asm_files.length = 0 ∧ v.link_files.length = 0)
      ∧ v.next_is_output = false := by
  unfold resolve at h
  replace h := ite_cases h
  rcases h with ⟨_, h⟩ | ⟨hc1, h⟩
  · cases h
  replace h := ite_cases h
  rcases h with ⟨_, h⟩ | ⟨hc2, h⟩
  · cases h
  cases hl : env.load v.target_folder v.syntax_folder v.target_name with
  | error what => rw [hl] at h; cases h
  | ok tgt =>
    rw [hl] at h
    cases h
    exact ⟨rfl, rfl, rfl, rfl, hc1, by simpa using hc2⟩

/-- A return from the steps after the loop has status 1 and only writes
text. -/
theorem resolve_error (env : Env) (v : Vars) (r : Result) (h : resolve env v = .error r) :
    r.status = 1 ∧ ∃ text, r.trace = [Event.print text] := by
  unfold resolve at h
  replace h := ite_cases h
  rcases h with ⟨_, h⟩ | ⟨hc1, h⟩
  · cases h; exact ⟨rfl, _, rfl⟩
  replace h := ite_cases h
  rcases h with ⟨_, h⟩ | ⟨hc2, h⟩
  · cases h; exact ⟨rfl, _, rfl⟩
  cases hl : env.load v.target_folder v.syntax_folder v.target_name with
  | error what => rw [hl] at h; cases h; exact ⟨rfl, _, rfl⟩
  | ok tgt => rw [hl] at h; cases h

/-- A plan comes from a loop that ended normally. -/
theorem build_ok (env : Env) (args : List Str) (p : Plan) (h : build env args = .ok p) :
    ∃ v, scan env (init_vars env) args = .ok v ∧ resolve env v = .ok p := by
  unfold build at h
  cases hs : scan env (init_vars env) args with
  | error r => rw [hs] at h; cases h
  | ok v => rw [hs] at h; exact ⟨v, rfl, h⟩

/-- A run that ends before the pipeline starts only writes text. -/
theorem build_error (env : Env) (args : List Str) (r : Result)
    (h : build env args = .error r) : ∀ e ∈ r.trace, ∃ text, e = Event.print text := by
  unfold build at h
  cases hs : scan env (init_vars env) args with
  | error r1 =>
    rw [hs] at h
    cases h
    rcases scan_error env args _ r hs with rfl | rfl | ⟨msg, rfl⟩
    · intro e he
      simp only [show_version, List.mem_singleton] at he
      exact ⟨_, he⟩
    · intro e he
      simp only [show_help, show_version, List.singleton_append, List.mem_cons,
        List.mem_singleton, List.not_mem_nil, or_false] at he
      rcases he with he | he
      · exact ⟨_, he⟩
      · exact ⟨_, he⟩
    · intro e he
      simp only [show_error, List.mem_singleton] at he
      exact ⟨_, he⟩
  | ok v =>
    rw [hs] at h
    obtain ⟨-, text, ht⟩ := resolve_error env v r h
    intro e he
    rw [ht] at he
    simp only [List.mem_singleton] at he
    exact ⟨_, he⟩

/-! ## The pipeline -/

/-- In single-step mode the translate loop registers no temporary file. -/
theorem translate_temp (env : Env) (p : Plan) (h1 : p.v.one_step = true)
    (jobs : List (Str × Str)) :
    ∀ r : Run, (final_run (translate env p jobs r)).temp_files = r.temp_files := by
  induction jobs with
  | nil => intro r; rfl
  | cons job rest ih =>
    intro r
    obtain ⟨bas_name, asm_name⟩ := job
    simp only [translate]
    split_ifs <;> first | rfl | (rw [ih])

/-- In single-step mode the assemble loop registers no temporary file. -/
theorem assemble_temp (env : Env) (p : Plan) (h1 : p.v.one_step = true)
    (jobs : List (Str × Str)) :
    ∀ r : Run, (final_run (assemble env p jobs r)).temp_files = r.temp_files := by
  induction jobs with
  | nil => intro r; rfl
  | cons job rest ih =>
    intro r
    obtain ⟨asm_name, obj_name⟩ := job
    simp only [assemble]
    split_ifs <;> first | rfl | (rw [ih])

/-- The link step registers no temporary file. -/
theorem link_temp (env : Env) (p : Plan) (r : Run) :
    (final_run (link env p r)).temp_files = r.temp_files := by
  simp only [link]
  split_ifs <;> rfl

/-- In single-step mode the run of a plan registers no temporary file. -/
theorem registered_one_step (env : Env) (p : Plan) (h1 : p.v.one_step = true) :
    registered env p = p.v.temp_files := by
  simp only [registered, execute_run]
  have ht := translate_temp env p h1 p.v.bas_files ⟨[], p.v.temp_files⟩
  cases h : translate env p p.v.bas_files ⟨[], p.v.temp_files⟩ with
  | error hlt => rw [h] at ht; exact ht
  | ok r1 =>
    rw [h] at ht
    dsimp only
    have ha := assemble_temp env p h1 p.v.asm_files r1
    cases h2 : assemble env p p.v.asm_files r1 with
    | error hlt => rw [h2] at ha; exact ha.trans ht
    | ok r2 =>
      rw [h2] at ha
      dsimp only
      exact ((link_temp env p r2).trans ha).trans ht

/-- The translate loop starts no external program. -/
theorem translate_no_exec (env : Env) (p : Plan) (jobs : List (Str × Str)) :
    ∀ r : Run, (∀ e ∈ r.trace, ∀ prog a, e ≠ Event.exec prog a) →
      ∀ e ∈ (final_run (translate env p jobs r)).trace, ∀ prog a, e ≠ Event.exec prog a := by
  induction jobs with
  | nil => intro r hr; exact hr
  | cons job rest ih =>
    intro r hr
    obtain ⟨bas_name, asm_name⟩ := job
    simp only [translate]
    have hp : ∀ (t : List Event) (x : Str), (∀ e ∈ t, ∀ prog a, e ≠ Event.exec prog a) →
        ∀ e ∈ t ++ [Event.print x], ∀ prog a, e ≠ Event.exec prog a := by
      intro t x ht e he prog a
      simp only [List.mem_append, List.mem_singleton] at he
      rcases he with he | he
      · exact ht e he prog a
      · rw [he]; exact fun x => Event.noConfusion x
    have hc : ∀ (t : List Event) (x y z : Str), (∀ e ∈ t, ∀ prog a, e ≠ Event.exec prog a) →
        ∀ e ∈ t ++ [Event.compile x y z], ∀ prog a, e ≠ Event.exec prog a := by
      intro t x y z ht e he prog a
      simp only [List.mem_append, List.mem_singleton] at he
      rcases he with he | he
      · exact ht e he prog a
      · rw [he]; exact fun x => Event.noConfusion x
    split_ifs
    all_goals
      first
      | exact hc _ _ _ _ (hp _ _ (hp _ _ hr))
      | exact hc _ _ _ _ (hp _ _ hr)
      | exact ih _ (hc _ _ _ _ (hp _ _ (hp _ _ hr)))
      | exact ih _ (hc _ _ _ _ (hp _ _ hr))

/-- C6 (as stated, refuted): with `-c` after the BASIC file the flag is in
the argument list, yet the file has already got its ASM job and its link
input. -/
theorem C6_counterexample :
    has_flag "-c".toList false ["foo.bas".toList, "-c".toList] = true
    ∧ file_args false ["foo.bas".toList, "-c".toList] = ["foo.bas".toList]
    ∧ ∃ p, build sample_env ["foo.bas".toList, "-c".toList] = .ok p
      ∧ p.v.bas_files = [("foo.bas".toList, "foo.asm".toList)]
      ∧ p.v.asm_files = [("foo.asm".toList, "foo.o".toList)]
      ∧ p.v.link_files = ["foo.o".toList] := by
  refine ⟨by decide, by decide, _, rfl, rfl, rfl, rfl⟩

/-- C6 (amended): when `-c` is given as a flag, wherever it stands, a run
registers no temporary file; and when it stands before the only file
argument, a BASIC source, the pipeline has one BAS job for that file, no ASM
job and no link input. -/
theorem C6_single_step_basic (env : Env) (args : List Str) (p : Plan)
    (hc : has_flag "-c".toList false args = true) (hb : build env args = .ok p) :
    registered env p = []
      ∧ ∀ pre f post, args = pre ++ f :: post →
          has_flag "-c".toList false pre = true → pending false pre = false →
          file_args false pre = [] → is_file_name f = true → is_basic env f = true →
          file_args false post = [] →
          (∃ a, p.v.bas_files = [(f, a)]) ∧ p.v.asm_files = [] ∧ p.v.link_files = [] := by
  obtain ⟨v, hs, hr⟩ := build_ok env args p hb
  obtain ⟨-, hpv, -, -, -, -⟩ := resolve_ok env v p hr
  constructor
  · obtain ⟨h1, h2⟩ := scan_one_step env args _ v hs
    have hone : p.v.one_step = true := by
      rw [hpv]
      show v.one_step = true
      rw [h1]
      simp only [init_vars, hc]
      rfl
    rw [registered_one_step env p hone, hpv]
    exact h2
  · intro pre f post hargs hcpre hpend hpre hf hbas hpost
    subst hargs
    rw [scan_append] at hs
    cases h0 : scan env (init_vars env) pre with
    | error r => rw [h0] at hs; cases hs
    | ok v0 =>
      rw [h0] at hs
      dsimp only at hs
      have hn0 : v0.next_is_output = false := by
        rw [scan_pending env pre _ v0 h0]
        exact hpend
      obtain ⟨j1, j2, j3⟩ := scan_no_file env pre _ v0 h0 hpre
      have hone0 : v0.one_step = true := by
        rw [(scan_one_step env pre _ v0 h0).1]
        simp only [init_vars, hcpre]
        rfl
      obtain ⟨v1, hstep, hs1⟩ := scan_cons_inv env v0 v f post hs
      rw [process_arg_file env v0 f hn0 hf] at hstep
      cases hstep
      obtain ⟨k1, k2, k3⟩ := scan_no_file env post _ v hs1 (by rw [hn0]; exact hpost)
      have hobj : is_object env f = false := by
        simp only [is_basic, Bool.and_eq_true, Bool.not_eq_true'] at hbas
        exact hbas.1
      have hasm : is_assembly env f = false := by
        simp only [is_basic, Bool.and_eq_true, Bool.not_eq_true'] at hbas
        exact hbas.2
      rw [hpv]
      refine ⟨⟨env.add_extension (if v0.got_outname = true then v0.out_name else f)
        ".asm".toList, ?_⟩, ?_, ?_⟩
      · show v.bas_files = _
        rw [k1]
        simp only [j1, init_vars, bas_jobs, hbas, if_true, List.nil_append]
      · show v.asm_files = _
        rw [k2]
        simp [j2, init_vars, asm_jobs, hobj, hasm, hone0]
      · show v.link_files = _
        rw [k3]
        simp [j3, init_vars, link_inputs, hobj, hone0]

/-- Witness of C6 (amended): `-c foo.bas` in the sample environment. -/
theorem C6_single_step_basic_witness :
    has_flag "-c".toList false ["-c".toList, "foo.bas".toList] = true
    ∧ ∃ p, build sample_env ["-c".toList, "foo.bas".toList] = .ok p
      ∧ registered sample_env p = []
      ∧ (∃ a, p.v.bas_files = [("foo.bas".toList, a)])
      ∧ p.v.asm_files = [] ∧ p.v.link_files = [] := by
  have hb : ∃ p, build sample_env ["-c".toList, "foo.bas".toList] = .ok p := ⟨_, rfl⟩
  obtain ⟨p, hp⟩ := hb
  have h := C6_single_step_basic sample_env ["-c".toList, "foo.bas".toList] p (by decide) hp
  exact ⟨by decide, p, hp, h.1,
    h.2 ["-c".toList] "foo.bas".toList [] rfl (by decide) (by decide) (by decide) (by decide)
      (by decide) (by decide)⟩

/-- The assemble loop over no job and the link step over no link input start
no external program; the removal of the temporary files starts none. -/
theorem execute_no_exec (env : Env) (p : Plan) (ha : p.v.asm_files = [])
    (hl : p.v.link_files = []) :
    ∀ e ∈ (execute env p).trace, ∀ prog a, e ≠ Event.exec prog a := by
  have ht := translate_no_exec env p p.v.bas_files ⟨[], p.v.temp_files⟩
    (by intro e he; simp at he)
  unfold execute execute_run
  rw [ha]
  cases h : translate env p p.v.bas_files ⟨[], p.v.temp_files⟩ with
  | error hlt => rw [h] at ht; exact ht
  | ok r1 =>
    rw [h] at ht
    have hlink : link env p r1 = .ok r1 := by simp [link, hl]
    simp only [assemble, hlink, cleanup]
    intro e he prog a
    split at he
    · simp only [List.mem_append, List.mem_map] at he
      rcases he with he | ⟨x, -, he⟩
      · exact ht e he prog a
      · rw [← he]; exact fun x => Event.noConfusion x
    · exact ht e he prog a

/-- C7 (as stated, refuted): with `-c` an assembly source is still assembled,
an object file is still linked, and a BASIC file given before `-c` is
assembled and linked. -/
theorem C7_counterexample :
    Event.exec "ca65".toList ["ca65".toList, "-I".toList, "asminc".toList, "-o".toList,
        "foo.o".toList, "-g".toList, "foo.asm".toList]
      ∈ (main sample_env ["-c".toList, "foo.asm".toList]).trace
    ∧ Event.exec "ld65".toList ["ld65".toList, "-C".toList, "default.cfg".toList,
        "-o".toList, "foo.xex".toList, "foo.o".toList, "default.lib".toList]
      ∈ (main sample_env ["-c".toList, "foo.o".toList]).trace
    ∧ Event.exec "ca65".toList ["ca65".toList, "-I".toList, "asminc".toList, "-o".toList,
        "foo.o".toList, "-g".toList, "foo.asm".toList]
      ∈ (main sample_env ["foo.bas".toList, "-c".toList]).trace
    ∧ Event.exec "ld65".toList ["ld65".toList, "-C".toList, "default.cfg".toList,
        "-o".toList, "foo.xex".toList, "foo.o".toList, "default.lib".toList]
      ∈ (main sample_env ["foo.bas".toList, "-c".toList]).trace := by
  refine ⟨by decide, by decide, by decide, by decide⟩

/-- In single-step mode, arguments without an object file among their file
arguments add no link input. -/
theorem scan_one_step_no_object (env : Env) (args : List Str) :
    ∀ v v2 : Vars, scan env v args = .ok v2 → v.one_step = true →
      (∀ f ∈ file_args v.next_is_output args, is_object env f = false) →
      v2.link_files = v.link_files := by
  induction args with
  | nil => intro v v2 h _ _; simp only [scan] at h; cases h; rfl
  | cons arg rest ih =>
    intro v v2 h hone hall
    obtain ⟨v1, hp, hs⟩ := scan_cons_inv env v v2 arg rest h
    cases hn : v.next_is_output with
    | true =>
      rw [process_arg_value env v arg hn] at hp
      cases hp
      rw [hn] at hall
      have r := ih _ v2 hs hone (by simpa only [file_args] using hall)
      exact r
    | false =>
      rw [hn] at hall
      cases hf : is_file_name arg with
      | true =>
        rw [file_args_file arg rest hf] at hall
        simp only [List.mem_cons, forall_eq_or_imp] at hall
        rw [process_arg_file env v arg hn hf] at hp
        cases hp
        have hrec := ih _ v2 hs hone (by simpa [hn] using hall.2)
        simpa [link_inputs, hall.1, hone] using hrec
      | false =>
        obtain ⟨-, -, h3, -, h5, h6, -⟩ := process_arg_option env v v1 arg hn hf hp
        have hone1 : v1.one_step = true := by rw [h6, hone]; rfl
        have hfa : file_args false (arg :: rest) = file_args v1.next_is_output rest := by
          rw [h5, file_args_option arg rest hf]
        rw [hfa] at hall
        exact (ih v1 v2 hs hone1 hall).trans h3

/-- The assemble loop does not start the linker. -/
theorem assemble_no_ld65 (env : Env) (p : Plan) (jobs : List (Str × Str)) :
    ∀ r : Run, (∀ e ∈ r.trace, ∀ a, e ≠ Event.exec "ld65".toList a) →
      ∀ e ∈ (final_run (assemble env p jobs r)).trace,
        ∀ a, e ≠ Event.exec "ld65".toList a := by
  induction jobs with
  | nil => intro r hr; exact hr
  | cons job rest ih =>
    intro r hr
    obtain ⟨asm_name, obj_name⟩ := job
    simp only [assemble]
    have hp : ∀ (t : List Event) (x : Str), (∀ e ∈ t, ∀ a, e ≠ Event.exec "ld65".toList a) →
        ∀ e ∈ t ++ [Event.print x], ∀ a, e ≠ Event.exec "ld65".toList a := by
      intro t x ht e he a
      simp only [List.mem_append, List.mem_singleton] at he
      rcases he with he | he
      · exact ht e he a
      · rw [he]; exact fun x => Event.noConfusion x
    have hc : ∀ (t : List Event) (x : List Str),
        (∀ e ∈ t, ∀ a, e ≠ Event.exec "ld65".toList a) →
        ∀ e ∈ t ++ [Event.exec "ca65".toList x], ∀ a, e ≠ Event.exec "ld65".toList a := by
      intro t x ht e he a
      simp only [List.mem_append, List.mem_singleton] at he
      rcases he with he | he
      · exact ht e he a
      · rw [he]
        intro hx
        injection hx with h1 h2
        exact absurd h1 (by decide)
    split_ifs
    all_goals
      first
      | exact hp _ _ (hc _ _ (hp _ _ hr))
      | exact ih _ (hc _ _ (hp _ _ hr))

/-- A plan without link input does not start the linker. -/
theorem execute_no_ld65 (env : Env) (p : Plan) (hl : p.v.link_files = []) :
    ∀ e ∈ (execute env p).trace, ∀ a, e ≠ Event.exec "ld65".toList a := by
  have ht : ∀ e ∈ (final_run (translate env p p.v.bas_files ⟨[], p.v.temp_files⟩)).trace,
      ∀ a, e ≠ Event.exec "ld65".toList a :=
    fun e he a => translate_no_exec env p p.v.bas_files ⟨[], p.v.temp_files⟩
      (by intro e he; simp at he) e he _ a
  unfold execute execute_run
  cases h : translate env p p.v.bas_files ⟨[], p.v.temp_files⟩ with
  | error hlt => rw [h] at ht; exact ht
  | ok r1 =>
    rw [h] at ht
    dsimp only
    have ha := assemble_no_ld65 env p p.v.asm_files r1 ht
    cases h2 : assemble env p p.v.asm_files r1 with
    | error hlt => rw [h2] at ha; exact ha
    | ok r2 =>
      rw [h2] at ha
      have hlink : link env p r2 = .ok r2 := by simp [link, hl]
      simp only [hlink, cleanup]
      intro e he a
      split at he
      · simp only [List.mem_append, List.mem_map] at he
        rcases he with he | ⟨x, -, he⟩
        · exact ha e he a
        · rw [← he]; exact fun x => Event.noConfusion x
      · exact ha e he a

/-- C7 (amended): when `-c` is processed as a flag before any file argument
and no file argument is an object file, then whatever the target loader, the
translator and the external programs do, the run never starts the linker;
and when moreover every file argument is a BASIC source it starts no
external program at all, so neither the assembler nor the linker. -/
theorem C7_single_step_no_tools (env : Env) (pre rest : List Str)
    (hp : pending false pre = false) (hpre : file_args false pre = [])
    (hrest : ∀ f ∈ file_args false rest, is_object env f = false) :
    (∀ e ∈ (main env (pre ++ "-c".toList :: rest)).trace,
        ∀ a, e ≠ Event.exec "ld65".toList a)
    ∧ ((∀ f ∈ file_args false rest, is_basic env f = true) →
        ∀ e ∈ (main env (pre ++ "-c".toList :: rest)).trace,
          ∀ prog a, e ≠ Event.exec prog a) := by
  unfold main
  cases hb : build env (pre ++ "-c".toList :: rest) with
  | error r =>
    constructor
    · intro e he a
      obtain ⟨text, ht⟩ := build_error env _ r hb e he
      rw [ht]
      exact fun x => Event.noConfusion x
    · intro _ e he prog a
      obtain ⟨text, ht⟩ := build_error env _ r hb e he
      rw [ht]
      exact fun x => Event.noConfusion x
  | ok p =>
    dsimp only
    obtain ⟨v, hs, hr⟩ := build_ok env _ p hb
    obtain ⟨-, hpv, -, -, -, -⟩ := resolve_ok env v p hr
    rw [scan_append] at hs
    cases h0 : scan env (init_vars env) pre with
    | error r => rw [h0] at hs; cases hs
    | ok v0 =>
      rw [h0] at hs
      dsimp only at hs
      have hn0 : v0.next_is_output = false := by
        rw [scan_pending env pre _ v0 h0]
        exact hp
      obtain ⟨-, j2, j3⟩ := scan_no_file env pre _ v0 h0 hpre
      rw [scan_cons_ok env _ _ _ _ (process_arg_c env v0 hn0)] at hs
      constructor
      · have k3 := scan_one_step_no_object env rest _ v hs rfl (by rw [hn0]; exact hrest)
        apply execute_no_ld65
        rw [hpv]
        show v.link_files = []
        rw [k3]
        exact j3
      · intro hbas
        obtain ⟨-, k2, k3⟩ :=
          scan_one_step_basic env rest _ v hs rfl (by rw [hn0]; exact hbas)
        apply execute_no_exec
        · rw [hpv]
          show v.asm_files = []
          rw [k2]
          exact j2
        · rw [hpv]
          show v.link_files = []
          rw [k3]
          exact j3

/-- Witness of C7 (amended): `-g -c foo.bas bar.bas` in the sample environment. -/
theorem C7_single_step_no_tools_witness :
    (pending false ["-g".toList] = false ∧ file_args false ["-g".toList] = [])
    ∧ (∀ e ∈ (main sample_env
          (["-g".toList] ++ "-c".toList :: ["foo.bas".toList, "bar.bas".toList])).trace,
        ∀ a, e ≠ Event.exec "ld65".toList a)
    ∧ ∀ e ∈ (main sample_env
          (["-g".toList] ++ "-c".toList :: ["foo.bas".toList, "bar.bas".toList])).trace,
        ∀ prog a, e ≠ Event.exec prog a :=
  have h := C7_single_step_no_tools sample_env ["-g".toList]
    ["foo.bas".toList, "bar.bas".toList] (by decide) (by decide) (by decide)
  ⟨by decide, h.1, h.2 (by decide)⟩

/-! ## Options with a value -/

/-- What the `-ls:` branch (lines 166-178) does with the text after the
separator. -/
theorem process_arg_ls (env : Env) (v : Vars) (sep : Char) (r : Str)
    (hsep : sep = ':' ∨ sep = '=') (hn : v.next_is_output = false) :
    process_arg env v ("-ls".toList ++ sep :: r) =
      match stoi r with
      | some (n, pos) =>
        if pos ≠ r.length ∨ n < 1 ∨ n > 256 then
          .error (show_error "'-ls' option needs line length from 1 to 256".toList)
        else .ok { v with comp := { v.comp with show_text := true, short_text := n } }
      | none => .error (show_error "'-ls' option needs line length from 1 to 256".toList) := by
  rcases hsep with rfl | rfl
  · cases hst : stoi r with
    | none => simp [process_arg, hn, starts_with, List.isPrefixOf, substr, hst]
    | some np =>
      obtain ⟨n, pos⟩ := np
      simp [process_arg, hn, starts_with, List.isPrefixOf, substr, hst]
  · cases hst : stoi r with
    | none => simp [process_arg, hn, starts_with, List.isPrefixOf, substr, hst]
    | some np =>
      obtain ⟨n, pos⟩ := np
      simp [process_arg, hn, starts_with, List.isPrefixOf, substr, hst]

/-- C8: `-ls:r` (or `-ls=r`) is accepted exactly when the numeric parse
consumes the whole of `r` and gives an integer from 1 to 256; it then sets
the listing flag and the width to that integer, and otherwise the run fails
with the listing-width error and status 1. `-ls:0`, `-ls:257` and `-ls:abc`
fail; `-ls:1` and `-ls:256` give the widths 1 and 256. -/
theorem C8_listing_width (env : Env) (v : Vars) (sep : Char) (r : Str)
    (hsep : sep = ':' ∨ sep = '=') (hn : v.next_is_output = false) :
    ((∃ v2, process_arg env v ("-ls".toList ++ sep :: r) = .ok v2)
        ↔ ∃ n : Int, stoi r = some (n, r.length) ∧ 1 ≤ n ∧ n ≤ 256)
    ∧ (∀ n : Int, stoi r = some (n, r.length) → 1 ≤ n → n ≤ 256 →
        process_arg env v ("-ls".toList ++ sep :: r)
          = .ok { v with comp := { v.comp with show_text := true, short_text := n } })
    ∧ ((¬ ∃ n : Int, stoi r = some (n, r.length) ∧ 1 ≤ n ∧ n ≤ 256) →
        process_arg env v ("-ls".toList ++ sep :: r)
            = .error (show_error "'-ls' option needs line length from 1 to 256".toList)
          ∧ (show_error "'-ls' option needs line length from 1 to 256".toList).status = 1)
    ∧ process_arg env v "-ls:0".toList
        = .error (show_error "'-ls' option needs line length from 1 to 256".toList)
    ∧ process_arg env v "-ls:257".toList
        = .error (show_error "'-ls' option needs line length from 1 to 256".toList)
    ∧ process_arg env v "-ls:abc".toList
        = .error (show_error "'-ls' option needs line length from 1 to 256".toList)
    ∧ process_arg env v "-ls:1".toList
        = .ok { v with comp := { v.comp with show_text := true, short_text := 1 } }
    ∧ process_arg env v "-ls:256".toList
        = .ok { v with comp := { v.comp with show_text := true, short_text := 256 } } := by
  have key := process_arg_ls env v
  refine ⟨?_, ?_, ?_, ?_, ?_, ?_, ?_, ?_⟩
  · rw [key sep r hsep hn]
    cases hst : stoi r with
    | none => simp
    | some np =>
      obtain ⟨n, pos⟩ := np
      dsimp only
      constructor
      · rintro ⟨v2, h2⟩
        by_cases hc : pos ≠ r.length ∨ n < 1 ∨ n > 256
        · rw [if_pos hc] at h2; cases h2
        · simp only [not_or, ne_eq, not_not, not_lt, gt_iff_lt] at hc
          exact ⟨n, by rw [hc.1], hc.2.1, hc.2.2⟩
      · rintro ⟨m, hm, h1, h2⟩
        simp only [Option.some.injEq, Prod.mk.injEq] at hm
        obtain ⟨rfl, rfl⟩ := hm
        rw [if_neg (by omega)]
        exact ⟨_, rfl⟩
  · intro n hst h1 h2
    rw [key sep r hsep hn, hst]
    dsimp only
    rw [if_neg (by omega)]
  · intro hno
    refine ⟨?_, rfl⟩
    rw [key sep r hsep hn]
    cases hst : stoi r with
    | none => rfl
    | some np =>
      obtain ⟨n, pos⟩ := np
      dsimp only
      by_cases hc : pos ≠ r.length ∨ n < 1 ∨ n > 256
      · rw [if_pos hc]
      · simp only [not_or, ne_eq, not_not, not_lt, gt_iff_lt] at hc
        exact absurd ⟨n, by rw [hst, hc.1], hc.2.1, hc.2.2⟩ hno
  · exact (key ':' "0".toList (Or.inl rfl) hn).trans
      (by rw [show stoi "0".toList = some (0, 1) from by decide]; rfl)
  · exact (key ':' "257".toList (Or.inl rfl) hn).trans
      (by rw [show stoi "257".toList = some (257, 3) from by decide]; rfl)
  · exact (key ':' "abc".toList (Or.inl rfl) hn).trans
      (by rw [show stoi "abc".toList = none from by decide])
  · exact (key ':' "1".toList (Or.inl rfl) hn).trans (by rfl)
  · exact (key ':' "256".toList (Or.inl rfl) hn).trans (by rfl)

/-- Witness of C8: `-ls=0x40` sets the width 64. -/
theorem C8_listing_width_witness :
    process_arg sample_env (init_vars sample_env) "-ls=0x40".toList
      = .ok { init_vars sample_env with
          comp := { (init_vars sample_env).comp with show_text := true, short_text := 64 } } :=
  (C8_listing_width sample_env (init_vars sample_env) '=' "0x40".toList (Or.inr rfl) rfl).2.1
    64 (by decide) (by decide) (by decide)

/-- The characters that `tolower` maps to `b`. -/
theorem tolower_eq_b (c : Char) : tolower c = 'b' ↔ c = 'b' ∨ c = 'B' := by
  unfold tolower
  by_cases h : 65 ≤ c.toNat ∧ c.toNat ≤ 90
  · rw [if_pos h]
    have hc := Char.ofNat_toNat c
    generalize c.toNat = n at h hc ⊢
    subst hc
    obtain ⟨h1, h2⟩ := h
    interval_cases n <;> decide
  · rw [if_neg h]
    constructor
    · intro e; exact Or.inl e
    · rintro (e | e)
      · exact e
      · subst e; exact absurd (by decide) h

/-- The characters that `tolower` maps to `a`. -/
theorem tolower_eq_a (c : Char) : tolower c = 'a' ↔ c = 'a' ∨ c = 'A' := by
  unfold tolower
  by_cases h : 65 ≤ c.toNat ∧ c.toNat ≤ 90
  · rw [if_pos h]
    have hc := Char.ofNat_toNat c
    generalize c.toNat = n at h hc ⊢
    subst hc
    obtain ⟨h1, h2⟩ := h
    interval_cases n <;> decide
  · rw [if_neg h]
    constructor
    · intro e; exact Or.inl e
    · rintro (e | e)
      · exact e
      · subst e; exact absurd (by decide) h

/-- The characters that `tolower` maps to `s`. -/
theorem tolower_eq_s (c : Char) : tolower c = 's' ↔ c = 's' ∨ c = 'S' := by
  unfold tolower
  by_cases h : 65 ≤ c.toNat ∧ c.toNat ≤ 90
  · rw [if_pos h]
    have hc := Char.ofNat_toNat c
    generalize c.toNat = n at h hc ⊢
    subst hc
    obtain ⟨h1, h2⟩ := h
    interval_cases n <;> decide
  · rw [if_neg h]
    constructor
    · intro e; exact Or.inl e
    · rintro (e | e)
      · exact e
      · subst e; exact absurd (by decide) h

/-- The strings that `to_lower` maps to `bas` are the eight spellings of
`bas` in upper and lower case. -/
theorem to_lower_eq_bas (e : Str) :
    to_lower e = "bas".toList ↔
      e ∈ ["bas".toList, "baS".toList, "bAs".toList, "bAS".toList, "Bas".toList,
        "BaS".toList, "BAs".toList, "BAS".toList] := by
  constructor
  · intro h
    rcases e with _ | ⟨a, _ | ⟨b, _ | ⟨c, _ | ⟨d, t⟩⟩⟩⟩
    · simp [to_lower] at h
    · simp [to_lower] at h
    · simp [to_lower] at h
    · simp only [to_lower, List.map_cons, List.map_nil, String.toList, List.cons.injEq,
        and_true] at h
      obtain ⟨h1, h2, h3⟩ := h
      rcases (tolower_eq_b a).mp h1 with rfl | rfl <;>
      rcases (tolower_eq_a b).mp h2 with rfl | rfl <;>
      rcases (tolower_eq_s c).mp h3 with rfl | rfl <;> decide
    · simp [to_lower] at h
  · intro h
    simp only [List.mem_cons, List.mem_singleton, List.not_mem_nil, or_false] at h
    rcases h with rfl | rfl | rfl | rfl | rfl | rfl | rfl | rfl <;> decide

/-- What the `-l:` branch (lines 153-160) does with the text after the
separator. -/
theorem process_arg_l (env : Env) (v : Vars) (sep : Char) (e : Str)
    (hsep : sep = ':' ∨ sep = '=') (hn : v.next_is_output = false) :
    process_arg env v ("-l".toList ++ sep :: e) =
      if e = [] ∨ to_lower e = "bas".toList then
        .error (show_error "invalid BASIC listing extension".toList)
      else
        .ok { v with
          comp := { v.comp with show_text := true }
          listing_ext := '.' :: e } := by
  rcases hsep with rfl | rfl
  · by_cases hc : e = [] ∨ to_lower e = "bas".toList
    · rw [if_pos hc]
      simp [process_arg, hn, starts_with, List.isPrefixOf, substr]
      rcases hc with h | h
      · exact fun hne => absurd h hne
      · exact fun _ => h
    · rw [if_neg hc]
      simp [process_arg, hn, starts_with, List.isPrefixOf, substr]
      simpa using hc
  · by_cases hc : e = [] ∨ to_lower e = "bas".toList
    · rw [if_pos hc]
      simp [process_arg, hn, starts_with, List.isPrefixOf, substr]
      rcases hc with h | h
      · exact fun hne => absurd h hne
      · exact fun _ => h
    · rw [if_neg hc]
      simp [process_arg, hn, starts_with, List.isPrefixOf, substr]
      simpa using hc

/-- C9: `-l:e` (or `-l=e`) fails with "invalid BASIC listing extension"
exactly when `e` is empty or is `bas` in any mix of upper and lower case;
otherwise it sets the listing flag and the listing extension `.` followed by
`e` as written. `-l:bas` and `-l:BAS` fail, `-l:lst` gives `.lst`. -/
theorem C9_listing_extension (env : Env) (v : Vars) (sep : Char) (e : Str)
    (hsep : sep = ':' ∨ sep = '=') (hn : v.next_is_output = false) :
    (process_arg env v ("-l".toList ++ sep :: e)
          = .error (show_error "invalid BASIC listing extension".toList)
        ↔ (e = [] ∨ e ∈ ["bas".toList, "baS".toList, "bAs".toList, "bAS".toList,
            "Bas".toList, "BaS".toList, "BAs".toList, "BAS".toList]))
    ∧ (¬ (e = [] ∨ e ∈ ["bas".toList, "baS".toList, "bAs".toList, "bAS".toList,
            "Bas".toList, "BaS".toList, "BAs".toList, "BAS".toList]) →
        process_arg env v ("-l".toList ++ sep :: e)
          = .ok { v with
              comp := { v.comp with show_text := true }
              listing_ext := ".".toList ++ e })
    ∧ process_arg env v "-l:bas".toList
        = .error (show_error "invalid BASIC listing extension".toList)
    ∧ process_arg env v "-l:BAS".toList
        = .error (show_error "invalid BASIC listing extension".toList)
    ∧ process_arg env v "-l:lst".toList
        = .ok { v with
            comp := { v.comp with show_text := true }
            listing_ext := ".lst".toList } := by
  have key := process_arg_l env v
  refine ⟨?_, ?_, ?_, ?_, ?_⟩
  · rw [key sep e hsep hn, ← to_lower_eq_bas]
    by_cases hc : e = [] ∨ to_lower e = "bas".toList
    · rw [if_pos hc]
      exact ⟨fun _ => hc, fun _ => rfl⟩
    · rw [if_neg hc]
      exact ⟨fun h => (by cases h), fun h => absurd h hc⟩
  · intro hc
    rw [← to_lower_eq_bas] at hc
    rw [key sep e hsep hn, if_neg hc]
    rfl
  · exact (key ':' "bas".toList (Or.inl rfl) hn).trans (if_pos (by decide))
  · exact (key ':' "BAS".toList (Or.inl rfl) hn).trans (if_pos (by decide))
  · exact (key ':' "lst".toList (Or.inl rfl) hn).trans (if_neg (by decide))

/-- Witness of C9: `-l=Txt` sets the listing extension `.Txt`. -/
theorem C9_listing_extension_witness :
    process_arg sample_env (init_vars sample_env) "-l=Txt".toList
      = .ok { init_vars sample_env with
          comp := { (init_vars sample_env).comp with show_text := true }
          listing_ext := ".Txt".toList } :=
  (C9_listing_extension sample_env (init_vars sample_env) '=' "Txt".toList (Or.inr rfl)
    rfl).2.1 (by decide)

/-! ## Flags -/

/-- C10 (as stated, refuted): `-keep` sets two fields, `keep_temps` and
`do_listing`; `-ls` sets two, the listing flag and the width; and a flag that
comes right after a bare `-o` sets no field at all: it is taken as the output
name and ends the wait for it. -/
theorem C10_counterexample :
    (∃ v2, process_arg sample_env (init_vars sample_env) "-keep".toList = .ok v2
      ∧ (init_vars sample_env).keep_temps = false ∧ v2.keep_temps = true
      ∧ (init_vars sample_env).do_listing = false ∧ v2.do_listing = true)
    ∧ (∃ v2, process_arg sample_env (init_vars sample_env) "-ls".toList = .ok v2
      ∧ (init_vars sample_env).comp.show_text = false ∧ v2.comp.show_text = true
      ∧ (init_vars sample_env).comp.short_text = 0 ∧ v2.comp.short_text = 120)
    ∧ (∃ v1 v2, process_arg sample_env (init_vars sample_env) "-o".toList = .ok v1
      ∧ process_arg sample_env v1 "-d".toList = .ok v2
      ∧ v1.comp.do_debug = false ∧ v2.comp.do_debug = false
      ∧ v1.next_is_output = true ∧ v2.next_is_output = false
      ∧ v1.out_name = [] ∧ v2.out_name = "-d".toList) := by
  refine ⟨⟨_, rfl, rfl, rfl, rfl, rfl⟩, ⟨_, rfl, rfl, rfl, rfl, rfl⟩,
    ⟨_, _, rfl, rfl, rfl, rfl, rfl, rfl, rfl, rfl⟩⟩

/-- C10 (amended): in every parser state that is not waiting for the name of
a bare `-o`, each of the flags `-d`, `-n`, `-prof`, `-c`, `-l`, `-ls`,
`-keep`, `-g` sets exactly its own fields (one field, but the listing flag
and the width 120 for `-ls`, and `keep_temps` and `do_listing` for `-keep`)
and leaves every other local of `main` as it is. -/
theorem C10_flags_frame (env : Env) (v : Vars) (hn : v.next_is_output = false) :
    process_arg env v "-d".toList = .ok { v with comp := { v.comp with do_debug := true } }
    ∧ process_arg env v "-n".toList
        = .ok { v with comp := { v.comp with optimize := false } }
    ∧ process_arg env v "-prof".toList
        = .ok { v with comp := { v.comp with show_stats := true } }
    ∧ process_arg env v "-c".toList = .ok { v with one_step := true }
    ∧ process_arg env v "-l".toList
        = .ok { v with comp := { v.comp with show_text := true } }
    ∧ process_arg env v "-ls".toList
        = .ok { v with comp := { v.comp with show_text := true, short_text := 120 } }
    ∧ process_arg env v "-keep".toList
        = .ok { v with keep_temps := true, do_listing := true }
    ∧ process_arg env v "-g".toList = .ok { v with do_listing := true } := by
  refine ⟨?_, ?_, ?_, ?_, ?_, ?_, ?_, ?_⟩ <;>
    simp [process_arg, hn, starts_with, List.isPrefixOf]

/-- Witness of C10 (amended): `-keep` from the first parser state. -/
theorem C10_flags_frame_witness :
    process_arg sample_env (init_vars sample_env) "-keep".toList
      = .ok { init_vars sample_env with keep_temps := true, do_listing := true } :=
  (C10_flags_frame sample_env (init_vars sample_env) rfl).2.2.2.2.2.2.1

/-- An argument that begins with `-o` and has at most two characters is the
bare `-o`. -/
theorem bare_output_option (arg : Str) (ho : starts_with arg "-o".toList = true)
    (hlen : ¬ arg.length > 2) : arg = "-o".toList := by
  rcases arg with _ | ⟨c0, _ | ⟨c1, _ | ⟨c2, t⟩⟩⟩
  · simp [starts_with, List.isPrefixOf] at ho
  · simp [starts_with, List.isPrefixOf] at ho
  · simp [starts_with, List.isPrefixOf] at ho
    rw [← ho.1, ← ho.2]
    rfl
  · simp at hlen

/-- An argument that is not empty and does not begin with `-` is a file
name. -/
theorem file_name_of_tests (arg : Str) (h1 : ¬ arg.isEmpty = true)
    (h2 : ¬ arg.head? = some '-') : is_file_name arg = true := by
  cases arg with
  | nil => simp at h1
  | cons c t =>
    simp only [List.head?_cons, Option.some.injEq] at h2
    simp [is_file_name, h2]

/-- The accepted cases of one round of the argument loop, branch by branch:
what the argument is and what the locals become. -/
theorem process_arg_shape (env : Env) (v v2 : Vars) (arg : Str)
    (h : v.next_is_output = false) (hok : process_arg env v arg = .ok v2) :
    (arg = "-d".toList ∧ v2 = { v with comp := { v.comp with do_debug := true } })
      ∨ (arg = "-n".toList ∧ v2 = { v with comp := { v.comp with optimize := false } })
      ∨ (arg = "-prof".toList ∧ v2 = { v with comp := { v.comp with show_stats := true } })
      ∨ (arg = "-c".toList ∧ v2 = { v with one_step := true })
      ∨ (arg = "-l".toList ∧ v2 = { v with comp := { v.comp with show_text := true } })
      ∨ ((starts_with arg "-l:".toList || starts_with arg "-l=".toList) = true ∧ ¬ ((substr arg 3).length = 0 ∨ to_lower (substr arg 3) = "bas".toList)
        ∧ v2 = { v with
          comp := { v.comp with show_text := true }
          listing_ext := ".".toList ++ substr arg 3 })
      ∨ (arg = "-ls".toList ∧ v2 = { v with comp := { v.comp with show_text := true, short_text := 120 } })
      ∨ ((starts_with arg "-ls:".toList || starts_with arg "-ls=".toList) = true
        ∧ ∃ n : Int, 1 ≤ n ∧ n ≤ 256
          ∧ v2 = { v with comp := { v.comp with show_text := true, short_text := n } })
      ∨ (arg = "-keep".toList ∧ v2 = { v with keep_temps := true, do_listing := true })
      ∨ (arg = "-g".toList ∧ v2 = { v with do_listing := true })
      ∨ (starts_with arg "-o".toList = true ∧ v.got_outname = false ∧ arg.length > 2
        ∧ v2 = { v with
          got_outname := true
          out_name := substr arg 2
          exe_name := if v.exe_name.isEmpty then substr arg 2 else v.exe_name })
      ∨ (arg = "-o".toList ∧ v.got_outname = false
        ∧ v2 = { v with got_outname := true, next_is_output := true })
      ∨ ((starts_with arg "-s:".toList || starts_with arg "-s=".toList) = true ∧ ¬ ((substr arg 3).length = 0 ∨ (find (substr arg 3) (Char.ofNat 34) 0).isSome)
        ∧ v2 = { v with comp := { v.comp with segname := substr arg 3 } })
      ∨ ((starts_with arg "-t:".toList || starts_with arg "-t=".toList) = true ∧ ¬ ((substr arg 3).length = 0 ∨ (find (substr arg 3) (Char.ofNat 34) 0).isSome)
        ∧ v2 = { v with target_name := substr arg 3 })
      ∨ ((starts_with arg "-C:".toList || starts_with arg "-C=".toList) = true ∧ v2 = { v with cfg_file_def := substr arg 3 })
      ∨ ((starts_with arg "-X:".toList || starts_with arg "-X=".toList) = true ∧ v2 = { v with asm_opts := v.asm_opts ++ [substr arg 3] })
      ∨ ((starts_with arg "-S:".toList || starts_with arg "-S=".toList) = true ∧ v2 = { v with link_opts := v.link_opts ++ ["--start-addr".toList, substr arg 3] })
      ∨ ((starts_with arg "-DL:".toList || starts_with arg "-DL=".toList) = true ∧ v2 = { v with link_opts := v.link_opts ++ ["--define".toList, substr arg 4] })
      ∨ ((starts_with arg "-syntax-path:".toList || starts_with arg "-syntax-path=".toList) = true ∧ v2 = { v with syntax_folder := parse_path_list (substr arg 13) })
      ∨ ((starts_with arg "-target-path:".toList || starts_with arg "-target-path=".toList) = true ∧ v2 = { v with target_folder := parse_path_list (substr arg 13) })
      ∨ (is_file_name arg = true) := by
  unfold process_arg at hok
  rw [if_neg (by simp [h])] at hok
  dsimp only at hok
  replace hok := ite_cases hok
  rcases hok with ⟨hc1, hok⟩ | ⟨hc1, hok⟩
  · cases hok
    exact Or.inl (⟨hc1, rfl⟩)
  replace hok := ite_cases hok
  rcases hok with ⟨hc2, hok⟩ | ⟨hc2, hok⟩
  · cases hok
    exact Or.inr (Or.inl (⟨hc2, rfl⟩))
  replace hok := ite_cases hok
  rcases hok with ⟨hc3, hok⟩ | ⟨hc3, hok⟩
  · cases hok
    exact Or.inr (Or.inr (Or.inl (⟨hc3, rfl⟩)))
  replace hok := ite_cases hok
  rcases hok with ⟨hc4, hok⟩ | ⟨hc4, hok⟩
  · cases hok
  replace hok := ite_cases hok
  rcases hok with ⟨hc5, hok⟩ | ⟨hc5, hok⟩
  · cases hok
    exact Or.inr (Or.inr (Or.inr (Or.inl (⟨hc5, rfl⟩))))
  replace hok := ite_cases hok
  rcases hok with ⟨hc6, hok⟩ | ⟨hc6, hok⟩
  · cases hok
    exact Or.inr (Or.inr (Or.inr (Or.inr (Or.inl (⟨hc6, rfl⟩)))))
  replace hok := ite_cases hok
  rcases hok with ⟨hc7, hok⟩ | ⟨hc7, hok⟩
  · replace hok := ite_cases hok
    rcases hok with ⟨hi7, hok⟩ | ⟨hi7, hok⟩
    · cases hok
    · cases hok
      exact Or.inr (Or.inr (Or.inr (Or.inr (Or.inr (Or.inl (⟨hc7, hi7, rfl⟩))))))
  replace hok := ite_cases hok
  rcases hok with ⟨hc8, hok⟩ | ⟨hc8, hok⟩
  · cases hok
    exact Or.inr (Or.inr (Or.inr (Or.inr (Or.inr (Or.inr (Or.inl (⟨hc8, rfl⟩)))))))
  replace hok := ite_cases hok
  rcases hok with ⟨hc9, hok⟩ | ⟨hc9, hok⟩
  · replace hok := ite_cases hok
    rcases hok with ⟨hi9, hok⟩ | ⟨hi9, hok⟩
    · cases hok
    · cases hok
      simp only [not_or, not_lt, gt_iff_lt] at hi9
      exact Or.inr (Or.inr (Or.inr (Or.inr (Or.inr (Or.inr (Or.inr (Or.inl (⟨hc9, _, hi9.2.1, hi9.2.2, rfl⟩))))))))
  replace hok := ite_cases hok
  rcases hok with ⟨hc10, hok⟩ | ⟨hc10, hok⟩
  · cases hok
  replace hok := ite_cases hok
  rcases hok with ⟨hc11, hok⟩ | ⟨hc11, hok⟩
  · cases hok
    exact Or.inr (Or.inr (Or.inr (Or.inr (Or.inr (Or.inr (Or.inr (Or.inr (Or.inl (⟨hc11, rfl⟩)))))))))
  replace hok := ite_cases hok
  rcases hok with ⟨hc12, hok⟩ | ⟨hc12, hok⟩
  · cases hok
    exact Or.inr (Or.inr (Or.inr (Or.inr (Or.inr (Or.inr (Or.inr (Or.inr (Or.inr (Or.inl (⟨hc12, rfl⟩))))))))))
  replace hok := ite_cases hok
  rcases hok with ⟨hc13, hok⟩ | ⟨hc13, hok⟩
  · cases hok
  replace hok := ite_cases hok
  rcases hok with ⟨hc14, hok⟩ | ⟨hc14, hok⟩
  · replace hok := ite_cases hok
    rcases hok with ⟨hi14, hok⟩ | ⟨hi14, hok⟩
    · cases hok
    replace hok := ite_cases hok
    rcases hok with ⟨hj14, hok⟩ | ⟨hj14, hok⟩
    · cases hok
      exact Or.inr (Or.inr (Or.inr (Or.inr (Or.inr (Or.inr (Or.inr (Or.inr (Or.inr (Or.inr (Or.inl (⟨hc14, by simpa using hi14, hj14, rfl⟩)))))))))))
    · cases hok
      exact Or.inr (Or.inr (Or.inr (Or.inr (Or.inr (Or.inr (Or.inr (Or.inr (Or.inr (Or.inr (Or.inr (Or.inl (⟨bare_output_option arg hc14 hj14, by simpa using hi14, rfl⟩))))))))))))
  replace hok := ite_cases hok
  rcases hok with ⟨hc15, hok⟩ | ⟨hc15, hok⟩
  · replace hok := ite_cases hok
    rcases hok with ⟨hi15, hok⟩ | ⟨hi15, hok⟩
    · cases hok
    · cases hok
      exact Or.inr (Or.inr (Or.inr (Or.inr (Or.inr (Or.inr (Or.inr (Or.inr (Or.inr (Or.inr (Or.inr (Or.inr (Or.inl (⟨hc15, hi15, rfl⟩)))))))))))))
  replace hok := ite_cases hok
  rcases hok with ⟨hc16, hok⟩ | ⟨hc16, hok⟩
  · replace hok := ite_cases hok
    rcases hok with ⟨hi16, hok⟩ | ⟨hi16, hok⟩
    · cases hok
    · cases hok
      exact Or.inr (Or.inr (Or.inr (Or.inr (Or.inr (Or.inr (Or.inr (Or.inr (Or.inr (Or.inr (Or.inr (Or.inr (Or.inr (Or.inl (⟨hc16, hi16, rfl⟩))))))))))))))
  replace hok := ite_cases hok
  rcases hok with ⟨hc17, hok⟩ | ⟨hc17, hok⟩
  · cases hok
    exact Or.inr (Or.inr (Or.inr (Or.inr (Or.inr (Or.inr (Or.inr (Or.inr (Or.inr (Or.inr (Or.inr (Or.inr (Or.inr (Or.inr (Or.inl (⟨hc17, rfl⟩)))))))))))))))
  replace hok := ite_cases hok
  rcases hok with ⟨hc18, hok⟩ | ⟨hc18, hok⟩
  · cases hok
    exact Or.inr (Or.inr (Or.inr (Or.inr (Or.inr (Or.inr (Or.inr (Or.inr (Or.inr (Or.inr (Or.inr (Or.inr (Or.inr (Or.inr (Or.inr (Or.inl (⟨hc18, rfl⟩))))))))))))))))
  replace hok := ite_cases hok
  rcases hok with ⟨hc19, hok⟩ | ⟨hc19, hok⟩
  · cases hok
    exact Or.inr (Or.inr (Or.inr (Or.inr (Or.inr (Or.inr (Or.inr (Or.inr (Or.inr (Or.inr (Or.inr (Or.inr (Or.inr (Or.inr (Or.inr (Or.inr (Or.inl (⟨hc19, rfl⟩)))))))))))))))))
  replace hok := ite_cases hok
  rcases hok with ⟨hc20, hok⟩ | ⟨hc20, hok⟩
  · cases hok
    exact Or.inr (Or.inr (Or.inr (Or.inr (Or.inr (Or.inr (Or.inr (Or.inr (Or.inr (Or.inr (Or.inr (Or.inr (Or.inr (Or.inr (Or.inr (Or.inr (Or.inr (Or.inl (⟨hc20, rfl⟩))))))))))))))))))
  replace hok := ite_cases hok
  rcases hok with ⟨hc21, hok⟩ | ⟨hc21, hok⟩
  · cases hok
    exact Or.inr (Or.inr (Or.inr (Or.inr (Or.inr (Or.inr (Or.inr (Or.inr (Or.inr (Or.inr (Or.inr (Or.inr (Or.inr (Or.inr (Or.inr (Or.inr (Or.inr (Or.inr (Or.inl (⟨hc21, rfl⟩)))))))))))))))))))
  replace hok := ite_cases hok
  rcases hok with ⟨hc22, hok⟩ | ⟨hc22, hok⟩
  · cases hok
    exact Or.inr (Or.inr (Or.inr (Or.inr (Or.inr (Or.inr (Or.inr (Or.inr (Or.inr (Or.inr (Or.inr (Or.inr (Or.inr (Or.inr (Or.inr (Or.inr (Or.inr (Or.inr (Or.inr (Or.inl (⟨hc22, rfl⟩))))))))))))))))))))
  replace hok := ite_cases hok
  rcases hok with ⟨hc23, hok⟩ | ⟨hc23, hok⟩
  · cases hok
  replace hok := ite_cases hok
  rcases hok with ⟨hc24, hok⟩ | ⟨hc24, hok⟩
  · exact Or.inr (Or.inr (Or.inr (Or.inr (Or.inr (Or.inr (Or.inr (Or.inr (Or.inr (Or.inr (Or.inr (Or.inr (Or.inr (Or.inr (Or.inr (Or.inr (Or.inr (Or.inr (Or.inr (Or.inr ((file_name_of_tests arg hc13 hc23)))))))))))))))))))))
  replace hok := ite_cases hok
  rcases hok with ⟨hc25, hok⟩ | ⟨hc25, hok⟩
  · exact Or.inr (Or.inr (Or.inr (Or.inr (Or.inr (Or.inr (Or.inr (Or.inr (Or.inr (Or.inr (Or.inr (Or.inr (Or.inr (Or.inr (Or.inr (Or.inr (Or.inr (Or.inr (Or.inr (Or.inr ((file_name_of_tests arg hc13 hc23)))))))))))))))))))))
  exact Or.inr (Or.inr (Or.inr (Or.inr (Or.inr (Or.inr (Or.inr (Or.inr (Or.inr (Or.inr (Or.inr (Or.inr (Or.inr (Or.inr (Or.inr (Or.inr (Or.inr (Or.inr (Or.inr (Or.inr ((file_name_of_tests arg hc13 hc23)))))))))))))))))))))
/-- After an accepted argument that went through the tests of the loop,
`next_is_output` tells whether it was a bare `-o`. -/
theorem process_arg_next (env : Env) (v v2 : Vars) (arg : Str)
    (h : v.next_is_output = false) (hok : process_arg env v arg = .ok v2) :
    v2.next_is_output = decide (arg = "-o".toList) := by
  cases hf : is_file_name arg with
  | true =>
    rw [process_arg_file env v arg h hf] at hok
    cases hok
    rw [decide_eq_false (file_name_not_option arg hf).1]
    exact h
  | false => exact (process_arg_option env v v2 arg h hf hok).2.2.2.2.1

/-- A quantity that the name of a bare `-o` leaves alone and that every
other accepted argument updates by `u` is, after the loop, the fold of `u`
over the tested arguments. -/
theorem scan_fold {β : Type} (env : Env) (φ : Vars → β) (u : β → Str → β)
    (hval : ∀ (v : Vars) (a b : Str),
      φ { v with out_name := a, exe_name := b, next_is_output := false } = φ v)
    (hstep : ∀ (v v2 : Vars) (arg : Str), v.next_is_output = false →
      process_arg env v arg = .ok v2 → φ v2 = u (φ v) arg)
    (args : List Str) :
    ∀ v v2 : Vars, scan env v args = .ok v2 →
      φ v2 = (tested v.next_is_output args).foldl u (φ v) := by
  induction args with
  | nil => intro v v2 h; simp only [scan] at h; cases h; simp [tested]
  | cons arg rest ih =>
    intro v v2 h
    obtain ⟨v1, hp, hs⟩ := scan_cons_inv env v v2 arg rest h
    have hrec := ih v1 v2 hs
    cases hn : v.next_is_output with
    | true =>
      rw [process_arg_value env v arg hn] at hp
      cases hp
      rw [hrec, hval]
      rfl
    | false =>
      rw [hrec, hstep v v1 arg hn hp, process_arg_next env v v1 arg hn hp]
      rfl
/-- An argument with one of two prefixes that share the option letter begins
with `-` and that letter. -/
theorem prefixed_letter (c0 c1 l : Char) (t p q : Str)
    (h : (starts_with (c0 :: c1 :: t) ('-' :: l :: p)
      || starts_with (c0 :: c1 :: t) ('-' :: l :: q)) = true) : c0 = '-' ∧ c1 = l := by
  simp only [starts_with, List.isPrefixOf, Bool.or_eq_true, Bool.and_eq_true,
    beq_iff_eq] at h
  rcases h with ⟨h0, h1, -⟩ | ⟨h0, h1, -⟩ <;> exact ⟨h0.symm, h1.symm⟩

/-- What one accepted argument does to the flags and option lists that the
pipeline reads: only `-keep` sets `keep_temps`, only `-g` and `-keep` set
`do_listing`, only `-X` adds an assembler option, only `-S` and `-DL` add
linker options and only `-C` sets the linker configuration. -/
theorem process_arg_fields (env : Env) (v v2 : Vars) (arg : Str)
    (h : v.next_is_output = false) (hok : process_arg env v arg = .ok v2) :
    v2.keep_temps = (v.keep_temps || decide (arg = "-keep".toList))
    ∧ v2.do_listing
        = (v.do_listing || (decide (arg = "-g".toList) || decide (arg = "-keep".toList)))
    ∧ v2.asm_opts = v.asm_opts ++
        (if starts_with arg "-X:".toList || starts_with arg "-X=".toList then [substr arg 3]
         else [])
    ∧ v2.link_opts = v.link_opts ++
        (if starts_with arg "-S:".toList || starts_with arg "-S=".toList then
          ["--start-addr".toList, substr arg 3]
         else if starts_with arg "-DL:".toList || starts_with arg "-DL=".toList then
          ["--define".toList, substr arg 4]
         else [])
    ∧ v2.cfg_file_def =
        (if starts_with arg "-C:".toList || starts_with arg "-C=".toList then substr arg 3
         else v.cfg_file_def) := by
  cases hf : is_file_name arg with
  | true =>
    rw [process_arg_file env v arg h hf] at hok
    cases hok
    rcases arg with _ | ⟨c0, t⟩
    · simp [is_file_name] at hf
    · have hc : c0 ≠ '-' := by simpa [is_file_name] using hf
      have hc2 : ¬ '-' = c0 := fun e => hc e.symm
      simp [starts_with, List.isPrefixOf, hc, hc2]
  | false =>
    have hs := process_arg_shape env v v2 arg h hok
    have he : arg ≠ [] := by
      rintro rfl
      simp [process_arg, h, starts_with, List.isPrefixOf, show_error] at hok
    clear hok
    rcases arg with _ | ⟨c0, _ | ⟨c1, t⟩⟩
    · exact absurd rfl he
    · rcases hs with ⟨ha, rfl⟩ | ⟨ha, rfl⟩ | ⟨ha, rfl⟩ | ⟨ha, rfl⟩ | ⟨ha, rfl⟩ | ⟨ha, hb, rfl⟩ | ⟨ha, rfl⟩ | ⟨ha, n, h1, h2, rfl⟩ | ⟨ha, rfl⟩ | ⟨ha, rfl⟩ | ⟨ha, hb, hc, rfl⟩ | ⟨ha, hb, rfl⟩ | ⟨ha, hb, rfl⟩ | ⟨ha, hb, rfl⟩ | ⟨ha, rfl⟩ | ⟨ha, rfl⟩ | ⟨ha, rfl⟩ | ⟨ha, rfl⟩ | ⟨ha, rfl⟩ | ⟨ha, rfl⟩ | hfile
      all_goals simp_all [starts_with, List.isPrefixOf]
    · rcases hs with ⟨ha, rfl⟩ | ⟨ha, rfl⟩ | ⟨ha, rfl⟩ | ⟨ha, rfl⟩ | ⟨ha, rfl⟩ | ⟨ha, hb, rfl⟩ | ⟨ha, rfl⟩ | ⟨ha, n, h1, h2, rfl⟩ | ⟨ha, rfl⟩ | ⟨ha, rfl⟩ | ⟨ha, hb, hc, rfl⟩ | ⟨ha, hb, rfl⟩ | ⟨ha, hb, rfl⟩ | ⟨ha, hb, rfl⟩ | ⟨ha, rfl⟩ | ⟨ha, rfl⟩ | ⟨ha, rfl⟩ | ⟨ha, rfl⟩ | ⟨ha, rfl⟩ | ⟨ha, rfl⟩ | hfile
      all_goals
        first
        | (obtain ⟨rfl, rfl⟩ := prefixed_letter _ _ _ _ _ _ ha
           simp_all [starts_with, List.isPrefixOf])
        | (simp_all [starts_with, List.isPrefixOf]; done)
        | (obtain ⟨rfl, rfl⟩ : '-' = c0 ∧ 'o' = c1 := by
             simpa [starts_with, List.isPrefixOf] using ha
           simp_all [starts_with, List.isPrefixOf])

/-! ## Returns from the pipeline -/

/-- The translate loop returns early only with the non-zero status of a
translator call, and that call is the last event of the run. -/
theorem translate_halt (env : Env) (p : Plan) (jobs : List (Str × Str)) :
    ∀ (r : Run) (h : Halt), translate env p jobs r = .error h →
      h.status ≠ 0 ∧ h.run.temp_files.length ≤ r.temp_files.length + jobs.length
        ∧ ∃ t b a l, h.run.trace = t ++ [Event.compile b a l]
          ∧ h.status = env.compile_file t p.v.comp b a p.tgt l ∧ (b, a) ∈ jobs := by
  induction jobs with
  | nil => intro r h hh; simp only [translate] at hh; cases hh
  | cons job rest ih =>
    intro r h hh
    obtain ⟨bas_name, asm_name⟩ := job
    simp only [translate] at hh
    replace hh := ite_cases hh
    rcases hh with ⟨hc, hh⟩ | ⟨_, hh⟩
    · cases hh
      refine ⟨hc, by simp, _, bas_name, asm_name, _, rfl, rfl, by simp⟩
    · obtain ⟨h1, h2, t, b, a, l, h3, h4, h5⟩ := ih _ h hh
      refine ⟨h1, ?_, t, b, a, l, h3, h4, by simp [h5]⟩
      refine h2.trans ?_
      split_ifs <;> simp <;> omega

/-- The assemble loop returns early only with status 1, after an assembler
run with non-zero status and the error message, the last events of the
run. -/
theorem assemble_halt (env : Env) (p : Plan) (jobs : List (Str × Str)) :
    ∀ (r : Run) (h : Halt), assemble env p jobs r = .error h →
      h.status = 1
        ∧ ∃ t src obj, h.run.trace = t ++ [Event.exec "ca65".toList (ca65_args env p src obj),
            Event.print ("fastbasic: ".toList ++ "can't assemble file\n".toList ++ "\n".toList)]
          ∧ env.prog_exec t "ca65".toList (ca65_args env p src obj) ≠ 0
          ∧ (src, obj) ∈ jobs := by
  induction jobs with
  | nil => intro r h hh; simp only [assemble] at hh; cases hh
  | cons job rest ih =>
    intro r h hh
    obtain ⟨asm_name, obj_name⟩ := job
    simp only [assemble] at hh
    replace hh := ite_cases hh
    rcases hh with ⟨hc, hh⟩ | ⟨_, hh⟩
    · cases hh
      refine ⟨rfl, _, asm_name, obj_name, ?_, hc, by simp⟩
      simp [show_error]
    · obtain ⟨h1, t, s, o, h3, h4, h5⟩ := ih _ h hh
      exact ⟨h1, t, s, o, h3, h4, by simp [h5]⟩

/-- The link step returns early only with status 1, after a linker run with
non-zero status and the error message, the last events of the run. -/
theorem link_halt (env : Env) (p : Plan) (r : Run) (h : Halt)
    (hh : link env p r = .error h) :
    h.status = 1
      ∧ ∃ t, h.run.trace = t ++ [Event.exec "ld65".toList (ld65_args env p),
          Event.print ("fastbasic: ".toList ++ "can't assemble file\n".toList ++ "\n".toList)]
        ∧ env.prog_exec t "ld65".toList (ld65_args env p) ≠ 0 := by
  simp only [link] at hh
  replace hh := ite_cases hh
  rcases hh with ⟨_, hh⟩ | ⟨_, hh⟩
  · replace hh := ite_cases hh
    rcases hh with ⟨hc, hh⟩ | ⟨_, hh⟩
    · cases hh
      refine ⟨rfl, _, ?_, hc⟩
      simp [show_error]
    · cases hh
  · cases hh

/-- The events of the translate loop: text and translator calls. -/
theorem translate_events (env : Env) (p : Plan) (jobs : List (Str × Str)) :
    ∀ (r : Run), ∀ e ∈ (final_run (translate env p jobs r)).trace,
      e ∈ r.trace ∨ (∃ x, e = Event.print x) ∨ ∃ b a l, e = Event.compile b a l := by
  induction jobs with
  | nil => intro r e he; exact Or.inl he
  | cons job rest ih =>
    intro r e he
    obtain ⟨bas_name, asm_name⟩ := job
    simp only [translate] at he
    have hstep : ∀ (t : List Event), (∀ e ∈ t,
          e ∈ r.trace ∨ (∃ x, e = Event.print x) ∨ ∃ b a l, e = Event.compile b a l) →
        (∀ r2 : Run, r2.trace = t → ∀ e ∈ (final_run (translate env p rest r2)).trace,
          e ∈ r.trace ∨ (∃ x, e = Event.print x) ∨ ∃ b a l, e = Event.compile b a l) := by
      intro t ht r2 hr2 e he
      rcases ih r2 e he with h1 | h1
      · rw [hr2] at h1; exact ht e h1
      · exact Or.inr h1
    split_ifs at he
    all_goals
      first
      | (refine hstep _ ?_ _ rfl e he
         intro e he
         simp only [List.mem_append, List.mem_singleton] at he
         rcases he with ((he | he) | he) | he
         · exact Or.inl he
         · exact Or.inr (Or.inl ⟨_, he⟩)
         · exact Or.inr (Or.inl ⟨_, he⟩)
         · exact Or.inr (Or.inr ⟨_, _, _, he⟩))
      | (refine hstep _ ?_ _ rfl e he
         intro e he
         simp only [List.mem_append, List.mem_singleton] at he
         rcases he with (he | he) | he
         · exact Or.inl he
         · exact Or.inr (Or.inl ⟨_, he⟩)
         · exact Or.inr (Or.inr ⟨_, _, _, he⟩))
      | (simp only [final_run, List.mem_append, List.mem_singleton] at he
         rcases he with ((he | he) | he) | he
         · exact Or.inl he
         · exact Or.inr (Or.inl ⟨_, he⟩)
         · exact Or.inr (Or.inl ⟨_, he⟩)
         · exact Or.inr (Or.inr ⟨_, _, _, he⟩))
      | (simp only [final_run, List.mem_append, List.mem_singleton] at he
         rcases he with (he | he) | he
         · exact Or.inl he
         · exact Or.inr (Or.inl ⟨_, he⟩)
         · exact Or.inr (Or.inr ⟨_, _, _, he⟩))

/-- The events of the assemble loop: text and assembler runs. -/
theorem assemble_events (env : Env) (p : Plan) (jobs : List (Str × Str)) :
    ∀ (r : Run), ∀ e ∈ (final_run (assemble env p jobs r)).trace,
      e ∈ r.trace ∨ (∃ x, e = Event.print x) ∨ ∃ a, e = Event.exec "ca65".toList a := by
  induction jobs with
  | nil => intro r e he; exact Or.inl he
  | cons job rest ih =>
    intro r e he
    obtain ⟨asm_name, obj_name⟩ := job
    simp only [assemble] at he
    split_ifs at he
    all_goals
      first
      | (simp only [final_run, show_error, List.mem_append, List.mem_singleton] at he
         rcases he with ((he | he) | he) | he
         · exact Or.inl he
         · exact Or.inr (Or.inl ⟨_, he⟩)
         · exact Or.inr (Or.inr ⟨_, he⟩)
         · exact Or.inr (Or.inl ⟨_, he⟩))
      | (rcases ih _ e he with h1 | h1
         · simp only [List.mem_append, List.mem_singleton] at h1
           rcases h1 with (h1 | h1) | h1
           · exact Or.inl h1
           · exact Or.inr (Or.inl ⟨_, h1⟩)
           · exact Or.inr (Or.inr ⟨_, h1⟩)
         · exact Or.inr h1)

/-- The events of the link step: text and one linker run. -/
theorem link_events (env : Env) (p : Plan) (r : Run) :
    ∀ e ∈ (final_run (link env p r)).trace,
      e ∈ r.trace ∨ (∃ x, e = Event.print x) ∨ ∃ a, e = Event.exec "ld65".toList a := by
  intro e he
  simp only [link] at he
  split_ifs at he
  · simp only [final_run, show_error, List.mem_append, List.mem_singleton] at he
    rcases he with ((he | he) | he) | he
    · exact Or.inl he
    · exact Or.inr (Or.inl ⟨_, he⟩)
    · exact Or.inr (Or.inr ⟨_, he⟩)
    · exact Or.inr (Or.inl ⟨_, he⟩)
  · simp only [final_run, List.mem_append, List.mem_singleton] at he
    rcases he with (he | he) | he
    · exact Or.inl he
    · exact Or.inr (Or.inl ⟨_, he⟩)
    · exact Or.inr (Or.inr ⟨_, he⟩)
  · exact Or.inl he

/-- The ways a plan runs: it ends in the translate loop, in the assemble
loop, in the link step, or it goes through to the removal of the temporary
files. -/
theorem execute_cases (env : Env) (p : Plan) :
    (∃ h, translate env p p.v.bas_files ⟨[], p.v.temp_files⟩ = .error h
      ∧ execute_run env p = .error h)
    ∨ (∃ r1 h, translate env p p.v.bas_files ⟨[], p.v.temp_files⟩ = .ok r1
      ∧ assemble env p p.v.asm_files r1 = .error h ∧ execute_run env p = .error h)
    ∨ (∃ r1 r2 h, translate env p p.v.bas_files ⟨[], p.v.temp_files⟩ = .ok r1
      ∧ assemble env p p.v.asm_files r1 = .ok r2 ∧ link env p r2 = .error h
      ∧ execute_run env p = .error h)
    ∨ (∃ r1 r2 r3, translate env p p.v.bas_files ⟨[], p.v.temp_files⟩ = .ok r1
      ∧ assemble env p p.v.asm_files r1 = .ok r2 ∧ link env p r2 = .ok r3
      ∧ execute_run env p = .ok r3) := by
  unfold execute_run
  cases h1 : translate env p p.v.bas_files ⟨[], p.v.temp_files⟩ with
  | error h => exact Or.inl ⟨h, rfl, rfl⟩
  | ok r1 =>
    dsimp only
    cases h2 : assemble env p p.v.asm_files r1 with
    | error h => exact Or.inr (Or.inl ⟨r1, h, rfl, h2, rfl⟩)
    | ok r2 =>
      dsimp only
      cases h3 : link env p r2 with
      | error h => exact Or.inr (Or.inr (Or.inl ⟨r1, r2, h, rfl, h2, h3, rfl⟩))
      | ok r3 => exact Or.inr (Or.inr (Or.inr ⟨r1, r2, r3, rfl, h2, h3, rfl⟩))

/-- The events of the pipeline before the removal of the temporary files:
text, translator calls, assembler runs and linker runs. -/
theorem execute_run_events (env : Env) (p : Plan) :
    ∀ e ∈ (final_run (execute_run env p)).trace,
      (∃ x, e = Event.print x) ∨ (∃ b a l, e = Event.compile b a l)
        ∨ (∃ a, e = Event.exec "ca65".toList a) ∨ ∃ a, e = Event.exec "ld65".toList a := by
  have ht : ∀ e ∈ (final_run (translate env p p.v.bas_files ⟨[], p.v.temp_files⟩)).trace,
      (∃ x, e = Event.print x) ∨ (∃ b a l, e = Event.compile b a l)
        ∨ (∃ a, e = Event.exec "ca65".toList a) ∨ ∃ a, e = Event.exec "ld65".toList a := by
    intro e he
    rcases translate_events env p _ _ e he with h | h | h
    · simp at h
    · exact Or.inl h
    · exact Or.inr (Or.inl h)
  have ha : ∀ r1, translate env p p.v.bas_files ⟨[], p.v.temp_files⟩ = .ok r1 →
      ∀ e ∈ (final_run (assemble env p p.v.asm_files r1)).trace,
      (∃ x, e = Event.print x) ∨ (∃ b a l, e = Event.compile b a l)
        ∨ (∃ a, e = Event.exec "ca65".toList a) ∨ ∃ a, e = Event.exec "ld65".toList a := by
    intro r1 h1 e he
    rw [h1] at ht
    rcases assemble_events env p _ _ e he with h | h | h
    · exact ht e h
    · exact Or.inl h
    · exact Or.inr (Or.inr (Or.inl h))
  rcases execute_cases env p with ⟨h, h1, hx⟩ | ⟨r1, h, h1, h2, hx⟩ | ⟨r1, r2, h, h1, h2, h3, hx⟩
    | ⟨r1, r2, r3, h1, h2, h3, hx⟩
  · rw [hx]; rw [h1] at ht; exact ht
  · rw [hx]; have := ha r1 h1; rw [h2] at this; exact this
  · rw [hx]
    intro e he
    have hl := link_events env p r2 e (by rw [h3]; exact he)
    rcases hl with h | h | h
    · have := ha r1 h1; rw [h2] at this; exact this e h
    · exact Or.inl h
    · exact Or.inr (Or.inr (Or.inr h))
  · rw [hx]
    intro e he
    have hl := link_events env p r2 e (by rw [h3]; exact he)
    rcases hl with h | h | h
    · have := ha r1 h1; rw [h2] at this; exact this e h
    · exact Or.inl h
    · exact Or.inr (Or.inr (Or.inr h))

/-- A flag stands in the list as an argument of its own exactly when it is
among the tested arguments. -/
theorem has_flag_eq_any (flag : Str) (args : List Str) :
    ∀ b : Bool, has_flag flag b args = (tested b args).any (fun a => decide (a = flag)) := by
  induction args with
  | nil => intro b; cases b <;> rfl
  | cons arg rest ih =>
    intro b
    cases b with
    | true => simp only [has_flag, tested]; exact ih false
    | false => simp only [has_flag, tested, List.any_cons]; rw [ih]

/-- A fold that only ever sets a flag. -/
theorem foldl_or (q : Str → Bool) (l : List Str) :
    ∀ b : Bool, l.foldl (fun b a => b || q a) b = (b || l.any q) := by
  induction l with
  | nil => intro b; simp
  | cons a rest ih => intro b; simp only [List.foldl_cons, List.any_cons]; rw [ih, Bool.or_assoc]

/-- A disjunction holds of some element exactly when one of its sides does. -/
theorem any_or (p q : Str → Bool) (l : List Str) :
    l.any (fun a => p a || q a) = (l.any p || l.any q) := by
  induction l with
  | nil => rfl
  | cons a rest ih =>
    simp only [List.any_cons, ih]
    cases p a <;> cases q a <;> cases rest.any p <;> cases rest.any q <;> rfl

/-- After the loop `keep_temps` is set exactly when `-keep` was given, and
`do_listing` exactly when `-g` or `-keep` was given. -/
theorem scan_keep_listing (env : Env) (args : List Str) (v : Vars)
    (hs : scan env (init_vars env) args = .ok v) :
    v.keep_temps = has_flag "-keep".toList false args
      ∧ v.do_listing
          = (has_flag "-g".toList false args || has_flag "-keep".toList false args) := by
  constructor
  · have h := scan_fold env (fun v => v.keep_temps)
      (fun b a => b || decide (a = "-keep".toList)) (fun _ _ _ => rfl)
      (fun v v2 arg hn hok => (process_arg_fields env v v2 arg hn hok).1) args _ v hs
    dsimp only at h
    rw [h, foldl_or, has_flag_eq_any]
    rfl
  · have h := scan_fold env (fun v => v.do_listing)
      (fun b a => b || (decide (a = "-g".toList) || decide (a = "-keep".toList)))
      (fun _ _ _ => rfl)
      (fun v v2 arg hn hok => (process_arg_fields env v v2 arg hn hok).2.1) args _ v hs
    dsimp only at h
    rw [h, foldl_or, has_flag_eq_any, has_flag_eq_any]
    rw [any_or]
    rfl

/-- A translate loop that ends normally has registered the output of every
job, unless in single-step mode. -/
theorem translate_ok_temp (env : Env) (p : Plan) (jobs : List (Str × Str)) :
    ∀ r r2 : Run, translate env p jobs r = .ok r2 →
      r2.temp_files = r.temp_files ++ (if p.v.one_step then [] else jobs.map Prod.snd) := by
  induction jobs with
  | nil => intro r r2 h; simp only [translate] at h; cases h; simp
  | cons job rest ih =>
    intro r r2 h
    obtain ⟨bas_name, asm_name⟩ := job
    simp only [translate] at h
    replace h := ite_cases h
    rcases h with ⟨_, h⟩ | ⟨_, h⟩
    · cases h
    · rw [ih _ r2 h]
      cases p.v.one_step <;> simp

/-- An assemble loop that ends normally has registered the output of every
job, unless in single-step mode. -/
theorem assemble_ok_temp (env : Env) (p : Plan) (jobs : List (Str × Str)) :
    ∀ r r2 : Run, assemble env p jobs r = .ok r2 →
      r2.temp_files = r.temp_files ++ (if p.v.one_step then [] else jobs.map Prod.snd) := by
  induction jobs with
  | nil => intro r r2 h; simp only [assemble] at h; cases h; simp
  | cons job rest ih =>
    intro r r2 h
    obtain ⟨asm_name, obj_name⟩ := job
    simp only [assemble] at h
    replace h := ite_cases h
    rcases h with ⟨_, h⟩ | ⟨_, h⟩
    · cases h
    · rw [ih _ r2 h]
      cases p.v.one_step <;> simp

/-- No path is removed by events that are not removals. -/
theorem deleted_eq_nil (t : List Event) (h : ∀ e ∈ t, ∀ name, e ≠ Event.remove name) :
    deleted t = [] := by
  induction t with
  | nil => rfl
  | cons e rest ih =>
    have hrest := ih (fun x hx => h x (List.mem_cons_of_mem _ hx))
    have he := h e (List.mem_cons_self _ _)
    cases e with
    | remove name => exact absurd rfl (he name)
    | print x => simpa [deleted] using hrest
    | compile a b c => simpa [deleted] using hrest
    | exec a b => simpa [deleted] using hrest

/-- The paths removed by a run of removals are those paths. -/
theorem deleted_append_remove (t : List Event) (names : List Str) :
    deleted (t ++ names.map Event.remove) = deleted t ++ names := by
  simp only [deleted, List.filterMap_append, List.filterMap_map]
  congr 1
  induction names with
  | nil => rfl
  | cons a rest ih => simp [List.filterMap_cons, ih]

/-- The temporary files registered by a pipeline that went through all its
phases, and the paths that the end of such a run removes. -/
theorem execute_ok_deleted (env : Env) (p : Plan) (r : Run)
    (hr : execute_run env p = .ok r) :
    r.temp_files = p.v.temp_files
        ++ (if p.v.one_step then [] else p.v.bas_files.map Prod.snd)
        ++ (if p.v.one_step then [] else p.v.asm_files.map Prod.snd)
      ∧ deleted (execute env p).trace = (if p.v.keep_temps then [] else r.temp_files) := by
  have hev := execute_run_events env p
  have hd : deleted r.trace = [] := by
    apply deleted_eq_nil
    intro e he name
    rw [hr] at hev
    rcases hev e he with ⟨y, rfl⟩ | ⟨y1, y2, y3, rfl⟩ | ⟨y, rfl⟩ | ⟨y, rfl⟩ <;>
      exact fun c => Event.noConfusion c
  constructor
  · rcases execute_cases env p with ⟨h, -, hx⟩ | ⟨r1, h, -, -, hx⟩ | ⟨r1, r2, h, -, -, -, hx⟩
      | ⟨r1, r2, r3, h1, h2, h3, hx⟩
    · rw [hx] at hr; cases hr
    · rw [hx] at hr; cases hr
    · rw [hx] at hr; cases hr
    · rw [hx] at hr
      cases hr
      have k1 := translate_ok_temp env p _ _ r1 h1
      have k2 := assemble_ok_temp env p _ _ r2 h2
      have k3 := link_temp env p r2
      rw [h3] at k3
      simp only [final_run] at k3
      rw [k3, k2, k1]
  · simp only [execute, hr, cleanup]
    cases p.v.keep_temps
    · simp only [Bool.false_eq_true, not_false_eq_true, if_true, if_false]
      rw [deleted_append_remove, hd]
      rfl
    · simp only [not_true_eq_false, if_false, if_true]
      exact hd

/-- C13 (as stated, refuted): `-c foo.bas` succeeds in all phases and is
given without `-keep`, yet the derived `foo.asm` of its BAS job is not
removed: nothing is. -/
theorem C13_counterexample :
    (main sample_env ["-c".toList, "foo.bas".toList]).status = 0
    ∧ has_flag "-keep".toList false ["-c".toList, "foo.bas".toList] = false
    ∧ (∃ p, build sample_env ["-c".toList, "foo.bas".toList] = .ok p
      ∧ p.v.bas_files = [("foo.bas".toList, "foo.asm".toList)])
    ∧ deleted (main sample_env ["-c".toList, "foo.bas".toList]).trace = [] := by
  refine ⟨by decide, by decide, ⟨_, rfl, rfl⟩, by decide⟩

/-- C13 (amended): when the run succeeds in all phases, with `-keep` no file
is removed; with `-c` no file is removed; and with neither of them the
removed paths are exactly the derived `.asm` output of every BAS job followed
by the derived `.o` output of every ASM job. -/
theorem C13_cleanup (env : Env) (args : List Str) (p : Plan) (r : Run)
    (hb : build env args = .ok p) (hr : execute_run env p = .ok r) :
    (has_flag "-keep".toList false args = true → deleted (main env args).trace = [])
    ∧ (has_flag "-c".toList false args = true → deleted (main env args).trace = [])
    ∧ (has_flag "-keep".toList false args = false →
        has_flag "-c".toList false args = false →
        deleted (main env args).trace
          = p.v.bas_files.map Prod.snd ++ p.v.asm_files.map Prod.snd) := by
  have hm : main env args = execute env p := by simp only [main, hb]
  obtain ⟨v, hs, hres⟩ := build_ok env args p hb
  obtain ⟨-, hpv, -, -, -, -⟩ := resolve_ok env v p hres
  obtain ⟨hone, htmp⟩ := scan_one_step env args _ v hs
  obtain ⟨hkeep, -⟩ := scan_keep_listing env args v hs
  have e1 : p.v.keep_temps = has_flag "-keep".toList false args := by
    rw [hpv]; exact hkeep
  have e2 : p.v.one_step = has_flag "-c".toList false args := by
    rw [hpv]
    show v.one_step = _
    rw [hone]
    rfl
  have e3 : p.v.temp_files = [] := by
    rw [hpv]; exact htmp
  obtain ⟨k1, k2⟩ := execute_ok_deleted env p r hr
  refine ⟨?_, ?_, ?_⟩
  · intro h
    rw [hm, k2, e1, h]
    rfl
  · intro h
    rw [hm, k2, k1, e2, h, e3]
    cases p.v.keep_temps <;> rfl
  · intro h1 h2
    rw [hm, k2, k1, e1, h1, e2, h2, e3]
    rfl

/-- Witness of C13 (amended): `-keep foo.bas` removes nothing, `foo.bas`
removes `foo.asm` and `foo.o`. -/
theorem C13_cleanup_witness :
    deleted (main sample_env ["-keep".toList, "foo.bas".toList]).trace = []
    ∧ deleted (main sample_env ["foo.bas".toList]).trace
        = ["foo.asm".toList, "foo.o".toList] := by
  have h1 : ∃ p, build sample_env ["-keep".toList, "foo.bas".toList] = .ok p := ⟨_, rfl⟩
  obtain ⟨p1, hp1⟩ := h1
  have h2 : ∃ r, execute_run sample_env p1 = .ok r := by
    have e : build sample_env ["-keep".toList, "foo.bas".toList] = .ok _ := rfl
    rw [e] at hp1
    cases hp1
    exact ⟨_, rfl⟩
  obtain ⟨r1, hr1⟩ := h2
  exact ⟨(C13_cleanup sample_env ["-keep".toList, "foo.bas".toList] p1 r1 hp1 hr1).1
    (by decide), by decide⟩

/-! ## The external programs -/

/-- Every assembler run of the assemble loop is the run of one of its jobs
with the argument vector of that job. -/
theorem assemble_exec (env : Env) (p : Plan) (jobs : List (Str × Str)) :
    ∀ (r : Run), ∀ e ∈ (final_run (assemble env p jobs r)).trace,
      e ∈ r.trace ∨ (∃ x, e = Event.print x)
        ∨ ∃ src obj, (src, obj) ∈ jobs
          ∧ e = Event.exec "ca65".toList (ca65_args env p src obj) := by
  induction jobs with
  | nil => intro r e he; exact Or.inl he
  | cons job rest ih =>
    intro r e he
    obtain ⟨asm_name, obj_name⟩ := job
    simp only [assemble] at he
    split_ifs at he
    all_goals
      first
      | (simp only [final_run, show_error, List.mem_append, List.mem_singleton] at he
         rcases he with ((he | he) | he) | he
         · exact Or.inl he
         · exact Or.inr (Or.inl ⟨_, he⟩)
         · exact Or.inr (Or.inr ⟨asm_name, obj_name, by simp, he⟩)
         · exact Or.inr (Or.inl ⟨_, he⟩))
      | (rcases ih _ e he with h1 | h1 | ⟨s, o, h1, h2⟩
         · simp only [List.mem_append, List.mem_singleton] at h1
           rcases h1 with (h1 | h1) | h1
           · exact Or.inl h1
           · exact Or.inr (Or.inl ⟨_, h1⟩)
           · exact Or.inr (Or.inr ⟨asm_name, obj_name, by simp, h1⟩)
         · exact Or.inr (Or.inl h1)
         · exact Or.inr (Or.inr ⟨s, o, by simp [h1], h2⟩))

/-- The only linker run of the link step has the argument vector of the plan
and happens only when there is a link input. -/
theorem link_exec (env : Env) (p : Plan) (r : Run) :
    ∀ e ∈ (final_run (link env p r)).trace,
      e ∈ r.trace ∨ (∃ x, e = Event.print x)
        ∨ (e = Event.exec "ld65".toList (ld65_args env p) ∧ p.v.link_files ≠ []) := by
  intro e he
  simp only [link] at he
  split_ifs at he with hl
  · have hne : p.v.link_files ≠ [] := by
      intro c; rw [c] at hl; simp at hl
    simp only [final_run, show_error, List.mem_append, List.mem_singleton] at he
    rcases he with ((he | he) | he) | he
    · exact Or.inl he
    · exact Or.inr (Or.inl ⟨_, he⟩)
    · exact Or.inr (Or.inr ⟨he, hne⟩)
    · exact Or.inr (Or.inl ⟨_, he⟩)
  · have hne : p.v.link_files ≠ [] := by
      intro c; rw [c] at hl; simp at hl
    simp only [final_run, List.mem_append, List.mem_singleton] at he
    rcases he with (he | he) | he
    · exact Or.inl he
    · exact Or.inr (Or.inl ⟨_, he⟩)
    · exact Or.inr (Or.inr ⟨he, hne⟩)
  · exact Or.inl he

/-- The events of a run of the pipeline are those before the removal of the
temporary files and the removals. -/
theorem execute_trace (env : Env) (p : Plan) :
    ∀ e ∈ (execute env p).trace,
      e ∈ (final_run (execute_run env p)).trace ∨ ∃ name, e = Event.remove name := by
  intro e he
  unfold execute at he
  cases hx : execute_run env p with
  | error h => rw [hx] at he; exact Or.inl he
  | ok r =>
    rw [hx] at he
    simp only [cleanup] at he
    split_ifs at he
    · exact Or.inl he
    · simp only [List.mem_append, List.mem_map] at he
      rcases he with he | ⟨x, -, he⟩
      · exact Or.inl he
      · exact Or.inr ⟨x, he.symm⟩

/-- The external programs of a run: the assembler, once per ASM job reached,
with the argument vector of the job, and the linker, at most once, with the
argument vector of the plan and only when there is a link input. -/
theorem execute_exec (env : Env) (p : Plan) :
    ∀ prog a, Event.exec prog a ∈ (execute env p).trace →
      (prog = "ca65".toList
        ∧ ∃ src obj, (src, obj) ∈ p.v.asm_files ∧ a = ca65_args env p src obj)
      ∨ (prog = "ld65".toList ∧ a = ld65_args env p ∧ p.v.link_files ≠ []) := by
  intro prog a he
  have hT : ∀ e ∈ (final_run (translate env p p.v.bas_files ⟨[], p.v.temp_files⟩)).trace,
      ∀ prog a, e ≠ Event.exec prog a := by
    intro e he prog a
    rcases translate_events env p _ _ e he with h | ⟨y, rfl⟩ | ⟨y1, y2, y3, rfl⟩
    · simp at h
    · exact fun c => Event.noConfusion c
    · exact fun c => Event.noConfusion c
  have hA : ∀ r1, translate env p p.v.bas_files ⟨[], p.v.temp_files⟩ = .ok r1 →
      Event.exec prog a ∈ (final_run (assemble env p p.v.asm_files r1)).trace →
      prog = "ca65".toList
        ∧ ∃ src obj, (src, obj) ∈ p.v.asm_files ∧ a = ca65_args env p src obj := by
    intro r1 h1 he
    rw [h1] at hT
    rcases assemble_exec env p _ _ _ he with h | ⟨y, h⟩ | ⟨s, o, h, h2⟩
    · exact absurd rfl (hT _ h prog a)
    · cases h
    · injection h2 with e1 e2
      exact ⟨e1, s, o, h, e2⟩
  have hL : ∀ r1 r2, translate env p p.v.bas_files ⟨[], p.v.temp_files⟩ = .ok r1 →
      assemble env p p.v.asm_files r1 = .ok r2 →
      Event.exec prog a ∈ (final_run (link env p r2)).trace →
      (prog = "ca65".toList
        ∧ ∃ src obj, (src, obj) ∈ p.v.asm_files ∧ a = ca65_args env p src obj)
      ∨ (prog = "ld65".toList ∧ a = ld65_args env p ∧ p.v.link_files ≠ []) := by
    intro r1 r2 h1 h2 he
    rcases link_exec env p r2 _ he with h | ⟨y, h⟩ | ⟨h, hne⟩
    · exact Or.inl (hA r1 h1 (by rw [h2]; exact h))
    · cases h
    · injection h with e1 e2
      exact Or.inr ⟨e1, e2, hne⟩
  rcases execute_trace env p _ he with he | ⟨name, he⟩
  · rcases execute_cases env p with ⟨h, h1, hx⟩ | ⟨r1, h, h1, h2, hx⟩
      | ⟨r1, r2, h, h1, h2, h3, hx⟩ | ⟨r1, r2, r3, h1, h2, h3, hx⟩
    · rw [hx] at he
      rw [h1] at hT
      exact absurd rfl (hT _ he prog a)
    · rw [hx] at he
      exact Or.inl (hA r1 h1 (by rw [h2]; exact he))
    · rw [hx] at he
      exact hL r1 r2 h1 h2 (by rw [h3]; exact he)
    · rw [hx] at he
      exact hL r1 r2 h1 h2 (by rw [h3]; exact he)
  · cases he

/-- The argument loop does not call the target loader. -/
theorem scan_load (env : Env) (load : List Str → List Str → Str → Except Str target)
    (args : List Str) :
    ∀ v : Vars, scan { env with load := load } v args = scan env v args := by
  induction args with
  | nil => intro v; rfl
  | cons arg rest ih =>
    intro v
    have hstep : process_arg { env with load := load } v arg = process_arg env v arg := rfl
    simp only [scan, hstep]
    cases process_arg env v arg with
    | error r => rfl
    | ok v1 => exact ih v1

/-- Every file argument is collected in at least one of the three job
lists. -/
theorem scan_collects (env : Env) (args : List Str) :
    ∀ v v2 : Vars, scan env v args = .ok v2 →
      v.bas_files.length + v.asm_files.length + v.link_files.length
          + (file_args v.next_is_output args).length
        ≤ v2.bas_files.length + v2.asm_files.length + v2.link_files.length := by
  induction args with
  | nil => intro v v2 h; simp only [scan] at h; cases h; simp [file_args]
  | cons arg rest ih =>
    intro v v2 h
    obtain ⟨v1, hp, hs⟩ := scan_cons_inv env v v2 arg rest h
    have hrec := ih v1 v2 hs
    cases hn : v.next_is_output with
    | true =>
      rw [process_arg_value env v arg hn] at hp
      cases hp
      simpa only [file_args] using hrec
    | false =>
      cases hf : is_file_name arg with
      | true =>
        rw [file_args_file arg rest hf]
        rw [process_arg_file env v arg hn hf] at hp
        cases hp
        simp only [List.length_append, hn, List.length_cons] at hrec ⊢
        have hone : 1 ≤ (bas_jobs env (if v.got_outname = true then v.out_name else arg) arg).length
            + (asm_jobs env v.one_step (if v.got_outname = true then v.out_name else arg)
                arg).length
            + (link_inputs env v.one_step (if v.got_outname = true then v.out_name else arg)
                arg).length := by
          simp only [bas_jobs, asm_jobs, link_inputs, is_basic]
          rcases Bool.eq_false_or_eq_true (is_object env arg) with ho | ho <;>
            rcases Bool.eq_false_or_eq_true (is_assembly env arg) with ha | ha <;>
            simp only [ho, ha, Bool.not_true, Bool.not_false, Bool.and_self, Bool.and_false,
              Bool.false_and, Bool.false_eq_true, if_true, if_false, List.length_cons,
              List.length_nil] <;>
            omega
        omega
      | false =>
        obtain ⟨h1, h2, h3, -, h5, -, -⟩ := process_arg_option env v v1 arg hn hf hp
        rw [file_args_option arg rest hf, ← h5, ← h1, ← h2, ← h3]
        exact hrec

/-- C16 (as stated, refuted): the single argument `-o` passes the loop and
is a bare `-o` without its file name, yet the run fails with "missing input
file name", not with "option '-o' must supply a file name". -/
theorem C16_counterexample :
    (∃ v, scan sample_env (init_vars sample_env) ["-o".toList] = .ok v
      ∧ v.next_is_output = true)
    ∧ pending false ["-o".toList] = true
    ∧ main sample_env ["-o".toList] = show_error "missing input file name".toList
    ∧ main sample_env ["-o".toList]
        ≠ show_error "option '-o' must supply a file name".toList := by
  refine ⟨⟨_, rfl, rfl⟩, by decide, by decide, by decide⟩

/-- C16 (amended): for an argument list that passes the loop, if no BASIC,
assembly or object file was collected (the list has no file argument) the run
fails with "missing input file name"; if a file was collected and the last
argument is a bare `-o` the run fails with "option '-o' must supply a file
name". In both cases the status is 1, the only event is the message, and the
result is the same whatever the target loader is. -/
theorem C16_post_scan (env : Env) (args : List Str) (v : Vars)
    (hs : scan env (init_vars env) args = .ok v) :
    ((v.bas_files = [] ∧ v.asm_files = [] ∧ v.link_files = []) ↔ file_args false args = [])
    ∧ (file_args false args = [] →
        ∀ load, main { env with load := load } args
          = show_error "missing input file name".toList)
    ∧ (file_args false args ≠ [] → pending false args = true →
        ∀ load, main { env with load := load } args
          = show_error "option '-o' must supply a file name".toList)
    ∧ (show_error "missing input file name".toList).status = 1
    ∧ (show_error "option '-o' must supply a file name".toList).status = 1
    ∧ (show_error "missing input file name".toList).trace
        = [Event.print "fastbasic: missing input file name\n".toList]
    ∧ (show_error "option '-o' must supply a file name".toList).trace
        = [Event.print "fastbasic: option '-o' must supply a file name\n".toList] := by
  have hiff : (v.bas_files = [] ∧ v.asm_files = [] ∧ v.link_files = [])
      ↔ file_args false args = [] := by
    constructor
    · rintro ⟨h1, h2, h3⟩
      have h := scan_collects env args _ v hs
      rw [h1, h2, h3] at h
      simp only [init_vars, List.length_nil, Nat.zero_add, Nat.le_zero_eq] at h
      exact List.length_eq_zero.mp h
    · intro h
      obtain ⟨h1, h2, h3⟩ := scan_no_file env args _ v hs h
      exact ⟨h1, h2, h3⟩
  have hscan : ∀ load, scan { env with load := load } (init_vars { env with load := load }) args
      = .ok v := by
    intro load
    rw [scan_load]
    exact hs
  refine ⟨hiff, ?_, ?_, rfl, rfl, rfl, rfl⟩
  · intro hnone load
    obtain ⟨h1, h2, h3⟩ := hiff.mpr hnone
    simp only [main, build, hscan load, resolve, h1, h2, h3, List.length_nil, and_self, if_true]
  · intro hsome hpend load
    have hne : ¬ (v.bas_files.length = 0 ∧ v.asm_files.length = 0 ∧ v.link_files.length = 0) := by
      rintro ⟨h1, h2, h3⟩
      exact hsome (hiff.mp ⟨List.length_eq_zero.mp h1, List.length_eq_zero.mp h2,
        List.length_eq_zero.mp h3⟩)
    have hn : v.next_is_output = true := by
      rw [scan_pending env args _ v hs]
      exact hpend
    simp only [main, build, hscan load, resolve, if_neg hne, hn, if_true]

/-- Witness of C16 (amended): `-g` alone has no input file; `foo.bas -o`
lacks the file name of `-o`. -/
theorem C16_post_scan_witness :
    main sample_env ["-g".toList] = show_error "missing input file name".toList
    ∧ main sample_env ["foo.bas".toList, "-o".toList]
        = show_error "option '-o' must supply a file name".toList := by
  have h1 : ∃ v, scan sample_env (init_vars sample_env) ["-g".toList] = .ok v := ⟨_, rfl⟩
  have h2 : ∃ v, scan sample_env (init_vars sample_env) ["foo.bas".toList, "-o".toList]
      = .ok v := ⟨_, rfl⟩
  obtain ⟨v1, hv1⟩ := h1
  obtain ⟨v2, hv2⟩ := h2
  exact ⟨(C16_post_scan sample_env _ v1 hv1).2.1 (by decide) sample_env.load,
    (C16_post_scan sample_env _ v2 hv2).2.2.1 (by decide) (by decide) sample_env.load⟩

/-! ## The values kept by the argument loop -/

/-- The call `str.find(c)` finds something exactly when `c` occurs in `str`. -/
theorem find_isSome (s : Str) (c : Char) : (find s c 0).isSome = true ↔ c ∈ s := by
  simp [find, List.findIdx?_isSome]

/-- One round of the argument loop keeps the listing width at 0 or within
1..256, the segment name empty or free of double quotes, and the target
name non-empty and free of double quotes. -/
theorem process_arg_config (env : Env) (v v2 : Vars) (arg : Str)
    (hok : process_arg env v arg = .ok v2)
    (hw : v.comp.short_text = 0 ∨ (1 ≤ v.comp.short_text ∧ v.comp.short_text ≤ 256))
    (hseg : v.comp.segname = [] ∨ (v.comp.segname ≠ [] ∧ Char.ofNat 34 ∉ v.comp.segname))
    (ht : v.target_name ≠ [] ∧ Char.ofNat 34 ∉ v.target_name) :
    (v2.comp.short_text = 0 ∨ (1 ≤ v2.comp.short_text ∧ v2.comp.short_text ≤ 256))
    ∧ (v2.comp.segname = [] ∨ (v2.comp.segname ≠ [] ∧ Char.ofNat 34 ∉ v2.comp.segname))
    ∧ (v2.target_name ≠ [] ∧ Char.ofNat 34 ∉ v2.target_name) := by
  cases hn : v.next_is_output with
  | true =>
    rw [process_arg_value env v arg hn] at hok
    cases hok
    exact ⟨hw, hseg, ht⟩
  | false =>
    rcases process_arg_shape env v v2 arg hn hok with
      ⟨ha, rfl⟩ | ⟨ha, rfl⟩ | ⟨ha, rfl⟩ | ⟨ha, rfl⟩ | ⟨ha, rfl⟩ | ⟨ha, hb, rfl⟩ | ⟨ha, rfl⟩ | ⟨ha, n, h1, h2, rfl⟩ | ⟨ha, rfl⟩ | ⟨ha, rfl⟩ | ⟨ha, hb, hc, rfl⟩ | ⟨ha, hb, rfl⟩ | ⟨ha, hb, rfl⟩ | ⟨ha, hb, rfl⟩ | ⟨ha, rfl⟩ | ⟨ha, rfl⟩ | ⟨ha, rfl⟩ | ⟨ha, rfl⟩ | ⟨ha, rfl⟩ | ⟨ha, rfl⟩ | hfile
    · exact ⟨hw, hseg, ht⟩
    · exact ⟨hw, hseg, ht⟩
    · exact ⟨hw, hseg, ht⟩
    · exact ⟨hw, hseg, ht⟩
    · exact ⟨hw, hseg, ht⟩
    · exact ⟨hw, hseg, ht⟩
    · refine ⟨Or.inr ⟨?_, ?_⟩, hseg, ht⟩
      · show (1 : Int) ≤ 120
        decide
      · show (120 : Int) ≤ 256
        decide
    · exact ⟨Or.inr ⟨h1, h2⟩, hseg, ht⟩
    · exact ⟨hw, hseg, ht⟩
    · exact ⟨hw, hseg, ht⟩
    · exact ⟨hw, hseg, ht⟩
    · exact ⟨hw, hseg, ht⟩
    · refine ⟨hw, Or.inr ⟨?_, ?_⟩, ht⟩
      · intro he
        have he2 : substr arg 3 = [] := he
        exact hb (Or.inl (by rw [he2]; rfl))
      · intro hq
        exact hb (Or.inr ((find_isSome _ _).mpr hq))
    · refine ⟨hw, hseg, ?_, ?_⟩
      · intro he
        have he2 : substr arg 3 = [] := he
        exact hb (Or.inl (by rw [he2]; rfl))
      · intro hq
        exact hb (Or.inr ((find_isSome _ _).mpr hq))
    · exact ⟨hw, hseg, ht⟩
    · exact ⟨hw, hseg, ht⟩
    · exact ⟨hw, hseg, ht⟩
    · exact ⟨hw, hseg, ht⟩
    · exact ⟨hw, hseg, ht⟩
    · exact ⟨hw, hseg, ht⟩
    · rw [process_arg_file env v arg hn hfile] at hok
      cases hok
      exact ⟨hw, hseg, ht⟩

/-- The argument loop keeps the three conditions of `process_arg_config`. -/
theorem scan_config (env : Env) (args : List Str) :
    ∀ v v2 : Vars, scan env v args = .ok v2 →
      (v.comp.short_text = 0 ∨ (1 ≤ v.comp.short_text ∧ v.comp.short_text ≤ 256)) →
      (v.comp.segname = [] ∨ (v.comp.segname ≠ [] ∧ Char.ofNat 34 ∉ v.comp.segname)) →
      (v.target_name ≠ [] ∧ Char.ofNat 34 ∉ v.target_name) →
      (v2.comp.short_text = 0 ∨ (1 ≤ v2.comp.short_text ∧ v2.comp.short_text ≤ 256))
      ∧ (v2.comp.segname = [] ∨ (v2.comp.segname ≠ [] ∧ Char.ofNat 34 ∉ v2.comp.segname))
      ∧ (v2.target_name ≠ [] ∧ Char.ofNat 34 ∉ v2.target_name) := by
  induction args with
  | nil =>
    intro v v2 h hw hseg ht
    simp only [scan] at h
    cases h
    exact ⟨hw, hseg, ht⟩
  | cons arg rest ih =>
    intro v v2 h hw hseg ht
    obtain ⟨v1, hp, hs⟩ := scan_cons_inv env v v2 arg rest h
    obtain ⟨hw1, hseg1, ht1⟩ := process_arg_config env v v1 arg hp hw hseg ht
    exact ih v1 v2 hs hw1 hseg1 ht1

/-- C18: in every state the argument loop reaches from the initial state
without an error, whatever the arguments, the listing width `short_text` is 0
(unset) or within 1..256, the segment name is empty (unset) or a non-empty
string without a double quote, and the target name is non-empty and without
a double quote. -/
theorem C18_build_config_invariant (env : Env) (args : List Str) (v : Vars)
    (hs : scan env (init_vars env) args = .ok v) :
    (v.comp.short_text = 0 ∨ (1 ≤ v.comp.short_text ∧ v.comp.short_text ≤ 256))
    ∧ (v.comp.segname = [] ∨ (v.comp.segname ≠ [] ∧ Char.ofNat 34 ∉ v.comp.segname))
    ∧ (v.target_name ≠ [] ∧ Char.ofNat 34 ∉ v.target_name) :=
  scan_config env args (init_vars env) v hs (Or.inl rfl) (Or.inl rfl)
    ⟨by simp [init_vars], by simp [init_vars]⟩

/-- Witness of C18: after `-ls:80 -s:CODE -t:a800` the width is 80, the
segment name `CODE` and the target name `a800`. -/
theorem C18_build_config_invariant_witness :
    ∃ v, scan sample_env (init_vars sample_env)
        ["-ls:80".toList, "-s:CODE".toList, "-t:a800".toList] = .ok v
      ∧ v.comp.short_text = 80 ∧ v.comp.segname = "CODE".toList
      ∧ v.target_name = "a800".toList
      ∧ ((v.comp.short_text = 0 ∨ (1 ≤ v.comp.short_text ∧ v.comp.short_text ≤ 256))
        ∧ (v.comp.segname = [] ∨ (v.comp.segname ≠ [] ∧ Char.ofNat 34 ∉ v.comp.segname))
        ∧ (v.target_name ≠ [] ∧ Char.ofNat 34 ∉ v.target_name)) := by
  have h : ∃ v, scan sample_env (init_vars sample_env)
      ["-ls:80".toList, "-s:CODE".toList, "-t:a800".toList] = .ok v
      ∧ v.comp.short_text = 80 ∧ v.comp.segname = "CODE".toList
      ∧ v.target_name = "a800".toList := ⟨_, rfl, rfl, rfl, rfl⟩
  obtain ⟨v, hv, h1, h2, h3⟩ := h
  exact ⟨v, hv, h1, h2, h3, C18_build_config_invariant sample_env _ v hv⟩

/-! ## Function `parse_path_list` -/

/-- When `find` returns nothing, the character does not occur from `pos`
on. -/
theorem find_none (str : Str) (c : Char) (pos : Nat) (h : find str c pos = none) :
    c ∉ str.drop pos := by
  simp only [find, Option.map_eq_none'] at h
  rw [List.findIdx?_eq_none_iff] at h
  intro hc
  have := h c hc
  simp at this

/-- When `find` returns `nxt`, the text from `pos` on is a part without the
character, the character at `nxt`, and the text from `nxt + 1` on. -/
theorem find_some (str : Str) (c : Char) (pos nxt : Nat) (h : find str c pos = some nxt) :
    pos ≤ nxt ∧ nxt < str.length
    ∧ c ∉ substr_n str pos (nxt - pos)
    ∧ str.drop pos = substr_n str pos (nxt - pos) ++ c :: str.drop (nxt + 1) := by
  simp only [find, Option.map_eq_some'] at h
  obtain ⟨i, hi, rfl⟩ := h
  obtain ⟨hlt, hp, hbefore⟩ := List.findIdx?_eq_some_iff_getElem.mp hi
  have hlen := hlt
  simp only [List.length_drop] at hlen
  have hci : (str.drop pos)[i] = c := by simpa using hp
  refine ⟨by omega, by omega, ?_, ?_⟩
  · simp only [substr_n, Nat.add_sub_cancel_left]
    intro hmem
    obtain ⟨j, hj, hjc⟩ := List.mem_iff_getElem.mp hmem
    have hji : j < i := by
      simp only [List.length_take] at hj
      omega
    rw [List.getElem_take] at hjc
    have := hbefore j hji
    simp [hjc] at this
  · simp only [substr_n, Nat.add_sub_cancel_left]
    have hsplit := List.take_append_drop i (str.drop pos)
    rw [List.drop_eq_getElem_cons hlt, hci, List.drop_drop] at hsplit
    exact hsplit.symm

/-- Joining with a separator, one field at a time. -/
theorem intercalate_cons (sep x : Str) (l : List Str) (hl : l ≠ []) :
    sep.intercalate (x :: l) = x ++ sep ++ sep.intercalate l := by
  cases l with
  | nil => exact absurd rfl hl
  | cons y ys => simp [List.intercalate, List.intersperse]

/-- The loop of `parse_path_list` from position `pos` adds to `ret` the
fields of the text from `pos` on. -/
theorem parse_path_list_from_fields (str : Str) :
    ∀ (n pos : Nat) (ret : List Str), str.length - pos ≤ n →
      ∃ l : List Str, parse_path_list_from str pos ret = ret ++ l
        ∧ l ≠ []
        ∧ (∀ x ∈ l, ':' ∉ x)
        ∧ l.length = 1 + (str.drop pos).count ':'
        ∧ ":".toList.intercalate l = str.drop pos := by
  intro n
  induction n with
  | zero =>
    intro pos ret hn
    have hdrop : str.drop pos = [] := List.drop_eq_nil_of_le (by omega)
    have hfind : find str ':' pos = none := by simp [find, hdrop]
    refine ⟨[[]], ?_, by simp, by simp, by simp [hdrop], by simp [hdrop, List.intercalate]⟩
    rw [parse_path_list_from]
    split
    · simp [substr, hdrop]
    · next nxt h => rw [hfind] at h; cases h
  | succ n ih =>
    intro pos ret hn
    rw [parse_path_list_from]
    split
    · next h =>
      have hno := find_none str ':' pos h
      refine ⟨[str.drop pos], rfl, by simp, ?_, ?_, by simp [List.intercalate]⟩
      · intro x hx
        simp only [List.mem_singleton] at hx
        rw [hx]
        exact hno
      · simp [List.count_eq_zero_of_not_mem hno]
    · next nxt h =>
      obtain ⟨hle, hlt, hno, hsplit⟩ := find_some str ':' pos nxt h
      obtain ⟨l, hl, hne, hcolon, hlen, hjoin⟩ :=
        ih (nxt + 1) (ret ++ [substr_n str pos (nxt - pos)]) (by omega)
      refine ⟨substr_n str pos (nxt - pos) :: l, ?_, by simp, ?_, ?_, ?_⟩
      · rw [hl, List.append_assoc]
        rfl
      · intro x hx
        rcases List.mem_cons.mp hx with rfl | hx
        · exact hno
        · exact hcolon x hx
      · rw [hsplit, List.length_cons, hlen, List.count_append, List.count_cons_self,
          List.count_eq_zero_of_not_mem hno]
        omega
      · rw [intercalate_cons _ _ _ hne, hjoin, hsplit]
        simp

/-- One round of the loop of `parse_path_list` that finds no colon. -/
theorem parse_path_list_from_none (str : Str) (pos : Nat) (ret : List Str)
    (h : find str ':' pos = none) :
    parse_path_list_from str pos ret = ret ++ [substr str pos] := by
  rw [parse_path_list_from]
  split
  · rfl
  · next nxt h2 => rw [h] at h2; cases h2

/-- One round of the loop of `parse_path_list` that finds a colon. -/
theorem parse_path_list_from_some (str : Str) (pos : Nat) (ret : List Str) (nxt : Nat)
    (h : find str ':' pos = some nxt) :
    parse_path_list_from str pos ret
      = parse_path_list_from str (nxt + 1) (ret ++ [substr_n str pos (nxt - pos)]) := by
  rw [parse_path_list_from]
  split
  · next h2 => rw [h] at h2; cases h2
  · next nxt2 h2 =>
    rw [h] at h2
    cases h2
    rfl

/-- C19: for every string `s`, `parse_path_list s` is a value (the model is
a total function, its loop ends because each round moves past a colon), it
is not empty, none of its strings contains a colon, it has one string more
than `s` has colons, and its strings joined with a colon give `s`; the empty
string gives one empty entry and empty fields between colons are kept. -/
theorem C19_parse_path_list (s : Str) :
    parse_path_list s ≠ []
    ∧ (∀ x ∈ parse_path_list s, ':' ∉ x)
    ∧ (parse_path_list s).length = 1 + s.count ':'
    ∧ ":".toList.intercalate (parse_path_list s) = s
    ∧ parse_path_list [] = [[]]
    ∧ parse_path_list "a::b".toList = ["a".toList, [], "b".toList] := by
  obtain ⟨l, hl, hne, hcolon, hlen, hjoin⟩ :=
    parse_path_list_from_fields s s.length 0 [] (by omega)
  have hp : parse_path_list s = l := by
    rw [parse_path_list, hl]
    rfl
  rw [hp]
  refine ⟨hne, hcolon, by simpa using hlen, by simpa using hjoin, ?_, ?_⟩
  · rw [parse_path_list, parse_path_list_from_none [] 0 [] rfl]
    rfl
  · rw [parse_path_list, parse_path_list_from_some "a::b".toList 0 _ 1 rfl,
      parse_path_list_from_some "a::b".toList 2 _ 2 rfl,
      parse_path_list_from_none "a::b".toList 3 _ rfl]
    rfl

/-! ## Command-line order -/

/-- The sources of the BAS jobs added by the loop are the BASIC file
arguments, in order. -/
theorem scan_bas_sources (env : Env) (args : List Str) :
    ∀ v v2 : Vars, scan env v args = .ok v2 →
      v2.bas_files.map Prod.fst
        = v.bas_files.map Prod.fst ++ (file_args v.next_is_output args).filter (is_basic env) := by
  induction args with
  | nil => intro v v2 h; simp only [scan] at h; cases h; simp [file_args]
  | cons arg rest ih =>
    intro v v2 h
    obtain ⟨v1, hp, hs⟩ := scan_cons_inv env v v2 arg rest h
    have hrec := ih v1 v2 hs
    cases hn : v.next_is_output with
    | true =>
      rw [process_arg_value env v arg hn] at hp
      cases hp
      simpa only [file_args] using hrec
    | false =>
      cases hf : is_file_name arg with
      | true =>
        rw [file_args_file arg rest hf]
        rw [process_arg_file env v arg hn hf] at hp
        cases hp
        rw [hrec]
        simp only [hn, bas_jobs, List.map_append, List.append_assoc, List.filter_cons]
        rcases Bool.eq_false_or_eq_true (is_basic env arg) with hb | hb <;> simp [hb]
      | false =>
        obtain ⟨h1, -, -, -, h5, -, -⟩ := process_arg_option env v v1 arg hn hf hp
        rw [file_args_option arg rest hf, ← h5, ← h1]
        exact hrec

/-! ## The temporary files -/

/-- Whether the translate loop ends normally or not, every temporary file it
leaves registered was registered before or is the output of one of its
jobs. -/
theorem translate_temp_sub (env : Env) (p : Plan) (jobs : List (Str × Str)) :
    ∀ r : Run, ∀ t ∈ (final_run (translate env p jobs r)).temp_files,
      t ∈ r.temp_files ∨ t ∈ jobs.map Prod.snd := by
  induction jobs with
  | nil => intro r t ht; exact Or.inl ht
  | cons job rest ih =>
    intro r t ht
    obtain ⟨bas_name, asm_name⟩ := job
    simp only [translate] at ht
    split_ifs at ht
    all_goals first
      | exact Or.inl ht
      | (rcases ih _ t ht with h | h
         · first
             | exact Or.inl h
             | (rcases List.mem_append.mp h with h | h
                · exact Or.inl h
                · exact Or.inr (by simpa using Or.inl (List.mem_singleton.mp h)))
         · exact Or.inr (by simpa using Or.inr (by simpa using h)))

/-- Whether the assemble loop ends normally or not, every temporary file it
leaves registered was registered before or is the output of one of its
jobs. -/
theorem assemble_temp_sub (env : Env) (p : Plan) (jobs : List (Str × Str)) :
    ∀ r : Run, ∀ t ∈ (final_run (assemble env p jobs r)).temp_files,
      t ∈ r.temp_files ∨ t ∈ jobs.map Prod.snd := by
  induction jobs with
  | nil => intro r t ht; exact Or.inl ht
  | cons job rest ih =>
    intro r t ht
    obtain ⟨asm_name, obj_name⟩ := job
    simp only [assemble] at ht
    split_ifs at ht
    all_goals first
      | exact Or.inl ht
      | (rcases ih _ t ht with h | h
         · first
             | exact Or.inl h
             | (rcases List.mem_append.mp h with h | h
                · exact Or.inl h
                · exact Or.inr (by simpa using Or.inl (List.mem_singleton.mp h)))
         · exact Or.inr (by simpa using Or.inr (by simpa using h)))

/-- Every temporary file registered when the run of a plan ends was
registered before the pipeline or is the output of a BAS job or of an ASM
job. -/
theorem registered_sub (env : Env) (p : Plan) :
    ∀ t ∈ registered env p,
      t ∈ p.v.temp_files ∨ t ∈ p.v.bas_files.map Prod.snd
        ∨ t ∈ p.v.asm_files.map Prod.snd := by
  intro t ht
  have hT := translate_temp_sub env p p.v.bas_files ⟨[], p.v.temp_files⟩
  unfold registered at ht
  rcases execute_cases env p with ⟨h, h1, hx⟩ | ⟨r1, h, h1, h2, hx⟩ | ⟨r1, r2, h, h1, h2, h3, hx⟩
    | ⟨r1, r2, r3, h1, h2, h3, hx⟩
  · rw [hx] at ht
    rw [h1] at hT
    rcases hT t ht with h | h
    · exact Or.inl h
    · exact Or.inr (Or.inl h)
  · rw [hx] at ht
    rw [h1] at hT
    have hA := assemble_temp_sub env p p.v.asm_files r1
    rw [h2] at hA
    rcases hA t ht with h | h
    · rcases hT t h with h | h
      · exact Or.inl h
      · exact Or.inr (Or.inl h)
    · exact Or.inr (Or.inr h)
  · rw [hx] at ht
    rw [h1] at hT
    have hA := assemble_temp_sub env p p.v.asm_files r1
    rw [h2] at hA
    have hL := link_temp env p r2
    rw [h3] at hL
    have ht2 : t ∈ r2.temp_files := by
      have e : (final_run (Except.error h : Except Halt Run)).temp_files = r2.temp_files := hL
      rw [← e]
      exact ht
    rcases hA t ht2 with h | h
    · rcases hT t h with h | h
      · exact Or.inl h
      · exact Or.inr (Or.inl h)
    · exact Or.inr (Or.inr h)
  · rw [hx] at ht
    rw [h1] at hT
    have hA := assemble_temp_sub env p p.v.asm_files r1
    rw [h2] at hA
    have hL := link_temp env p r2
    rw [h3] at hL
    have ht2 : t ∈ r2.temp_files := by
      have e : (final_run (Except.ok r3 : Except Halt Run)).temp_files = r2.temp_files := hL
      rw [← e]
      exact ht
    rcases hA t ht2 with h | h
    · rcases hT t h with h | h
      · exact Or.inl h
      · exact Or.inr (Or.inl h)
    · exact Or.inr (Or.inr h)

/-- The loop gives every BAS job an output derived with `.asm` and every
ASM job an output derived with `.o`. -/
theorem scan_outputs (env : Env) (args : List Str) :
    ∀ v v2 : Vars, scan env v args = .ok v2 →
      (∀ j ∈ v.bas_files, ∃ name, j.2 = env.add_extension name ".asm".toList) →
      (∀ j ∈ v.asm_files, ∃ name, j.2 = env.add_extension name ".o".toList) →
      (∀ j ∈ v2.bas_files, ∃ name, j.2 = env.add_extension name ".asm".toList)
      ∧ (∀ j ∈ v2.asm_files, ∃ name, j.2 = env.add_extension name ".o".toList) := by
  induction args with
  | nil => intro v v2 h hb ha; simp only [scan] at h; cases h; exact ⟨hb, ha⟩
  | cons arg rest ih =>
    intro v v2 h hb ha
    obtain ⟨v1, hp, hs⟩ := scan_cons_inv env v v2 arg rest h
    cases hn : v.next_is_output with
    | true =>
      rw [process_arg_value env v arg hn] at hp
      cases hp
      exact ih _ v2 hs hb ha
    | false =>
      cases hf : is_file_name arg with
      | true =>
        rw [process_arg_file env v arg hn hf] at hp
        cases hp
        have hbj : ∀ name : Str, ∀ j ∈ bas_jobs env name arg,
            ∃ n, j.2 = env.add_extension n ".asm".toList := by
          intro name j hj
          simp only [bas_jobs] at hj
          split_ifs at hj
          · rw [List.mem_singleton.mp hj]
            exact ⟨_, rfl⟩
          · exact absurd hj (List.not_mem_nil _)
        have haj : ∀ name : Str, ∀ j ∈ asm_jobs env v.one_step name arg,
            ∃ n, j.2 = env.add_extension n ".o".toList := by
          intro name j hj
          simp only [asm_jobs] at hj
          split_ifs at hj
          all_goals first
            | exact absurd hj (List.not_mem_nil _)
            | (rw [List.mem_singleton.mp hj]; exact ⟨_, rfl⟩)
        refine ih _ v2 hs ?_ ?_
        · intro j hj
          rcases List.mem_append.mp hj with hj | hj
          · exact hb j hj
          · exact hbj _ j hj
        · intro j hj
          rcases List.mem_append.mp hj with hj | hj
          · exact ha j hj
          · exact haj _ j hj
      | false =>
        obtain ⟨h1, h2, -, -, -, -, -⟩ := process_arg_option env v v1 arg hn hf hp
        exact ih v1 v2 hs (by rw [h1]; exact hb) (by rw [h2]; exact ha)

/-- Extension substitution with `.asm` gives a name with the extension
`asm`. -/
theorem get_extension_lower_add_asm (name : Str) :
    get_extension_lower (add_extension name ".asm".toList) = "asm".toList := by
  have hmem : '.' ∈ base_name name ++ ".asm".toList := by simp
  simp only [get_extension_lower, add_extension, hmem, if_true]
  simp [List.takeWhile, to_lower, tolower]

/-- Extension substitution with `.o` gives a name with the extension `o`. -/
theorem get_extension_lower_add_o (name : Str) :
    get_extension_lower (add_extension name ".o".toList) = "o".toList := by
  have hmem : '.' ∈ base_name name ++ ".o".toList := by simp
  simp only [get_extension_lower, add_extension, hmem, if_true]
  simp [List.takeWhile, to_lower, tolower]

/-- C20 (as stated, refuted): in `foo.bas foo.asm` the path `foo.asm` is a
file argument of the command line and is also the derived output of the BAS
job of `foo.bas`; it is registered as a temporary file and removed at the end
of the run. -/
theorem C20_counterexample :
    "foo.asm".toList ∈ file_args false ["foo.bas".toList, "foo.asm".toList]
    ∧ (∃ p, build sample_env ["foo.bas".toList, "foo.asm".toList] = .ok p
      ∧ "foo.asm".toList ∈ registered sample_env p)
    ∧ (main sample_env ["foo.bas".toList, "foo.asm".toList]).status = 0
    ∧ "foo.asm".toList
        ∈ deleted (main sample_env ["foo.bas".toList, "foo.asm".toList]).trace := by
  refine ⟨by decide, ⟨_, rfl, by decide⟩, by decide, by decide⟩

/-- C20 (amended): for every argument list that gives a plan, every path
registered for deletion is the output of a BAS job, derived with `.asm`, or
the output of an ASM job, derived with `.o`, and only registered paths are
removed; a derived path is registered even when it is equal to a file
argument. When the derived names have the extensions `asm` and `o`, no
registered path is classified as a BASIC source, so a BASIC file given on the
command line is never removed. -/
theorem C20_temp_files (env : Env) (args : List Str) (p : Plan)
    (hb : build env args = .ok p) :
    (∀ t ∈ registered env p,
      (∃ src name, (src, t) ∈ p.v.bas_files ∧ t = env.add_extension name ".asm".toList)
      ∨ (∃ src name, (src, t) ∈ p.v.asm_files ∧ t = env.add_extension name ".o".toList))
    ∧ (∀ t ∈ deleted (main env args).trace, t ∈ registered env p)
    ∧ ((∀ name, env.get_extension_lower (env.add_extension name ".asm".toList)
          = "asm".toList) →
        (∀ name, env.get_extension_lower (env.add_extension name ".o".toList)
          = "o".toList) →
        ∀ t ∈ registered env p, is_basic env t = false
          ∧ ∀ f ∈ file_args false args, is_basic env f = true → f ≠ t) := by
  obtain ⟨v, hs, hres⟩ := build_ok env args p hb
  obtain ⟨-, hpv, -, -, -, -⟩ := resolve_ok env v p hres
  obtain ⟨-, htmp⟩ := scan_one_step env args _ v hs
  obtain ⟨hbas, hasm⟩ := scan_outputs env args _ v hs
    (fun j hj => by simp [init_vars] at hj) (fun j hj => by simp [init_vars] at hj)
  have e1 : p.v.temp_files = [] := by rw [hpv]; exact htmp
  have e2 : p.v.bas_files = v.bas_files := by rw [hpv]
  have e3 : p.v.asm_files = v.asm_files := by rw [hpv]
  have hform : ∀ t ∈ registered env p,
      (∃ src name, (src, t) ∈ p.v.bas_files ∧ t = env.add_extension name ".asm".toList)
      ∨ (∃ src name, (src, t) ∈ p.v.asm_files ∧ t = env.add_extension name ".o".toList) := by
    intro t ht
    rcases registered_sub env p t ht with h | h | h
    · rw [e1] at h
      cases h
    · obtain ⟨j, hj, rfl⟩ := List.mem_map.mp h
      obtain ⟨name, hname⟩ := hbas j (by rw [← e2]; exact hj)
      exact Or.inl ⟨j.1, name, hj, hname⟩
    · obtain ⟨j, hj, rfl⟩ := List.mem_map.mp h
      obtain ⟨name, hname⟩ := hasm j (by rw [← e3]; exact hj)
      exact Or.inr ⟨j.1, name, hj, hname⟩
  have hbasic : (∀ name, env.get_extension_lower (env.add_extension name ".asm".toList)
          = "asm".toList) →
        (∀ name, env.get_extension_lower (env.add_extension name ".o".toList)
          = "o".toList) →
        ∀ t ∈ registered env p, is_basic env t = false := by
    intro hx1 hx2 t ht
    rcases hform t ht with ⟨_, name, -, rfl⟩ | ⟨_, name, -, rfl⟩
    · have ha : is_assembly env (env.add_extension name ".asm".toList) = true := by
        simp only [is_assembly, hx1 name]
        decide
      simp only [is_basic, ha, Bool.not_true, Bool.and_false]
    · have ho : is_object env (env.add_extension name ".o".toList) = true := by
        simp only [is_object, hx2 name]
        decide
      simp only [is_basic, ho, Bool.not_true, Bool.false_and]
  refine ⟨hform, ?_, ?_⟩
  · intro t ht
    have hm : main env args = execute env p := by simp only [main, hb]
    rw [hm] at ht
    cases hr : execute_run env p with
    | error h =>
      have hev := execute_run_events env p
      rw [hr] at hev
      have hd : deleted (execute env p).trace = [] := by
        apply deleted_eq_nil
        intro e he name
        have he2 : e ∈ (final_run (Except.error h : Except Halt Run)).trace := by
          simpa only [execute, hr] using he
        rcases hev e he2 with ⟨y, rfl⟩ | ⟨y1, y2, y3, rfl⟩ | ⟨y, rfl⟩ | ⟨y, rfl⟩ <;>
          exact fun c => Event.noConfusion c
      rw [hd] at ht
      cases ht
    | ok r =>
      obtain ⟨-, hdel⟩ := execute_ok_deleted env p r hr
      rw [hdel] at ht
      have hreg : registered env p = r.temp_files := by
        simp only [registered, hr, final_run]
      rw [hreg]
      split_ifs at ht
      · cases ht
      · exact ht
  · intro hx1 hx2 t ht
    refine ⟨hbasic hx1 hx2 t ht, ?_⟩
    intro f _ hf hft
    rw [hft, hbasic hx1 hx2 t ht] at hf
    cases hf

/-- Witness of C20 (amended): in `foo.bas lib.o` the registered paths are
`foo.asm` and `foo.o`, none of them a BASIC source. -/
theorem C20_temp_files_witness :
    ∃ p, build sample_env ["foo.bas".toList, "lib.o".toList] = .ok p
      ∧ registered sample_env p = ["foo.asm".toList, "foo.o".toList]
      ∧ ∀ t ∈ registered sample_env p, is_basic sample_env t = false
          ∧ ∀ f ∈ file_args false ["foo.bas".toList, "lib.o".toList],
              is_basic sample_env f = true → f ≠ t := by
  have h : ∃ p, build sample_env ["foo.bas".toList, "lib.o".toList] = .ok p
      ∧ registered sample_env p = ["foo.asm".toList, "foo.o".toList] := ⟨_, rfl, by decide⟩
  obtain ⟨p, hp, hreg⟩ := h
  exact ⟨p, hp, hreg, (C20_temp_files sample_env _ p hp).2.2
    get_extension_lower_add_asm get_extension_lower_add_o⟩

/-! ## The name every file argument derives its names from -/

/-- What an accepted option does to the output name: a bare `-o` and an
inline `-o` set `got_outname`, the inline one also sets the name, and every
other option leaves both as they are. -/
theorem process_arg_name (env : Env) (v v2 : Vars) (arg : Str)
    (h : v.next_is_output = false) (hf : is_file_name arg = false)
    (hok : process_arg env v arg = .ok v2) :
    (arg = "-o".toList ∧ v.got_outname = false ∧ v2.got_outname = true
        ∧ v2.out_name = v.out_name)
    ∨ (starts_with arg "-o".toList = true ∧ arg ≠ "-o".toList ∧ v.got_outname = false
        ∧ v2.got_outname = true ∧ v2.out_name = substr arg 2)
    ∨ (starts_with arg "-o".toList = false ∧ v2.got_outname = v.got_outname
        ∧ v2.out_name = v.out_name) := by
  by_cases hc : arg = "-c".toList
  · subst hc
    rw [process_arg_c env v h] at hok
    cases hok
    exact Or.inr (Or.inr ⟨by decide, rfl, rfl⟩)
  by_cases ho : starts_with arg "-o".toList = true
  · rw [process_arg_o env v arg h ho] at hok
    by_cases hg : v.got_outname = true
    · simp [hg] at hok
    · have hg2 : v.got_outname = false := by simpa using hg
      simp only [hg, if_false] at hok
      by_cases hlen : arg.length > 2
      · simp only [hlen, if_true] at hok
        cases hok
        have hne : arg ≠ "-o".toList := by
          intro e
          rw [e] at hlen
          simp at hlen
        exact Or.inr (Or.inl ⟨ho, hne, hg2, rfl, rfl⟩)
      · simp only [hlen, if_false] at hok
        cases hok
        exact Or.inl ⟨bare_output_option arg ho hlen, hg2, rfl, rfl⟩
  · have ho2 : starts_with arg "-o".toList = false := by simpa using ho
    have hd : arg.head? = some '-' := by
      cases arg with
      | nil =>
        simp [process_arg, h, starts_with, List.isPrefixOf, show_error] at hok
      | cons c t =>
        have : c = '-' := by simpa [is_file_name] using hf
        simp [this]
    obtain ⟨-, -, -, -, -, -, h7, h8, -⟩ := process_arg_other env v v2 arg h hd ho2 hc hok
    exact Or.inr (Or.inr ⟨ho2, h7, h8⟩)

/-- The fields that a file argument leaves for the rest of the loop. -/
theorem process_arg_file_fields (env : Env) (v v1 : Vars) (arg : Str)
    (h : v.next_is_output = false) (hf : is_file_name arg = true)
    (hok : process_arg env v arg = .ok v1) :
    v1.next_is_output = false
    ∧ v1.got_outname = (if is_object env arg then v.got_outname else false)
    ∧ v1.out_name = v.out_name ∧ v1.one_step = v.one_step
    ∧ v1.bas_files = v.bas_files
        ++ bas_jobs env (if v.got_outname then v.out_name else arg) arg
    ∧ v1.asm_files = v.asm_files
        ++ asm_jobs env v.one_step (if v.got_outname then v.out_name else arg) arg
    ∧ v1.link_files = v.link_files
        ++ link_inputs env v.one_step (if v.got_outname then v.out_name else arg) arg := by
  rw [process_arg_file env v arg h hf] at hok
  cases hok
  exact ⟨h, rfl, rfl, rfl, rfl, rfl, rfl⟩

/-- The jobs that the loop adds, file argument by file argument: every file
argument comes with the name its jobs derive from (its own name, the output
name pending before the arguments, or a name supplied by one of their `-o`
options) and with the value `one_step` has when the loop reaches it. -/
theorem scan_rows (env : Env) (args : List Str) :
    ∀ v v2 : Vars, scan env v args = .ok v2 →
      ∃ rows : List (Str × Str × Bool),
        rows.map (fun r => r.1) = file_args v.next_is_output args
        ∧ rows.map (fun r => (r.1, r.2.1))
            = job_names env v.next_is_output v.got_outname v.out_name args
        ∧ (∀ r ∈ rows, r.2.1 = r.1
            ∨ (v.got_outname = true ∧ v.next_is_output = false ∧ r.2.1 = v.out_name)
            ∨ r.2.1 ∈ output_values v.next_is_output args)
        ∧ (has_flag "-c".toList v.next_is_output args = false →
            ∀ r ∈ rows, r.2.2 = v.one_step)
        ∧ v2.bas_files = v.bas_files ++ rows.flatMap (fun r => bas_jobs env r.2.1 r.1)
        ∧ v2.asm_files = v.asm_files ++ rows.flatMap (fun r => asm_jobs env r.2.2 r.2.1 r.1)
        ∧ v2.link_files
            = v.link_files ++ rows.flatMap (fun r => link_inputs env r.2.2 r.2.1 r.1) := by
  induction args with
  | nil =>
    intro v v2 h
    simp only [scan] at h
    cases h
    exact ⟨[], by simp [file_args], by simp [job_names], by simp, by simp, by simp, by simp,
      by simp⟩
  | cons arg rest ih =>
    intro v v2 h
    obtain ⟨v1, hp, hs⟩ := scan_cons_inv env v v2 arg rest h
    obtain ⟨rows, hfiles, hjn, hnames, hflags, hb, ha, hl⟩ := ih v1 v2 hs
    cases hn : v.next_is_output with
    | true =>
      rw [process_arg_value env v arg hn] at hp
      have g1 : v1.next_is_output = false := by cases hp; rfl
      have g2 : v1.out_name = arg := by cases hp; rfl
      have g3 : v1.one_step = v.one_step := by cases hp; rfl
      have g4 : v1.bas_files = v.bas_files := by cases hp; rfl
      have g5 : v1.asm_files = v.asm_files := by cases hp; rfl
      have g6 : v1.link_files = v.link_files := by cases hp; rfl
      have g7 : v1.got_outname = v.got_outname := by cases hp; rfl
      rw [g1] at hfiles hnames hflags hjn
      rw [g2, g7] at hjn
      refine ⟨rows, by simpa only [file_args] using hfiles,
        by simpa only [job_names] using hjn, ?_, ?_, by rw [hb, g4],
        by rw [ha, g5], by rw [hl, g6]⟩
      · intro r hr
        have hov : output_values true (arg :: rest) = arg :: output_values false rest := by
          simp only [output_values]
        rw [hov]
        rcases hnames r hr with k1 | ⟨-, -, k2⟩ | k3
        · exact Or.inl k1
        · exact Or.inr (Or.inr (by rw [k2, g2]; exact List.mem_cons_self _ _))
        · exact Or.inr (Or.inr (List.mem_cons_of_mem _ k3))
      · intro hc
        intro r hr
        rw [← g3]
        exact hflags (by simpa only [has_flag] using hc) r hr
    | false =>
      cases hf : is_file_name arg with
      | true =>
        obtain ⟨hno, hnc, hns⟩ := file_name_not_option arg hf
        obtain ⟨f1, f2, f3, f4, f5, f6, f7⟩ := process_arg_file_fields env v v1 arg hn hf hp
        rw [f1] at hfiles hnames hflags hjn
        rw [f2, f3] at hjn
        refine ⟨(arg, (if v.got_outname = true then v.out_name else arg), v.one_step) :: rows,
          ?_, ?_, ?_, ?_, ?_, ?_, ?_⟩
        · rw [file_args_file arg rest hf, List.map_cons, hfiles]
        · rw [List.map_cons, hjn]
          simp only [job_names, if_neg hno, hns, Bool.false_eq_true, if_false, hf, if_true]
        · intro r hr
          have hov : output_values false (arg :: rest) = output_values false rest := by
            simp only [output_values, if_neg hno, hns, Bool.false_eq_true, if_false]
          rw [hov]
          rcases List.mem_cons.mp hr with rfl | hr
          · by_cases hg : v.got_outname = true
            · refine Or.inr (Or.inl ⟨hg, rfl, ?_⟩)
              show (if v.got_outname = true then v.out_name else arg) = v.out_name
              rw [if_pos hg]
            · refine Or.inl ?_
              show (if v.got_outname = true then v.out_name else arg) = arg
              rw [if_neg hg]
          · rcases hnames r hr with k1 | ⟨k2a, -, k2b⟩ | k3
            · exact Or.inl k1
            · refine Or.inr (Or.inl ⟨?_, rfl, by rw [← f3]; exact k2b⟩)
              rw [f2] at k2a
              by_cases ho : is_object env arg = true
              · rw [if_pos ho] at k2a
                exact k2a
              · rw [if_neg ho] at k2a
                cases k2a
            · exact Or.inr (Or.inr k3)
        · intro hc
          simp only [has_flag, Bool.or_eq_false_iff, decide_eq_false hno] at hc
          intro r hr
          rcases List.mem_cons.mp hr with rfl | hr
          · rfl
          · rw [← f4]
            exact hflags hc.2 r hr
        · rw [hb, f5, List.flatMap_cons, List.append_assoc]
        · rw [ha, f6, List.flatMap_cons, List.append_assoc]
        · rw [hl, f7, List.flatMap_cons, List.append_assoc]
      | false =>
        obtain ⟨h1, h2, h3, -, h5, h6, -⟩ := process_arg_option env v v1 arg hn hf hp
        refine ⟨rows, ?_, ?_, ?_, ?_, by rw [hb, h1], by rw [ha, h2], by rw [hl, h3]⟩
        · rw [file_args_option arg rest hf, ← h5]
          exact hfiles
        · rw [hjn]
          rcases process_arg_name env v v1 arg hn hf hp with
            ⟨he, -, hgot, hout⟩ | ⟨hst, hne, -, hgot, hout⟩ | ⟨hst, hgot, hout⟩
          · rw [h5, decide_eq_true he, hgot, hout]
            simp only [job_names, if_pos he]
          · rw [h5, decide_eq_false hne, hgot, hout]
            simp only [job_names, if_neg hne, hst, if_true]
          · have hne : arg ≠ "-o".toList := by
              intro e
              rw [e] at hst
              exact absurd hst (by decide)
            rw [h5, decide_eq_false hne, hgot, hout]
            simp only [job_names, if_neg hne, hst, Bool.false_eq_true, if_false, hf]
        · intro r hr
          rcases process_arg_name env v v1 arg hn hf hp with
            ⟨he, -, -, -⟩ | ⟨hst, hne, -, -, hout⟩ | ⟨hst, hgot, hout⟩
          · have hn1 : v1.next_is_output = true := by rw [h5, decide_eq_true he]
            have hov : output_values false (arg :: rest) = output_values true rest := by
              simp only [output_values, if_pos he]
            rw [hov]
            rcases hnames r hr with k1 | ⟨-, k2, -⟩ | k3
            · exact Or.inl k1
            · rw [hn1] at k2
              cases k2
            · exact Or.inr (Or.inr (by rw [hn1] at k3; exact k3))
          · have hn1 : v1.next_is_output = false := by rw [h5, decide_eq_false hne]
            have hov : output_values false (arg :: rest)
                = substr arg 2 :: output_values false rest := by
              simp only [output_values, if_neg hne, hst, if_true]
            rw [hov]
            rcases hnames r hr with k1 | ⟨-, -, k2⟩ | k3
            · exact Or.inl k1
            · exact Or.inr (Or.inr (by rw [k2, hout]; exact List.mem_cons_self _ _))
            · exact Or.inr (Or.inr (by
                rw [hn1] at k3
                exact List.mem_cons_of_mem _ k3))
          · have hne : arg ≠ "-o".toList := by
              intro e
              rw [e] at hst
              exact absurd hst (by decide)
            have hn1 : v1.next_is_output = false := by rw [h5, decide_eq_false hne]
            have hov : output_values false (arg :: rest) = output_values false rest := by
              simp only [output_values, if_neg hne, hst, Bool.false_eq_true, if_false]
            rw [hov]
            rcases hnames r hr with k1 | ⟨k2a, -, k2b⟩ | k3
            · exact Or.inl k1
            · exact Or.inr (Or.inl ⟨by rw [← hgot]; exact k2a, rfl, by rw [← hout]; exact k2b⟩)
            · exact Or.inr (Or.inr (by rw [hn1] at k3; exact k3))
        · intro hc
          simp only [has_flag, Bool.or_eq_false_iff] at hc
          obtain ⟨hc1, hc2⟩ := hc
          have hone : v1.one_step = v.one_step := by
            rw [h6]
            simp only [hc1, Bool.or_false]
          intro r hr
          rw [← hone]
          exact hflags (by rw [h5]; exact hc2) r hr

/-- The BAS jobs of file arguments with their names: one for every BASIC
file, in order. -/
theorem rows_bas_jobs (env : Env) (rows : List (Str × Str × Bool)) :
    rows.flatMap (fun r => bas_jobs env r.2.1 r.1)
      = ((rows.map (fun r => (r.1, r.2.1))).filter (fun r => is_basic env r.1)).map
          (fun r => (r.1, env.add_extension r.2 ".asm".toList)) := by
  induction rows with
  | nil => rfl
  | cons r rest ih =>
    rw [List.flatMap_cons, ih, List.map_cons, List.filter_cons]
    rcases Bool.eq_false_or_eq_true (is_basic env r.1) with hb | hb
    · simp only [bas_jobs, hb, if_true, List.map_cons, List.singleton_append]
    · simp only [bas_jobs, hb, Bool.false_eq_true, if_false, List.nil_append]

/-- The ASM jobs of file arguments with their names outside single-step
mode: one for every file that is not an object file, in order. -/
theorem rows_asm_jobs (env : Env) (rows : List (Str × Str × Bool))
    (h : ∀ r ∈ rows, r.2.2 = false) :
    rows.flatMap (fun r => asm_jobs env r.2.2 r.2.1 r.1)
      = ((rows.map (fun r => (r.1, r.2.1))).filter (fun r => !(is_object env r.1))).map
          (fun r =>
            if is_assembly env r.1 then (r.1, env.add_extension r.2 ".o".toList)
            else (env.add_extension r.2 ".asm".toList, env.add_extension r.2 ".o".toList)) := by
  induction rows with
  | nil => rfl
  | cons r rest ih =>
    have hr : r.2.2 = false := h r (List.mem_cons_self _ _)
    rw [List.flatMap_cons, ih (fun x hx => h x (List.mem_cons_of_mem _ hx)), List.map_cons,
      List.filter_cons]
    rcases Bool.eq_false_or_eq_true (is_object env r.1) with ho | ho
    · simp only [asm_jobs, ho, if_true, Bool.not_true, Bool.false_eq_true, if_false,
        List.nil_append]
    · rcases Bool.eq_false_or_eq_true (is_assembly env r.1) with ha | ha
      · simp only [asm_jobs, ho, ha, hr, Bool.false_eq_true, if_false, if_true, Bool.not_false,
          List.map_cons, List.singleton_append]
      · simp only [asm_jobs, ho, ha, hr, Bool.false_eq_true, if_false, if_true, Bool.not_false,
          List.map_cons, List.singleton_append]

/-- The link inputs of file arguments with their names outside single-step
mode: one for every file, in order. -/
theorem rows_link_inputs (env : Env) (rows : List (Str × Str × Bool))
    (h : ∀ r ∈ rows, r.2.2 = false) :
    rows.flatMap (fun r => link_inputs env r.2.2 r.2.1 r.1)
      = (rows.map (fun r => (r.1, r.2.1))).map
          (fun r => if is_object env r.1 then r.1 else env.add_extension r.2 ".o".toList) := by
  induction rows with
  | nil => rfl
  | cons r rest ih =>
    have hr : r.2.2 = false := h r (List.mem_cons_self _ _)
    rw [List.flatMap_cons, ih (fun x hx => h x (List.mem_cons_of_mem _ hx)), List.map_cons,
      List.map_cons]
    rcases Bool.eq_false_or_eq_true (is_object env r.1) with ho | ho
    · simp only [link_inputs, ho, if_true, List.singleton_append]
    · simp only [link_inputs, ho, hr, Bool.false_eq_true, if_false, List.singleton_append]

/-- Rows in which every file has its own name are the files paired with
themselves. -/
theorem rows_own_names (rows : List (Str × Str)) (files : List Str)
    (h1 : rows.map Prod.fst = files) (h2 : ∀ r ∈ rows, r.2 = r.1) :
    rows = files.map (fun f => (f, f)) := by
  induction rows generalizing files with
  | nil => cases h1; rfl
  | cons r rest ih =>
    cases files with
    | nil => cases h1
    | cons f fs =>
      simp only [List.map_cons, List.cons.injEq] at h1
      obtain ⟨ha, hb⟩ := h1
      have hr := h2 r (List.mem_cons_self _ _)
      rw [List.map_cons, ← ih fs hb (fun x hx => h2 x (List.mem_cons_of_mem _ hx))]
      congr 1
      obtain ⟨r1, r2⟩ := r
      simp only at ha hr
      rw [hr, ha]

/-- A loop over two lists in a row that ends normally ends normally on the
first list. -/
theorem scan_append_inv (env : Env) (a b : List Str) (v v2 : Vars)
    (h : scan env v (a ++ b) = .ok v2) :
    ∃ v1, scan env v a = .ok v1 ∧ scan env v1 b = .ok v2 := by
  rw [scan_append] at h
  cases h1 : scan env v a with
  | error r => rw [h1] at h; cases h
  | ok v1 => rw [h1] at h; exact ⟨v1, rfl, h⟩

/-- Arguments none of which begins with `-o` supply no output name. -/
theorem output_values_nil (args : List Str)
    (h : ∀ a ∈ args, starts_with a "-o".toList = false) : output_values false args = [] := by
  induction args with
  | nil => rfl
  | cons arg rest ih =>
    have h1 := h arg (List.mem_cons_self _ _)
    have hne : arg ≠ "-o".toList := by
      intro e
      rw [e] at h1
      exact absurd h1 (by decide)
    simp only [output_values, if_neg hne, h1, Bool.false_eq_true, if_false]
    exact ih (fun a ha => h a (List.mem_cons_of_mem _ ha))

/-- While an output name is pending, accepted arguments whose file arguments
are all object files keep the name pending and add only those files, as link
inputs. -/
theorem scan_objects_between (env : Env) (args : List Str) :
    ∀ v v2 : Vars, scan env v args = .ok v2 → v.next_is_output = false →
      v.got_outname = true → (∀ g ∈ file_args false args, is_object env g = true) →
      v2.next_is_output = false ∧ v2.got_outname = true ∧ v2.out_name = v.out_name
        ∧ v2.bas_files = v.bas_files ∧ v2.asm_files = v.asm_files
        ∧ v2.link_files = v.link_files ++ file_args false args := by
  induction args with
  | nil =>
    intro v v2 h hn hg _
    simp only [scan] at h
    cases h
    exact ⟨hn, hg, rfl, rfl, rfl, by simp [file_args]⟩
  | cons arg rest ih =>
    intro v v2 h hn hg hall
    obtain ⟨v1, hp, hs⟩ := scan_cons_inv env v v2 arg rest h
    cases hf : is_file_name arg with
    | true =>
      rw [file_args_file arg rest hf] at hall ⊢
      simp only [List.mem_cons, forall_eq_or_imp] at hall
      obtain ⟨hobj, hrest⟩ := hall
      obtain ⟨f1, f2, f3, -, f5, f6, f7⟩ := process_arg_file_fields env v v1 arg hn hf hp
      have hbas : is_basic env arg = false := by simp [is_basic, hobj]
      obtain ⟨k1, k2, k3, k4, k5, k6⟩ := ih v1 v2 hs f1 (by rw [f2, if_pos hobj]; exact hg) hrest
      refine ⟨k1, k2, k3.trans f3, ?_, ?_, ?_⟩
      · rw [k4, f5]
        simp only [bas_jobs, hbas, Bool.false_eq_true, if_false, List.append_nil]
      · rw [k5, f6]
        simp only [asm_jobs, hobj, if_true, List.append_nil]
      · rw [k6, f7]
        simp only [link_inputs, hobj, if_true, List.append_assoc, List.singleton_append]
    | false =>
      obtain ⟨h1, h2, h3, -, -, -, -⟩ := process_arg_option env v v1 arg hn hf hp
      rcases process_arg_name env v v1 arg hn hf hp with
        ⟨-, hgf, -, -⟩ | ⟨-, -, hgf, -, -⟩ | ⟨hst, hgot, hout⟩
      · rw [hg] at hgf
        cases hgf
      · rw [hg] at hgf
        cases hgf
      · have hne : arg ≠ "-o".toList := by
          intro e
          rw [e] at hst
          exact absurd hst (by decide)
        have hn1 : v1.next_is_output = false := by
          rw [process_arg_next env v v1 arg hn hp, decide_eq_false hne]
        have hfa : file_args false (arg :: rest) = file_args false rest := by
          rw [file_args_option arg rest hf, decide_eq_false hne]
        rw [hfa] at hall ⊢
        obtain ⟨k1, k2, k3, k4, k5, k6⟩ := ih v1 v2 hs hn1 (by rw [hgot]; exact hg) hall
        exact ⟨k1, k2, k3.trans hout, k4.trans h1, k5.trans h2, by rw [k6, h3]⟩

/-- With no output name pending, accepted arguments none of which begins
with `-o` leave no output name pending. -/
theorem scan_no_output (env : Env) (args : List Str) :
    ∀ v v2 : Vars, scan env v args = .ok v2 → v.next_is_output = false →
      v.got_outname = false → (∀ a ∈ args, starts_with a "-o".toList = false) →
      v2.next_is_output = false ∧ v2.got_outname = false := by
  induction args with
  | nil => intro v v2 h hn hg _; simp only [scan] at h; cases h; exact ⟨hn, hg⟩
  | cons arg rest ih =>
    intro v v2 h hn hg hall
    obtain ⟨v1, hp, hs⟩ := scan_cons_inv env v v2 arg rest h
    have h1 := hall arg (List.mem_cons_self _ _)
    have hrest : ∀ a ∈ rest, starts_with a "-o".toList = false :=
      fun a ha => hall a (List.mem_cons_of_mem _ ha)
    have hne : arg ≠ "-o".toList := by
      intro e
      rw [e] at h1
      exact absurd h1 (by decide)
    have hn1 : v1.next_is_output = false := by
      rw [process_arg_next env v v1 arg hn hp, decide_eq_false hne]
    cases hf : is_file_name arg with
    | true =>
      obtain ⟨-, f2, -, -, -, -, -⟩ := process_arg_file_fields env v v1 arg hn hf hp
      refine ih v1 v2 hs hn1 ?_ hrest
      rw [f2, hg]
      split_ifs <;> rfl
    | false =>
      rcases process_arg_name env v v1 arg hn hf hp with
        ⟨he, -, -, -⟩ | ⟨hst, -, -, -, -⟩ | ⟨-, hgot, -⟩
      · exact absurd he hne
      · rw [h1] at hst
        cases hst
      · exact ih v1 v2 hs hn1 (by rw [hgot]; exact hg) hrest

/-- Jobs of rows in which every file has its own name, in terms of the files
and the single-step values alone. -/
theorem rows_own_flatMap {β : Type} (rows : List (Str × Str × Bool))
    (h : ∀ r ∈ rows, r.2.1 = r.1) (g : Bool → Str → Str → List β) :
    rows.flatMap (fun r => g r.2.2 r.2.1 r.1)
      = (rows.map (fun r => (r.1, r.2.2))).flatMap (fun r => g r.2 r.1 r.1) := by
  induction rows with
  | nil => rfl
  | cons r rest ih =>
    rw [List.flatMap_cons, List.map_cons, List.flatMap_cons,
      ih (fun x hx => h x (List.mem_cons_of_mem _ hx)), h r (List.mem_cons_self _ _)]

/-- Jobs that do not depend on single-step mode, of rows in which every file
has its own name, in terms of the files alone. -/
theorem rows_own_files {β : Type} (rows : List (Str × Str × Bool))
    (h : ∀ r ∈ rows, r.2.1 = r.1) (g : Str → Str → List β) :
    rows.flatMap (fun r => g r.2.1 r.1)
      = (rows.map (fun r => r.1)).flatMap (fun f => g f f) := by
  induction rows with
  | nil => rfl
  | cons r rest ih =>
    rw [List.flatMap_cons, List.map_cons, List.flatMap_cons,
      ih (fun x hx => h x (List.mem_cons_of_mem _ hx)), h r (List.mem_cons_self _ _)]

/-- C5 (amended): after `-o n` (bare or inline) has supplied an output name,
the object files among the arguments `mid` that follow neither use nor
consume it: they are link inputs under their own names and the name `n` is
still pending after them; the first BASIC or assembly source file `f` after
the option derives its names from `n` and consumes it; and every file
argument of `post`, the arguments after `f` up to the next `-o` option,
derives its names from its own name. The arguments `mid` and `post` may hold
any accepted options, each file of `post` comes with the value that
single-step mode has when the loop reaches it, and the arguments `tail` from
the next `-o` option on only add jobs after these. -/
theorem C5_output_name_consumed_once (env : Env) (v0 w : Vars) (opt : List Str) (n : Str)
    (mid rest : List Str)
    (hn0 : v0.next_is_output = false) (hg0 : v0.got_outname = false)
    (hopt : opt = ["-o".toList, n] ∨ (opt = ["-o".toList ++ n] ∧ n ≠ []))
    (hmid : ∀ g ∈ file_args false mid, is_object env g = true)
    (hs : scan env v0 (opt ++ mid ++ rest) = .ok w) :
    ∃ v1, scan env v0 (opt ++ mid) = .ok v1 ∧ scan env v1 rest = .ok w
      ∧ v1.next_is_output = false ∧ v1.got_outname = true ∧ v1.out_name = n
      ∧ v1.one_step = (v0.one_step || has_flag "-c".toList false mid)
      ∧ v1.bas_files = v0.bas_files ∧ v1.asm_files = v0.asm_files
      ∧ v1.link_files = v0.link_files ++ file_args false mid
      ∧ ∀ (f : Str) (post tail : List Str), rest = f :: (post ++ tail) →
          is_file_name f = true → is_object env f = false →
          (∀ a ∈ post, starts_with a "-o".toList = false) →
          ∃ (v : Vars) (rows : List (Str × Bool)),
            scan env v1 (f :: post) = .ok v ∧ scan env v tail = .ok w
            ∧ rows.map Prod.fst = file_args false post
            ∧ (has_flag "-c".toList false post = false → ∀ r ∈ rows, r.2 = v1.one_step)
            ∧ v.bas_files = v1.bas_files ++ bas_jobs env n f
                ++ (file_args false post).flatMap (fun g => bas_jobs env g g)
            ∧ v.asm_files = v1.asm_files ++ asm_jobs env v1.one_step n f
                ++ rows.flatMap (fun r => asm_jobs env r.2 r.1 r.1)
            ∧ v.link_files = v1.link_files ++ link_inputs env v1.one_step n f
                ++ rows.flatMap (fun r => link_inputs env r.2 r.1 r.1)
            ∧ v.got_outname = false
            ∧ ∃ (xb xa : List (Str × Str)) (xl : List Str),
                w.bas_files = v.bas_files ++ xb ∧ w.asm_files = v.asm_files ++ xa
                  ∧ w.link_files = v.link_files ++ xl := by
  have hA : scan env v0 opt = .ok { v0 with
      got_outname := true
      out_name := n
      exe_name := if v0.exe_name.isEmpty then n else v0.exe_name } := by
    rcases hopt with rfl | ⟨rfl, hne⟩
    · have h1 := process_arg_o env v0 "-o".toList hn0 (by decide)
      rw [if_neg (by simp [hg0]), if_neg (by decide)] at h1
      rw [scan_cons_ok env _ _ _ _ h1]
      rw [scan_cons_ok env _ _ _ _ (process_arg_value env _ n rfl)]
      simp [scan, hn0]
    · have h1 := process_arg_o env v0 ("-o".toList ++ n) hn0
        (by simp [starts_with, List.isPrefixOf])
      have hlen : ("-o".toList ++ n).length > 2 := by
        cases n with
        | nil => exact absurd rfl hne
        | cons c t => simp
      rw [if_neg (by simp [hg0]), if_pos hlen] at h1
      rw [scan_cons_ok env _ _ _ _ h1]
      simp [scan, substr]
  obtain ⟨v1, hs01, hs1w⟩ := scan_append_inv env _ _ _ _ hs
  obtain ⟨vA, hsA, hsA1⟩ := scan_append_inv env _ _ _ _ hs01
  rw [hA] at hsA
  have a1 : vA.next_is_output = false := by cases hsA; exact hn0
  have a2 : vA.got_outname = true := by cases hsA; rfl
  have a3 : vA.out_name = n := by cases hsA; rfl
  have a4 : vA.one_step = v0.one_step := by cases hsA; rfl
  have a5 : vA.bas_files = v0.bas_files := by cases hsA; rfl
  have a6 : vA.asm_files = v0.asm_files := by cases hsA; rfl
  have a7 : vA.link_files = v0.link_files := by cases hsA; rfl
  obtain ⟨b1, b2, b3, b5, b6, b7⟩ := scan_objects_between env mid vA v1 hsA1 a1 a2 hmid
  have b4 : v1.one_step = (v0.one_step || has_flag "-c".toList false mid) := by
    rw [(scan_one_step env mid vA v1 hsA1).1, a4, a1]
  refine ⟨v1, hs01, hs1w, b1, b2, b3.trans a3, b4, b5.trans a5, b6.trans a6,
    by rw [b7, a7], ?_⟩
  intro f post tail hrest hf hsrc hpost
  rw [hrest] at hs1w
  have e : f :: (post ++ tail) = (f :: post) ++ tail := rfl
  rw [e] at hs1w
  obtain ⟨v, hsv, hsw⟩ := scan_append_inv env _ _ _ _ hs1w
  obtain ⟨v2, hp, hs2⟩ := scan_cons_inv env v1 v f post hsv
  obtain ⟨c1, c2, -, c4, c5, c6, c7⟩ := process_arg_file_fields env v1 v2 f b1 hf hp
  have hname : (if v1.got_outname = true then v1.out_name else f) = n := by
    rw [if_pos b2, b3, a3]
  rw [hname] at c5 c6 c7
  have c2b : v2.got_outname = false := by
    rw [c2, hsrc]
    rfl
  obtain ⟨rows, hfiles, -, hnames, hflags, hb, ha, hl⟩ := scan_rows env post v2 v hs2
  rw [c1] at hfiles hnames hflags
  have hown : ∀ r ∈ rows, r.2.1 = r.1 := by
    intro r hr
    rcases hnames r hr with k1 | ⟨k2, -, -⟩ | k3
    · exact k1
    · rw [c2b] at k2
      cases k2
    · rw [output_values_nil post hpost] at k3
      cases k3
  obtain ⟨rows2, -, -, -, -, hb2, ha2, hl2⟩ := scan_rows env tail v w hsw
  refine ⟨v, rows.map (fun r => (r.1, r.2.2)), hsv, hsw, ?_, ?_, ?_, ?_, ?_,
    (scan_no_output env post v2 v hs2 c1 c2b hpost).2, ⟨_, _, _, hb2, ha2, hl2⟩⟩
  · rw [List.map_map]
    exact hfiles
  · intro hc r hr
    obtain ⟨x, hx, rfl⟩ := List.mem_map.mp hr
    show x.2.2 = _
    rw [hflags hc x hx, c4]
  · rw [hb, rows_own_files rows hown (fun a b => bas_jobs env a b), hfiles, c5]
  · rw [ha, rows_own_flatMap rows hown (fun c a b => asm_jobs env c a b), c6]
  · rw [hl, rows_own_flatMap rows hown (fun c a b => link_inputs env c a b), c7]

/-- Witness of C5 (amended): in
`-o out lib.o -g foo.bas bar.bas -c x.s -o z y.bas` the object file `lib.o`
is linked under its own name, `foo.bas` takes the names `out.asm` and
`out.o`, `bar.bas` and `x.s` take their own names, and `y.bas` comes after
the next `-o`. -/
theorem C5_output_name_consumed_once_witness :
    ∃ w, scan sample_env (init_vars sample_env)
        (["-o".toList, "out".toList] ++ ["lib.o".toList, "-g".toList]
          ++ ("foo.bas".toList :: (["bar.bas".toList, "-c".toList, "x.s".toList]
            ++ ["-o".toList, "z".toList, "y.bas".toList]))) = .ok w
      ∧ w.bas_files =
          [("foo.bas".toList, "out.asm".toList), ("bar.bas".toList, "bar.asm".toList),
           ("y.bas".toList, "z.asm".toList)]
      ∧ w.asm_files =
          [("out.asm".toList, "out.o".toList), ("bar.asm".toList, "bar.o".toList),
           ("x.s".toList, "x.o".toList)]
      ∧ w.link_files = ["lib.o".toList, "out.o".toList, "bar.o".toList]
      ∧ ∃ v, scan sample_env (init_vars sample_env)
            (["-o".toList, "out".toList] ++ ["lib.o".toList, "-g".toList]
              ++ ("foo.bas".toList :: ["bar.bas".toList, "-c".toList, "x.s".toList])) = .ok v
          ∧ v.bas_files = [] ++ bas_jobs sample_env "out".toList "foo.bas".toList
              ++ (file_args false ["bar.bas".toList, "-c".toList, "x.s".toList]).flatMap
                  (fun g => bas_jobs sample_env g g)
          ∧ v.got_outname = false := by
  have h : ∃ w, scan sample_env (init_vars sample_env)
        (["-o".toList, "out".toList] ++ ["lib.o".toList, "-g".toList]
          ++ ("foo.bas".toList :: (["bar.bas".toList, "-c".toList, "x.s".toList]
            ++ ["-o".toList, "z".toList, "y.bas".toList]))) = .ok w
      ∧ w.bas_files =
          [("foo.bas".toList, "out.asm".toList), ("bar.bas".toList, "bar.asm".toList),
           ("y.bas".toList, "z.asm".toList)]
      ∧ w.asm_files =
          [("out.asm".toList, "out.o".toList), ("bar.asm".toList, "bar.o".toList),
           ("x.s".toList, "x.o".toList)]
      ∧ w.link_files = ["lib.o".toList, "out.o".toList, "bar.o".toList] :=
    ⟨_, rfl, by decide, by decide, by decide⟩
  obtain ⟨w, hw, h1, h2, h3⟩ := h
  obtain ⟨v1, k1, -, -, -, -, -, k5, -, -, k⟩ :=
    C5_output_name_consumed_once sample_env (init_vars sample_env) w
      ["-o".toList, "out".toList] "out".toList ["lib.o".toList, "-g".toList]
      ("foo.bas".toList :: (["bar.bas".toList, "-c".toList, "x.s".toList]
        ++ ["-o".toList, "z".toList, "y.bas".toList]))
      rfl rfl (Or.inl rfl) (by decide) hw
  obtain ⟨v, rows, m1, -, -, -, m5, -, -, m8, -⟩ :=
    k "foo.bas".toList ["bar.bas".toList, "-c".toList, "x.s".toList]
      ["-o".toList, "z".toList, "y.bas".toList] rfl (by decide) (by decide) (by decide)
  refine ⟨w, hw, h1, h2, h3, v, ?_, ?_, m8⟩
  · have e : ["-o".toList, "out".toList] ++ ["lib.o".toList, "-g".toList]
        ++ ("foo.bas".toList :: ["bar.bas".toList, "-c".toList, "x.s".toList])
        = (["-o".toList, "out".toList] ++ ["lib.o".toList, "-g".toList])
          ++ ("foo.bas".toList :: ["bar.bas".toList, "-c".toList, "x.s".toList]) := rfl
    rw [e, scan_append, k1]
    exact m1
  · rw [m5, k5]
    rfl

/-- C17: for every argument list that the loop accepts, the sources of the
BAS jobs are the file arguments classified as BASIC (extension not o, obj, s
or asm), in command-line order. The rows `job_names` are the file arguments
in command-line order, each file `f` with the name `n` its jobs derive from
(its own name or a name supplied by `-o`). When `-c` is absent, the three
lists are made from these rows in their order: the link inputs have one entry
per file argument, `f` itself for an object file and else `n.o`, the object
of that file's ASM job; the ASM jobs have one entry per file argument that is
not an object file, `(f, n.o)` for an assembly file and `(n.asm, n.o)` for a
BASIC file; the BAS jobs have the entry `(f, n.asm)` per BASIC file. With no
`-o` option every file has its own name. -/
theorem C17_command_line_order (env : Env) (args : List Str) (v : Vars)
    (hs : scan env (init_vars env) args = .ok v) :
    v.bas_files.map Prod.fst = (file_args false args).filter (is_basic env)
    ∧ (job_names env false false [] args).map Prod.fst = file_args false args
    ∧ (∀ r ∈ job_names env false false [] args,
        r.2 = r.1 ∨ r.2 ∈ output_values false args)
    ∧ (has_flag "-c".toList false args = false →
        v.bas_files = ((job_names env false false [] args).filter
            (fun r => is_basic env r.1)).map
            (fun r => (r.1, env.add_extension r.2 ".asm".toList))
        ∧ v.asm_files = ((job_names env false false [] args).filter
            (fun r => !(is_object env r.1))).map
            (fun r =>
              if is_assembly env r.1 then (r.1, env.add_extension r.2 ".o".toList)
              else (env.add_extension r.2 ".asm".toList,
                env.add_extension r.2 ".o".toList))
        ∧ v.link_files = (job_names env false false [] args).map
            (fun r => if is_object env r.1 then r.1
              else env.add_extension r.2 ".o".toList))
    ∧ (has_flag "-c".toList false args = false → output_values false args = [] →
        v.bas_files = ((file_args false args).filter (is_basic env)).map
            (fun f => (f, env.add_extension f ".asm".toList))
        ∧ v.asm_files = ((file_args false args).filter (fun f => !(is_object env f))).map
            (fun f =>
              if is_assembly env f then (f, env.add_extension f ".o".toList)
              else (env.add_extension f ".asm".toList, env.add_extension f ".o".toList))
        ∧ v.link_files = (file_args false args).map
            (fun f => if is_object env f then f else env.add_extension f ".o".toList)) := by
  have hsrc := scan_bas_sources env args _ v hs
  obtain ⟨rows, hfiles, hjn, hnames, hflags, hb, ha, hl⟩ := scan_rows env args _ v hs
  have hjn2 : rows.map (fun r => (r.1, r.2.1)) = job_names env false false [] args := hjn
  have hfiles2 : (rows.map (fun r => (r.1, r.2.1))).map Prod.fst = file_args false args := by
    rw [List.map_map]
    exact hfiles
  have hnames2 : ∀ r ∈ rows.map (fun r => (r.1, r.2.1)),
      r.2 = r.1 ∨ r.2 ∈ output_values false args := by
    intro r hr
    obtain ⟨x, hx, rfl⟩ := List.mem_map.mp hr
    rcases hnames x hx with k1 | ⟨k2, -, -⟩ | k3
    · exact Or.inl k1
    · cases k2
    · exact Or.inr k3
  have hb2 : v.bas_files = ((rows.map (fun r => (r.1, r.2.1))).filter
      (fun r => is_basic env r.1)).map (fun r => (r.1, env.add_extension r.2 ".asm".toList)) := by
    rw [hb, rows_bas_jobs]
    rfl
  have hrows : has_flag "-c".toList false args = false →
      v.asm_files = ((rows.map (fun r => (r.1, r.2.1))).filter
          (fun r => !(is_object env r.1))).map
          (fun r =>
            if is_assembly env r.1 then (r.1, env.add_extension r.2 ".o".toList)
            else (env.add_extension r.2 ".asm".toList, env.add_extension r.2 ".o".toList))
      ∧ v.link_files = (rows.map (fun r => (r.1, r.2.1))).map
          (fun r => if is_object env r.1 then r.1 else env.add_extension r.2 ".o".toList) := by
    intro hc
    have hfalse : ∀ r ∈ rows, r.2.2 = false := fun r hr => hflags hc r hr
    constructor
    · rw [ha, rows_asm_jobs env rows hfalse]
      rfl
    · rw [hl, rows_link_inputs env rows hfalse]
      rfl
  have hown : output_values false args = [] →
      rows.map (fun r => (r.1, r.2.1)) = (file_args false args).map (fun f => (f, f)) := by
    intro hno
    apply rows_own_names _ _ hfiles2
    intro r hr
    rcases hnames2 r hr with k1 | k2
    · exact k1
    · rw [hno] at k2
      cases k2
  refine ⟨by simpa [init_vars] using hsrc, ?_, ?_, ?_, ?_⟩
  · rw [← hjn2]
    exact hfiles2
  · rw [← hjn2]
    exact hnames2
  · intro hc
    rw [← hjn2]
    exact ⟨hb2, (hrows hc).1, (hrows hc).2⟩
  · intro hc hno
    obtain ⟨k1, k2⟩ := hrows hc
    rw [hown hno] at hb2 k1 k2
    refine ⟨?_, ?_, ?_⟩
    · rw [hb2, List.filter_map, List.map_map]
      rfl
    · rw [k1, List.filter_map, List.map_map]
      rfl
    · rw [k2, List.map_map]
      rfl

/-- Witness of C17: `b.asm -o x a.bas lib.o c.bas` keeps the order of its
four file arguments in the three lists, and `a.bas` takes the name `x`. -/
theorem C17_command_line_order_witness :
    ∃ v, scan sample_env (init_vars sample_env)
        ["b.asm".toList, "-o".toList, "x".toList, "a.bas".toList, "lib.o".toList,
          "c.bas".toList] = .ok v
      ∧ job_names sample_env false false []
          ["b.asm".toList, "-o".toList, "x".toList, "a.bas".toList, "lib.o".toList,
            "c.bas".toList]
        = [("b.asm".toList, "b.asm".toList), ("a.bas".toList, "x".toList),
           ("lib.o".toList, "lib.o".toList), ("c.bas".toList, "c.bas".toList)]
      ∧ v.bas_files = [("a.bas".toList, "x.asm".toList), ("c.bas".toList, "c.asm".toList)]
      ∧ v.asm_files = [("b.asm".toList, "b.o".toList), ("x.asm".toList, "x.o".toList),
          ("c.asm".toList, "c.o".toList)]
      ∧ v.link_files = ["b.o".toList, "x.o".toList, "lib.o".toList, "c.o".toList]
      ∧ v.link_files
          = (job_names sample_env false false []
              ["b.asm".toList, "-o".toList, "x".toList, "a.bas".toList, "lib.o".toList,
                "c.bas".toList]).map
            (fun r => if is_object sample_env r.1 then r.1
              else sample_env.add_extension r.2 ".o".toList) := by
  have h : ∃ v, scan sample_env (init_vars sample_env)
      ["b.asm".toList, "-o".toList, "x".toList, "a.bas".toList, "lib.o".toList,
        "c.bas".toList] = .ok v
      ∧ v.bas_files = [("a.bas".toList, "x.asm".toList), ("c.bas".toList, "c.asm".toList)]
      ∧ v.asm_files = [("b.asm".toList, "b.o".toList), ("x.asm".toList, "x.o".toList),
          ("c.asm".toList, "c.o".toList)]
      ∧ v.link_files = ["b.o".toList, "x.o".toList, "lib.o".toList, "c.o".toList] :=
    ⟨_, rfl, by decide, by decide, by decide⟩
  obtain ⟨v, hv, h1, h2, h3⟩ := h
  exact ⟨v, hv, by decide, h1, h2, h3,
    ((C17_command_line_order sample_env _ v hv).2.2.2.1 (by decide)).2.2⟩

/-! ## The statuses of the tool runs -/

/-- The tool runs of a list of events, event by event. -/
theorem calls_ok_cons (env : Env) (p : Plan) (t : List Event) (e : Event)
    (rest : List Event) :
    calls_ok env p t (e :: rest)
      = ((match call_status env p t e with
          | some s => decide (s = 0)
          | none => true)
        && calls_ok env p (t ++ [e]) rest) := rfl

/-- Every tool run of two lists of events in a row returned 0 exactly when
those of the first and those of the second did. -/
theorem calls_ok_append (env : Env) (p : Plan) (a b : List Event) :
    ∀ t : List Event,
      calls_ok env p t (a ++ b) = (calls_ok env p t a && calls_ok env p (t ++ a) b) := by
  induction a with
  | nil => intro t; simp [calls_ok]
  | cons e rest ih =>
    intro t
    have e1 : t ++ e :: rest = t ++ [e] ++ rest := by simp
    rw [List.cons_append, calls_ok_cons, calls_ok_cons, ih (t ++ [e]), e1, Bool.and_assoc]

/-- Events that are all text or removals record no tool run. -/
theorem calls_ok_silent (env : Env) (p : Plan) (a : List Event)
    (h : ∀ e ∈ a, (∃ x, e = Event.print x) ∨ ∃ x, e = Event.remove x) :
    ∀ t : List Event, calls_ok env p t a = true := by
  induction a with
  | nil => intro t; rfl
  | cons e rest ih =>
    intro t
    have hrest := ih (fun x hx => h x (List.mem_cons_of_mem _ hx)) (t ++ [e])
    rcases h e (List.mem_cons_self _ _) with ⟨x, rfl⟩ | ⟨x, rfl⟩ <;>
      simp [calls_ok, call_status, hrest]

/-- When every tool run of a list of events returned 0, so did each one of
them. -/
theorem calls_ok_at (env : Env) (p : Plan) (a : List Event) :
    ∀ t : List Event, calls_ok env p t a = true →
      ∀ (pre : List Event) (e : Event) (rest : List Event) (s : Int),
        a = pre ++ e :: rest → call_status env p (t ++ pre) e = some s → s = 0 := by
  intro t h pre e rest s ha hs
  rw [ha, calls_ok_append] at h
  simp only [Bool.and_eq_true, calls_ok, hs, decide_eq_true_eq] at h
  exact h.2.1

/-- A run that ends with a tool run of non-zero status, followed only by
text, after tool runs that all returned 0, has no other tool run of non-zero
status: the failing run is the last one. -/
theorem failing_call_last (env : Env) (p : Plan) (pre tail t rest : List Event)
    (e x : Event) (s : Int)
    (hpre : calls_ok env p [] pre = true)
    (htail : ∀ y ∈ tail, ∃ text, y = Event.print text)
    (heq : pre ++ e :: tail = t ++ x :: rest)
    (hs : call_status env p t x = some s) (hne : s ≠ 0) :
    t = pre ∧ x = e ∧ rest = tail := by
  rcases List.append_eq_append_iff.mp heq with ⟨a, h1, h2⟩ | ⟨c, h1, h2⟩
  · cases a with
    | nil =>
      simp only [List.nil_append, List.cons.injEq] at h2
      simp only [List.append_nil] at h1
      exact ⟨h1, h2.1.symm, h2.2.symm⟩
    | cons y a2 =>
      simp only [List.cons_append, List.cons.injEq] at h2
      have hx : x ∈ tail := by
        rw [h2.2]
        simp
      obtain ⟨text, rfl⟩ := htail x hx
      simp [call_status] at hs
  · cases c with
    | nil =>
      simp only [List.nil_append, List.cons.injEq] at h2
      simp only [List.append_nil] at h1
      exact ⟨h1.symm, h2.1, h2.2⟩
    | cons y c2 =>
      simp only [List.cons_append, List.cons.injEq] at h2
      have h0 := calls_ok_at env p pre [] hpre t x c2 s
        (by rw [h1, h2.1]) (by simpa using hs)
      exact absurd h0 hne

/-- One round of the translate loop: some text, then the translator call,
then the return or the next round. -/
theorem translate_step (env : Env) (p : Plan) (bas_name asm_name : Str)
    (rest : List (Str × Str)) (r : Run) :
    ∃ (prints : List Event) (temps : List Str), (∀ e ∈ prints, ∃ x, e = Event.print x)
      ∧ translate env p ((bas_name, asm_name) :: rest) r =
        if env.compile_file (r.trace ++ prints) p.v.comp bas_name asm_name p.tgt
            (env.add_extension bas_name p.v.listing_ext) ≠ 0 then
          .error ⟨env.compile_file (r.trace ++ prints) p.v.comp bas_name asm_name p.tgt
              (env.add_extension bas_name p.v.listing_ext),
            ⟨r.trace ++ prints ++ [Event.compile bas_name asm_name
              (env.add_extension bas_name p.v.listing_ext)], r.temp_files⟩⟩
        else
          translate env p rest
            ⟨r.trace ++ prints ++ [Event.compile bas_name asm_name
              (env.add_extension bas_name p.v.listing_ext)], temps⟩ := by
  cases hst : p.v.comp.show_text with
  | false =>
    refine ⟨[Event.print ("BAS compile '".toList ++ bas_name ++ "' to '".toList ++ asm_name
        ++ "'\n".toList)],
      (if ¬ p.v.one_step = true then r.temp_files ++ [asm_name] else r.temp_files), ?_, ?_⟩
    · intro e he
      exact ⟨_, List.mem_singleton.mp he⟩
    · simp only [translate, hst, Bool.false_eq_true, if_false]
  | true =>
    refine ⟨[Event.print ("BAS compile '".toList ++ bas_name ++ "' to '".toList ++ asm_name
        ++ "'\n".toList),
      Event.print ("    with ".toList
          ++ (if p.v.comp.short_text ≠ 0 then "minimized".toList else "expanded".toList)
          ++ " listing to '".toList ++ env.add_extension bas_name p.v.listing_ext
          ++ "'\n".toList)],
      (if ¬ p.v.one_step = true then r.temp_files ++ [asm_name] else r.temp_files), ?_, ?_⟩
    · intro e he
      simp only [List.mem_cons, List.mem_singleton, List.not_mem_nil, or_false] at he
      rcases he with he | he <;> exact ⟨_, he⟩
    · simp only [translate, hst, if_true, List.append_assoc, List.singleton_append,
        List.cons_append, List.nil_append]

/-- The tool runs of the translate loop: when it ends normally every
translator call returned 0; when it returns early the last event is a
translator call with a non-zero status, which is the status returned, and
every call before it returned 0. -/
theorem translate_calls (env : Env) (p : Plan) (jobs : List (Str × Str)) :
    ∀ r : Run,
      (∀ r2, translate env p jobs r = .ok r2 →
        ∃ ext, r2.trace = r.trace ++ ext ∧ calls_ok env p r.trace ext = true)
      ∧ (∀ h, translate env p jobs r = .error h →
        ∃ pre b a l, h.run.trace = r.trace ++ pre ++ [Event.compile b a l]
          ∧ calls_ok env p r.trace pre = true
          ∧ h.status = env.compile_file (r.trace ++ pre) p.v.comp b a p.tgt l
          ∧ h.status ≠ 0) := by
  induction jobs with
  | nil =>
    intro r
    constructor
    · intro r2 h
      simp only [translate] at h
      cases h
      exact ⟨[], by simp, rfl⟩
    · intro h hh
      simp only [translate] at hh
      cases hh
  | cons job rest ih =>
    intro r
    obtain ⟨bas_name, asm_name⟩ := job
    obtain ⟨prints, temps, hpr, heq⟩ := translate_step env p bas_name asm_name rest r
    have hsil : calls_ok env p r.trace prints = true :=
      calls_ok_silent env p prints (fun e he => Or.inl (hpr e he)) _
    rw [heq]
    by_cases he : env.compile_file (r.trace ++ prints) p.v.comp bas_name asm_name p.tgt
        (env.add_extension bas_name p.v.listing_ext) ≠ 0
    · rw [if_pos he]
      constructor
      · intro r2 h
        cases h
      · intro h hh
        cases hh
        exact ⟨prints, bas_name, asm_name, _, rfl, hsil, rfl, he⟩
    · rw [if_neg he]
      have he0 : env.compile_file (r.trace ++ prints) p.v.comp bas_name asm_name p.tgt
          (env.add_extension bas_name p.v.listing_ext) = 0 := by
        by_contra c
        exact he c
      have hstep : calls_ok env p r.trace (prints ++ [Event.compile bas_name asm_name
          (env.add_extension bas_name p.v.listing_ext)]) = true := by
        rw [calls_ok_append, hsil]
        simp [calls_ok, call_status, he0]
      obtain ⟨ih1, ih2⟩ := ih ⟨r.trace ++ prints ++ [Event.compile bas_name asm_name
        (env.add_extension bas_name p.v.listing_ext)], temps⟩
      constructor
      · intro r2 h
        obtain ⟨ext, h1, h2⟩ := ih1 r2 h
        refine ⟨prints ++ [Event.compile bas_name asm_name
          (env.add_extension bas_name p.v.listing_ext)] ++ ext, ?_, ?_⟩
        · rw [h1]
          simp only [List.append_assoc]
        · rw [calls_ok_append, hstep, Bool.true_and]
          simp only [List.append_assoc] at h2 ⊢
          exact h2
      · intro h hh
        obtain ⟨pre, b, a, l, h1, h2, h3, h4⟩ := ih2 h hh
        refine ⟨prints ++ [Event.compile bas_name asm_name
          (env.add_extension bas_name p.v.listing_ext)] ++ pre, b, a, l, ?_, ?_, ?_, h4⟩
        · rw [h1]
          simp only [List.append_assoc]
        · rw [calls_ok_append, hstep, Bool.true_and]
          simp only [List.append_assoc] at h2 ⊢
          exact h2
        · rw [h3]
          simp only [List.append_assoc]

/-- The tool runs of the assemble loop: when it ends normally every
assembler run returned 0; when it returns early the last events are an
assembler run with a non-zero status and the error message, the status
returned is 1, and every run before returned 0. -/
theorem assemble_calls (env : Env) (p : Plan) (jobs : List (Str × Str)) :
    ∀ r : Run,
      (∀ r2, assemble env p jobs r = .ok r2 →
        ∃ ext, r2.trace = r.trace ++ ext ∧ calls_ok env p r.trace ext = true)
      ∧ (∀ h, assemble env p jobs r = .error h →
        ∃ pre a, h.run.trace = r.trace ++ pre ++ [Event.exec "ca65".toList a,
            Event.print ("fastbasic: ".toList ++ "can't assemble file\n".toList
              ++ "\n".toList)]
          ∧ calls_ok env p r.trace pre = true
          ∧ env.prog_exec (r.trace ++ pre) "ca65".toList a ≠ 0
          ∧ h.status = 1) := by
  induction jobs with
  | nil =>
    intro r
    constructor
    · intro r2 h
      simp only [assemble] at h
      cases h
      exact ⟨[], by simp, rfl⟩
    · intro h hh
      simp only [assemble] at hh
      cases hh
  | cons job rest ih =>
    intro r
    obtain ⟨asm_name, obj_name⟩ := job
    simp only [assemble]
    by_cases he : env.prog_exec (r.trace ++ [Event.print ("ASM assemble '".toList ++ asm_name
        ++ "' to '".toList ++ obj_name ++ "'\n".toList)]) "ca65".toList
        (ca65_args env p asm_name obj_name) ≠ 0
    · rw [if_pos he]
      constructor
      · intro r2 h
        cases h
      · intro h hh
        cases hh
        refine ⟨[_], _, ?_, ?_, he, rfl⟩
        · simp only [show_error, List.append_assoc, List.singleton_append, List.cons_append,
            List.nil_append]
        · rfl
    · rw [if_neg he]
      have he0 : env.prog_exec (r.trace ++ [Event.print ("ASM assemble '".toList ++ asm_name
          ++ "' to '".toList ++ obj_name ++ "'\n".toList)]) "ca65".toList
          (ca65_args env p asm_name obj_name) = 0 := by
        by_contra c
        exact he c
      have hstep : calls_ok env p r.trace
          [Event.print ("ASM assemble '".toList ++ asm_name
            ++ "' to '".toList ++ obj_name ++ "'\n".toList),
           Event.exec "ca65".toList (ca65_args env p asm_name obj_name)] = true := by
        simp only [calls_ok, call_status, he0]
        rfl
      obtain ⟨ih1, ih2⟩ := ih ⟨r.trace ++ [Event.print ("ASM assemble '".toList ++ asm_name
          ++ "' to '".toList ++ obj_name ++ "'\n".toList)]
          ++ [Event.exec "ca65".toList (ca65_args env p asm_name obj_name)],
        if ¬ p.v.one_step = true then r.temp_files ++ [obj_name] else r.temp_files⟩
      constructor
      · intro r2 h
        obtain ⟨ext, h1, h2⟩ := ih1 r2 h
        refine ⟨[Event.print ("ASM assemble '".toList ++ asm_name
            ++ "' to '".toList ++ obj_name ++ "'\n".toList),
           Event.exec "ca65".toList (ca65_args env p asm_name obj_name)] ++ ext, ?_, ?_⟩
        · rw [h1]
          simp only [List.append_assoc, List.singleton_append, List.cons_append,
            List.nil_append]
        · rw [calls_ok_append, hstep, Bool.true_and]
          simp only [List.append_assoc, List.singleton_append] at h2 ⊢
          exact h2
      · intro h hh
        obtain ⟨pre, a, h1, h2, h3, h4⟩ := ih2 h hh
        refine ⟨[Event.print ("ASM assemble '".toList ++ asm_name
            ++ "' to '".toList ++ obj_name ++ "'\n".toList),
           Event.exec "ca65".toList (ca65_args env p asm_name obj_name)] ++ pre, a,
          ?_, ?_, ?_, h4⟩
        · rw [h1]
          simp only [List.append_assoc, List.singleton_append, List.cons_append,
            List.nil_append]
        · rw [calls_ok_append, hstep, Bool.true_and]
          simp only [List.append_assoc, List.singleton_append] at h2 ⊢
          exact h2
        · simp only [List.append_assoc, List.singleton_append, List.cons_append,
            List.nil_append] at h3 ⊢
          exact h3

/-- The tool run of the link step: when the step ends normally the linker
run, if any, returned 0; when it returns early the last events are the
linker run with a non-zero status and the error message, and the status
returned is 1. -/
theorem link_calls (env : Env) (p : Plan) (r : Run) :
    (∀ r2, link env p r = .ok r2 →
      ∃ ext, r2.trace = r.trace ++ ext ∧ calls_ok env p r.trace ext = true)
    ∧ (∀ h, link env p r = .error h →
      ∃ pre a, h.run.trace = r.trace ++ pre ++ [Event.exec "ld65".toList a,
          Event.print ("fastbasic: ".toList ++ "can't assemble file\n".toList
            ++ "\n".toList)]
        ∧ calls_ok env p r.trace pre = true
        ∧ env.prog_exec (r.trace ++ pre) "ld65".toList a ≠ 0
        ∧ h.status = 1) := by
  simp only [link]
  by_cases hl : p.v.link_files.length ≠ 0
  · rw [if_pos hl]
    by_cases he : env.prog_exec (r.trace ++ [Event.print ("LINK ".toList ++ p.v.exe_name
        ++ "\n".toList)]) "ld65".toList (ld65_args env p) ≠ 0
    · rw [if_pos he]
      constructor
      · intro r2 h
        cases h
      · intro h hh
        cases hh
        refine ⟨[_], _, ?_, ?_, he, rfl⟩
        · simp only [show_error, List.append_assoc, List.singleton_append, List.cons_append,
            List.nil_append]
        · rfl
    · rw [if_neg he]
      have he0 : env.prog_exec (r.trace ++ [Event.print ("LINK ".toList ++ p.v.exe_name
          ++ "\n".toList)]) "ld65".toList (ld65_args env p) = 0 := by
        by_contra c
        exact he c
      constructor
      · intro r2 h
        cases h
        refine ⟨[Event.print ("LINK ".toList ++ p.v.exe_name ++ "\n".toList),
          Event.exec "ld65".toList (ld65_args env p)], ?_, ?_⟩
        · simp only [List.append_assoc, List.singleton_append]
        · simp only [calls_ok, call_status, he0]
          rfl
      · intro h hh
        cases hh
  · rw [if_neg hl]
    constructor
    · intro r2 h
      cases h
      exact ⟨[], by simp, rfl⟩
    · intro h hh
      cases hh

/-- The tool runs of the pipeline: when it goes through all its phases every
tool run returned 0; when it returns early, the tool runs before the last one
returned 0 and the last one did not, and it is either a translator call, the
last event, whose status is returned, with no external program run so far, or
an assembler run or the linker run, followed by the error message, with the
status 1, the assembler run with no linker run so far. -/
theorem execute_run_calls (env : Env) (p : Plan) :
    (∀ r, execute_run env p = .ok r → calls_ok env p [] r.trace = true)
    ∧ (∀ h, execute_run env p = .error h →
      ∃ pre e tail s, h.run.trace = pre ++ e :: tail ∧ calls_ok env p [] pre = true
        ∧ call_status env p pre e = some s ∧ s ≠ 0
        ∧ (((∃ b a l, e = Event.compile b a l) ∧ tail = [] ∧ h.status = s
            ∧ ∀ x ∈ h.run.trace, ∀ prog y, x ≠ Event.exec prog y)
          ∨ ((∃ a, e = Event.exec "ca65".toList a)
            ∧ tail = [Event.print ("fastbasic: ".toList ++ "can't assemble file\n".toList
                ++ "\n".toList)]
            ∧ h.status = 1 ∧ ∀ x ∈ h.run.trace, ∀ y, x ≠ Event.exec "ld65".toList y)
          ∨ ((∃ a, e = Event.exec "ld65".toList a)
            ∧ tail = [Event.print ("fastbasic: ".toList ++ "can't assemble file\n".toList
                ++ "\n".toList)]
            ∧ h.status = 1))) := by
  obtain ⟨t1, t2⟩ := translate_calls env p p.v.bas_files ⟨[], p.v.temp_files⟩
  have hTev := translate_events env p p.v.bas_files ⟨[], p.v.temp_files⟩
  rcases execute_cases env p with ⟨h, h1, hx⟩ | ⟨r1, h, h1, h2, hx⟩
    | ⟨r1, r2, h, h1, h2, h3, hx⟩ | ⟨r1, r2, r3, h1, h2, h3, hx⟩
  · rw [hx]
    constructor
    · intro r hr
      cases hr
    · intro h' hh
      cases hh
      obtain ⟨pre, b, a, l, k1, k2, k3, k4⟩ := t2 h h1
      simp only [List.nil_append] at k1 k3
      refine ⟨pre, Event.compile b a l, [], h.status, k1, k2, ?_, k4, Or.inl ⟨⟨b, a, l, rfl⟩,
        rfl, rfl, ?_⟩⟩
      · simp only [call_status, k3]
      · intro x hx2 prog y
        rw [h1] at hTev
        rcases hTev x hx2 with c | ⟨z, rfl⟩ | ⟨z1, z2, z3, rfl⟩
        · simp at c
        · exact fun c => Event.noConfusion c
        · exact fun c => Event.noConfusion c
  · rw [hx]
    obtain ⟨ext1, e1, e2⟩ := t1 r1 h1
    simp only [List.nil_append] at e1
    obtain ⟨-, a2⟩ := assemble_calls env p p.v.asm_files r1
    constructor
    · intro r hr
      cases hr
    · intro h' hh
      cases hh
      obtain ⟨pre, a, k1, k2, k3, k4⟩ := a2 h h2
      rw [e1] at k1 k2 k3
      refine ⟨ext1 ++ pre, Event.exec "ca65".toList a, _, _, ?_, ?_, rfl, k3,
        Or.inr (Or.inl ⟨⟨a, rfl⟩, rfl, k4, ?_⟩)⟩
      · rw [k1]
      · rw [calls_ok_append, e2, Bool.true_and]
        simpa using k2
      · intro x hx2 y
        have hA := assemble_events env p p.v.asm_files r1
        rw [h2] at hA
        rcases hA x hx2 with c | ⟨z, rfl⟩ | ⟨z, rfl⟩
        · rw [h1] at hTev
          rcases hTev x c with c2 | ⟨z, rfl⟩ | ⟨z1, z2, z3, rfl⟩
          · simp at c2
          · exact fun c => Event.noConfusion c
          · exact fun c => Event.noConfusion c
        · exact fun c => Event.noConfusion c
        · intro c
          injection c with c1 c2
          exact absurd c1 (by decide)
  · rw [hx]
    obtain ⟨ext1, e1, e2⟩ := t1 r1 h1
    simp only [List.nil_append] at e1
    obtain ⟨a1, -⟩ := assemble_calls env p p.v.asm_files r1
    obtain ⟨ext2, e3, e4⟩ := a1 r2 h2
    obtain ⟨-, l2⟩ := link_calls env p r2
    constructor
    · intro r hr
      cases hr
    · intro h' hh
      cases hh
      obtain ⟨pre, a, k1, k2, k3, k4⟩ := l2 h h3
      rw [e3, e1] at k1 k2 k3
      rw [e1] at e4
      refine ⟨ext1 ++ ext2 ++ pre, Event.exec "ld65".toList a, _, _, ?_, ?_, rfl, k3,
        Or.inr (Or.inr ⟨⟨a, rfl⟩, rfl, k4⟩)⟩
      · rw [k1]
      · rw [calls_ok_append, calls_ok_append, e2, Bool.true_and]
        simp only [List.nil_append] at e4 k2 ⊢
        rw [e4, Bool.true_and]
        exact k2
  · rw [hx]
    obtain ⟨ext1, e1, e2⟩ := t1 r1 h1
    simp only [List.nil_append] at e1
    obtain ⟨a1, -⟩ := assemble_calls env p p.v.asm_files r1
    obtain ⟨ext2, e3, e4⟩ := a1 r2 h2
    obtain ⟨l1, -⟩ := link_calls env p r2
    obtain ⟨ext3, e5, e6⟩ := l1 r3 h3
    rw [e3, e1] at e5 e6
    rw [e1] at e4
    constructor
    · intro r hr
      cases hr
      rw [e5, calls_ok_append, calls_ok_append, e2, Bool.true_and]
      simp only [List.nil_append] at e4 e6 ⊢
      rw [e4, Bool.true_and]
      exact e6
    · intro h' hh
      cases hh

/-- The pipeline is fail-fast on the statuses of its tools: a tool run of
the run with a non-zero status is the last tool run, a translator call ends
the run with its status and before any external program, an assembler or
linker run is followed by the error message alone and ends the run with
status 1; and a run with a non-zero status has a tool run with a non-zero
status. -/
theorem execute_fail_fast (env : Env) (p : Plan) :
    (∀ t e rest s, (execute env p).trace = t ++ e :: rest →
      call_status env p t e = some s → s ≠ 0 →
        ((∃ b a l, e = Event.compile b a l) ∧ rest = [] ∧ (execute env p).status = s
          ∧ ∀ x ∈ (execute env p).trace, ∀ prog y, x ≠ Event.exec prog y)
        ∨ ((∃ a, e = Event.exec "ca65".toList a)
          ∧ rest = [Event.print ("fastbasic: ".toList ++ "can't assemble file\n".toList
              ++ "\n".toList)]
          ∧ (execute env p).status = 1
          ∧ ∀ x ∈ (execute env p).trace, ∀ y, x ≠ Event.exec "ld65".toList y)
        ∨ ((∃ a, e = Event.exec "ld65".toList a)
          ∧ rest = [Event.print ("fastbasic: ".toList ++ "can't assemble file\n".toList
              ++ "\n".toList)]
          ∧ (execute env p).status = 1))
    ∧ ((execute env p).status ≠ 0 →
        ∃ t e rest s, (execute env p).trace = t ++ e :: rest
          ∧ call_status env p t e = some s ∧ s ≠ 0) := by
  obtain ⟨c1, c2⟩ := execute_run_calls env p
  cases hr : execute_run env p with
  | ok r =>
    have hst : (execute env p).status = 0 := by
      simp only [execute, hr, cleanup]
      split_ifs <;> rfl
    have hok : calls_ok env p [] (execute env p).trace = true := by
      simp only [execute, hr, cleanup]
      split_ifs
      · exact c1 r hr
      · rw [calls_ok_append, c1 r hr, Bool.true_and]
        apply calls_ok_silent
        intro e he
        obtain ⟨x, -, rfl⟩ := List.mem_map.mp he
        exact Or.inr ⟨x, rfl⟩
    constructor
    · intro t e rest s htr hs hne
      exact absurd (calls_ok_at env p _ [] hok t e rest s htr (by simpa using hs)) hne
    · intro hne
      exact absurd hst hne
  | error h =>
    have hex : execute env p = ⟨h.status, h.run.trace⟩ := by
      simp only [execute, hr]
    obtain ⟨pre, e0, tail, s0, k1, k2, k3, k4, k5⟩ := c2 h hr
    rw [hex]
    constructor
    · intro t e rest s htr hs hne
      have htail : ∀ y ∈ tail, ∃ text, y = Event.print text := by
        intro y hy
        rcases k5 with ⟨-, k, -, -⟩ | ⟨-, k, -, -⟩ | ⟨-, k, -⟩
        · rw [k] at hy
          cases hy
        · rw [k] at hy
          exact ⟨_, List.mem_singleton.mp hy⟩
        · rw [k] at hy
          exact ⟨_, List.mem_singleton.mp hy⟩
      have htr2 : pre ++ e0 :: tail = t ++ e :: rest := by
        rw [← k1]
        exact htr
      obtain ⟨u1, u2, u3⟩ := failing_call_last env p pre tail t rest e0 e s k2 htail htr2 hs hne
      subst u1 u2 u3
      have hss : s = s0 := by
        rw [k3] at hs
        exact (Option.some.inj hs).symm
      subst hss
      exact k5
    · intro _
      exact ⟨pre, e0, tail, s0, k1, k3, k4⟩

/-! ## The exit status and the tool statuses -/

/-- A run with a non-zero status removes no file. -/
theorem main_failed_no_remove (env : Env) (args : List Str)
    (hst : (main env args).status ≠ 0) :
    ∀ e ∈ (main env args).trace, ∀ name, e ≠ Event.remove name := by
  intro e he name
  cases hb : build env args with
  | error r =>
    have hm : main env args = r := by simp only [main, hb]
    rw [hm] at he
    obtain ⟨text, ht⟩ := build_error env args r hb e he
    rw [ht]
    exact fun c => Event.noConfusion c
  | ok p =>
    have hm : main env args = execute env p := by simp only [main, hb]
    rw [hm] at he hst
    have hev := execute_run_events env p
    unfold execute at he hst
    cases hx : execute_run env p with
    | error h =>
      rw [hx] at he hev
      rcases hev e he with ⟨y, rfl⟩ | ⟨y1, y2, y3, rfl⟩ | ⟨y, rfl⟩ | ⟨y, rfl⟩ <;>
        exact fun c => Event.noConfusion c
    | ok r =>
      rw [hx] at hst
      exfalso
      apply hst
      simp only [cleanup]
      split_ifs <;> rfl

/-- A run of an external program of the pipeline is an assembler run or the
linker run. -/
theorem execute_exec_prog (env : Env) (p : Plan) (t rest : List Event) (prog : Str)
    (a : List Str) (h : (execute env p).trace = t ++ Event.exec prog a :: rest) :
    prog = "ca65".toList ∨ prog = "ld65".toList := by
  have hmem : Event.exec prog a ∈ (execute env p).trace := by
    rw [h]
    simp
  rcases execute_exec env p prog a hmem with ⟨k, -⟩ | ⟨k, -⟩
  · exact Or.inl k
  · exact Or.inr k

/-- C12: the pipeline is fail-fast. A translator call that returns non-zero
is the last event of the run, so no later BAS job is translated, and the run
has started no external program, neither the assembler nor the linker; an
assembler run that returns non-zero is followed by the error message alone,
so no later ASM job is assembled, and the run has no linker run; a linker run
that returns non-zero is followed by the error message alone. After each of
them, and in every run with a non-zero status, no file is removed, with or
without `-keep`. -/
theorem C12_fail_fast (env : Env) (args : List Str) :
    (∀ p, build env args = .ok p →
      (∀ t b a l rest, (main env args).trace = t ++ Event.compile b a l :: rest →
        env.compile_file t p.v.comp b a p.tgt l ≠ 0 →
        rest = []
          ∧ (∀ e ∈ (main env args).trace, ∀ prog x, e ≠ Event.exec prog x)
          ∧ ∀ e ∈ (main env args).trace, ∀ name, e ≠ Event.remove name)
      ∧ (∀ t a rest, (main env args).trace = t ++ Event.exec "ca65".toList a :: rest →
        env.prog_exec t "ca65".toList a ≠ 0 →
        rest = [Event.print "fastbasic: can't assemble file\n\n".toList]
          ∧ (∀ e ∈ (main env args).trace, ∀ x, e ≠ Event.exec "ld65".toList x)
          ∧ ∀ e ∈ (main env args).trace, ∀ name, e ≠ Event.remove name)
      ∧ (∀ t a rest, (main env args).trace = t ++ Event.exec "ld65".toList a :: rest →
        env.prog_exec t "ld65".toList a ≠ 0 →
        rest = [Event.print "fastbasic: can't assemble file\n\n".toList]
          ∧ ∀ e ∈ (main env args).trace, ∀ name, e ≠ Event.remove name))
    ∧ ((main env args).status ≠ 0 →
      ∀ e ∈ (main env args).trace, ∀ name, e ≠ Event.remove name) := by
  refine ⟨?_, main_failed_no_remove env args⟩
  intro p hb
  have hm : main env args = execute env p := by simp only [main, hb]
  refine ⟨?_, ?_, ?_⟩
  · intro t b a l rest htr hne
    have hnr := main_failed_no_remove env args
    rw [hm] at htr hnr ⊢
    rcases (execute_fail_fast env p).1 t _ rest _ htr rfl hne with
      ⟨-, k1, k2, k3⟩ | ⟨⟨x, hx⟩, -⟩ | ⟨⟨x, hx⟩, -⟩
    · exact ⟨k1, k3, hnr (by rw [k2]; exact hne)⟩
    · exact Event.noConfusion hx
    · exact Event.noConfusion hx
  · intro t a rest htr hne
    have hnr := main_failed_no_remove env args
    rw [hm] at htr hnr ⊢
    rcases (execute_fail_fast env p).1 t _ rest _ htr rfl hne with
      ⟨⟨x, y, z, hx⟩, -⟩ | ⟨-, k1, k2, k3⟩ | ⟨⟨x, hx⟩, -⟩
    · exact Event.noConfusion hx
    · exact ⟨k1, k3, hnr (by rw [k2]; decide)⟩
    · injection hx with c1 c2
      exact absurd c1 (by decide)
  · intro t a rest htr hne
    have hnr := main_failed_no_remove env args
    rw [hm] at htr hnr ⊢
    rcases (execute_fail_fast env p).1 t _ rest _ htr rfl hne with
      ⟨⟨x, y, z, hx⟩, -⟩ | ⟨⟨x, hx⟩, -⟩ | ⟨-, k1, k2⟩
    · exact Event.noConfusion hx
    · injection hx with c1 c2
      exact absurd c1 (by decide)
    · exact ⟨k1, hnr (by rw [k2]; decide)⟩

/-- Witness of C12: with an assembler that returns 1 and without `-keep`,
the run of `foo.bas bar.bas` translates both files, ends after the first
assembler run with the error message and removes nothing. -/
theorem C12_fail_fast_witness :
    (main (tools_env 0 1 0) ["foo.bas".toList, "bar.bas".toList]).trace
      = [Event.print "BAS compile 'foo.bas' to 'foo.asm'\n".toList,
         Event.compile "foo.bas".toList "foo.asm".toList "foo.list".toList,
         Event.print "BAS compile 'bar.bas' to 'bar.asm'\n".toList,
         Event.compile "bar.bas".toList "bar.asm".toList "bar.list".toList,
         Event.print "ASM assemble 'foo.asm' to 'foo.o'\n".toList]
        ++ Event.exec "ca65".toList ["ca65".toList, "-I".toList, "asminc".toList,
            "-o".toList, "foo.o".toList, "-g".toList, "foo.asm".toList]
          :: [Event.print "fastbasic: can't assemble file\n\n".toList]
    ∧ (∀ e ∈ (main (tools_env 0 1 0) ["foo.bas".toList, "bar.bas".toList]).trace,
        ∀ x, e ≠ Event.exec "ld65".toList x)
    ∧ ∀ e ∈ (main (tools_env 0 1 0) ["foo.bas".toList, "bar.bas".toList]).trace,
        ∀ name, e ≠ Event.remove name := by
  have h : ∃ p, build (tools_env 0 1 0) ["foo.bas".toList, "bar.bas".toList] = .ok p :=
    ⟨_, rfl⟩
  obtain ⟨p, hp⟩ := h
  have htr : (main (tools_env 0 1 0) ["foo.bas".toList, "bar.bas".toList]).trace
      = [Event.print "BAS compile 'foo.bas' to 'foo.asm'\n".toList,
         Event.compile "foo.bas".toList "foo.asm".toList "foo.list".toList,
         Event.print "BAS compile 'bar.bas' to 'bar.asm'\n".toList,
         Event.compile "bar.bas".toList "bar.asm".toList "bar.list".toList,
         Event.print "ASM assemble 'foo.asm' to 'foo.o'\n".toList]
        ++ Event.exec "ca65".toList ["ca65".toList, "-I".toList, "asminc".toList,
            "-o".toList, "foo.o".toList, "-g".toList, "foo.asm".toList]
          :: [Event.print "fastbasic: can't assemble file\n\n".toList] := by decide
  have k := (C12_fail_fast (tools_env 0 1 0) ["foo.bas".toList, "bar.bas".toList]).1 p hp
  exact ⟨htr, (k.2.1 _ _ _ htr (by decide)).2.1, (k.2.1 _ _ _ htr (by decide)).2.2⟩

end FastBasic
